import Mathlib

/-!
# donut.cpp : a rotating ASCII torus

A shallow embedding of `Everyday Coding - C,C++/donut.cpp`.

Modelling conventions.
* The sampler, the rotation, the projector and the two grids are modelled with `double`
  read as the real numbers `ℝ`: `std::sin`, `std::cos`, `std::sqrt`, `std::acos` become
  `Real.sin`, `Real.cos`, `Real.sqrt`, `Real.arccos`, and rounding error is not
  modelled.  Definitions that divide or call one of these functions are therefore
  marked `noncomputable`.  This reading is used for what does not depend on the last
  place of a double: the order of the rotations, the strict depth test and the order
  of the samples, the bounds test, and bounds that hold with a margin.
* `Point::Normalize`, `Point::Dot`, the light direction and the domain of `std::acos`
  are modelled a second time in IEEE-754 binary64 arithmetic, `F64`: a finite double is
  the rational number it denotes, every `+`, `*`, `/` and `std::sqrt` is the exact result
  rounded to nearest, ties to even, with 53 significant bits, gradual underflow and
  overflow to an infinity; invalid operations give a NaN.  The sign of zero is not
  tracked.  The definitions over `F64` carry the suffix `64`.  The library functions
  `std::sin`, `std::cos`, `std::acos` and `std::atan` have no model in `F64`: the C++
  standard does not fix their rounding.
* Where a statement about frame 0 rests on the value of `std::round`, it comes with a
  lower bound on the distance of the argument from the nearest rounding tie, so that it
  does not rest on the last place of a double.  The bounds come from certified
  enclosures of the cosines and sines of the sample angles (`Encl`, `quadTable`).
* `int` is read as `ℤ`; `uint8_t` / `uint16_t` constants are naturals.
* The two stack arrays `screen[kHeight][kWidth]` and `z_buffer[kHeight][kWidth]`
  are functions on `Fin kHeight × Fin kWidth`; the body of the innermost loop is
  a function `sampleStep` on that state and the double loop is a fold of it over
  the samples in iteration order.
* The text written to `std::cout` is a list of characters; flushing and the frame
  delay are not modelled.
-/

namespace Donut

/-! ## Constants (lines 7-28) -/

/-- Line 7: `static const double PI = std::atan(1) * 4;` -/
noncomputable def PI : ℝ := Real.arctan 1 * 4

/-- Line 10: UV resolution of the torus. -/
def kMaxU : ℕ := 100

/-- Line 11: UV resolution of the torus. -/
def kMaxV : ℕ := 100

/-- Line 13: the major radius. -/
def kMainRadius : ℝ := 2

/-- Line 14: the minor radius. -/
def kThicknessRadius : ℝ := 1

/-- Line 17: Z coordinate of the center. -/
def kDistance : ℝ := 6

/-- Line 20: rotation speed about the first axis in radians per second, `0.3`. -/
noncomputable def kXSpeed : ℝ := 3 / 10

/-- Line 21: rotation speed about the second axis in radians per second, `-0.2`. -/
noncomputable def kYSpeed : ℝ := -(2 / 10)

/-- Line 24: screen width. -/
def kWidth : ℕ := 80

/-- Line 25: screen height. -/
def kHeight : ℕ := 22

/-- Line 28: the width to height ratio of a console character, `0.5`. -/
noncomputable def kCharacterSizeRatio : ℝ := 1 / 2

/-! ## `struct Point` (lines 30-78) -/

/-- Lines 30-37: `struct Point { ...; double x, y, z; };` -/
@[ext]
structure Point where
  x : ℝ
  y : ℝ
  z : ℝ

namespace Point

/-- Lines 39-45: `Point::operator -`. -/
def sub (p rhs : Point) : Point :=
  { x := p.x - rhs.x
    y := p.y - rhs.y
    z := p.z - rhs.z }

/-- Lines 47-53: `Point::operator /`. -/
noncomputable def div (p : Point) (rhs : ℝ) : Point :=
  { x := p.x / rhs
    y := p.y / rhs
    z := p.z / rhs }

/-- The divisor of line 56, `std::sqrt(x * x + y * y + z * z)`: the Euclidean norm. -/
noncomputable def magnitude (p : Point) : ℝ :=
  Real.sqrt (p.x * p.x + p.y * p.y + p.z * p.z)

/-- Lines 55-57: `Point::Normalize`. -/
noncomputable def Normalize (p : Point) : Point :=
  p.div p.magnitude

/-- Lines 59-61: `Point::Dot`. -/
def Dot (p rhs : Point) : ℝ :=
  p.x * rhs.x + p.y * rhs.y + p.z * rhs.z

/-- Lines 63-78: `Point::Rotate`. -/
noncomputable def Rotate (this : Point) (ax ay : ℝ) : Point :=
  let sax := Real.sin ax
  let cax := Real.cos ax
  let p : Point :=
    { x := this.x
      y := this.z * sax + this.y * cax
      z := this.z * cax - this.y * sax }
  let say := Real.sin ay
  let cay := Real.cos ay
  { x := p.x * cay - p.z * say
    y := p.y
    z := p.x * say + p.z * cay }

/-- The elementary rotation by `a` acting on the `(y, z)` coordinates, `x` unchanged
(the first rotation named by the specification of the rotator). -/
noncomputable def rotateYZ (p : Point) (a : ℝ) : Point :=
  { x := p.x
    y := p.z * Real.sin a + p.y * Real.cos a
    z := p.z * Real.cos a - p.y * Real.sin a }

/-- The elementary rotation by `a` acting on the `(x, z)` coordinates, `y` unchanged
(the second rotation named by the specification of the rotator). -/
noncomputable def rotateXZ (p : Point) (a : ℝ) : Point :=
  { x := p.x * Real.cos a - p.z * Real.sin a
    y := p.y
    z := p.x * Real.sin a + p.z * Real.cos a }

end Point

/-- Lines 81-85: the directional light. -/
def kLight : Point :=
  { x := -1
    y := -1
    z := 2 }

/-! ## `main` (lines 87-149) -/

/-- Line 88: `kXDelta = kXSpeed / 3`. -/
noncomputable def kXDelta : ℝ := kXSpeed / 3

/-- Line 89: `kYDelta = kYSpeed / 3`. -/
noncomputable def kYDelta : ℝ := kYSpeed / 3

/-- Line 90: `kHalfWidth = kWidth / 2.0`. -/
noncomputable def kHalfWidth : ℝ := (kWidth : ℝ) / 2

/-- Line 91: `kHalfHeight = kHeight / 2.0`. -/
noncomputable def kHalfHeight : ℝ := (kHeight : ℝ) / 2

/-- Line 92: `normalized_light = kLight.Normalize()`. -/
noncomputable def normalized_light : Point := kLight.Normalize

/-- Line 106: `a1 = PI * 2.0 * (double)u / (double)kMaxU`. -/
noncomputable def angle1 (u : ℕ) : ℝ := PI * 2 * (u : ℝ) / (kMaxU : ℝ)

/-- Line 110: `a2 = PI * 2.0 * (double)v / (double)kMaxV`. -/
noncomputable def angle2 (v : ℕ) : ℝ := PI * 2 * (v : ℝ) / (kMaxV : ℝ)

/-- Lines 113-117: the torus point `p` built from the two angles. -/
noncomputable def torusPoint (a1 a2 : ℝ) : Point :=
  let sa1 := Real.sin a1
  let ca1 := Real.cos a1
  let sa2 := Real.sin a2
  let ca2 := Real.cos a2
  { x := ca1 * (kMainRadius + ca2 * kThicknessRadius)
    y := sa2 * kThicknessRadius
    z := sa1 * (kMainRadius + ca2 * kThicknessRadius) }

/-- Lines 128-132: the central-ring point `c` built from the first angle. -/
noncomputable def ringPoint (a1 : ℝ) : Point :=
  let sa1 := Real.sin a1
  let ca1 := Real.cos a1
  { x := ca1 * kMainRadius
    y := 0
    z := sa1 * kMainRadius }

/-- The point `p` of sample `(u, v)` (lines 106-117). -/
noncomputable def samplePoint (u v : ℕ) : Point := torusPoint (angle1 u) (angle2 v)

/-- The point `c` of sample `(u, v)`; it depends on `u` only (lines 106-108, 128-132). -/
noncomputable def sampleRing (u : ℕ) : Point := ringPoint (angle1 u)

/-- Line 133: `n = (q - c.Rotate(ax, ay)) / kThicknessRadius` with `q = p.Rotate(ax, ay)`. -/
noncomputable def sampleNormal (u v : ℕ) (ax ay : ℝ) : Point :=
  (((samplePoint u v).Rotate ax ay).sub ((sampleRing u).Rotate ax ay)).div kThicknessRadius

/-- The function `std::round` of lines 122-123: the nearest integer, halfway cases
rounded away from zero. -/
noncomputable def cround (x : ℝ) : ℤ :=
  if 0 ≤ x then ⌊x + 1 / 2⌋ else ⌈x - 1 / 2⌉

/-- Line 118: `q = p.Rotate(ax, ay)`. -/
noncomputable def sampleQ (ax ay : ℝ) (u v : ℕ) : Point :=
  (samplePoint u v).Rotate ax ay

/-- Line 119: the inverse depth `z = 1 / (kDistance + q.z)`. -/
noncomputable def sampleZ (ax ay : ℝ) (u v : ℕ) : ℝ :=
  1 / (kDistance + (sampleQ ax ay u v).z)

/-- Line 120: `x = q.x * kHalfWidth * z`. -/
noncomputable def sampleX (ax ay : ℝ) (u v : ℕ) : ℝ :=
  (sampleQ ax ay u v).x * kHalfWidth * sampleZ ax ay u v

/-- Line 121: `y = q.y * kCharacterSizeRatio * kHalfWidth * z`. -/
noncomputable def sampleY (ax ay : ℝ) (u v : ℕ) : ℝ :=
  (sampleQ ax ay u v).y * kCharacterSizeRatio * kHalfWidth * sampleZ ax ay u v

/-- Line 122: the screen row `i = std::round(kHalfHeight - y)`. -/
noncomputable def sampleI (ax ay : ℝ) (u v : ℕ) : ℤ :=
  cround (kHalfHeight - sampleY ax ay u v)

/-- Line 123: the screen column `j = std::round(x + kHalfWidth)`. -/
noncomputable def sampleJ (ax ay : ℝ) (u v : ℕ) : ℤ :=
  cround (sampleX ax ay u v + kHalfWidth)

/-- Line 134: `brightness = std::acos(n.Dot(normalized_light)) / PI`. -/
noncomputable def brightness (n light : Point) : ℝ :=
  Real.arccos (n.Dot light) / PI

/-- Line 135: the index `(int)std::floor(brightness * 12)`. -/
noncomputable def glyphIndex (b : ℝ) : ℤ := ⌊b * 12⌋

/-- Line 135: the 13 glyphs of the string literal indexed by the shader. -/
def ramp : List Char :=
  ['.', ',', '-', '~', ':', ';', '=', '!', '*', '#', '$', '@', '@']

/-- Line 135: the read `".,-~:;=!*#$@@"[idx]`.  Inside `0 .. 12` it is the glyph of
`ramp`; the literal's terminating `NUL` stands for every other index. -/
def rampAt (idx : ℤ) : Char :=
  if 0 ≤ idx then ramp.getD idx.toNat (Char.ofNat 0) else Char.ofNat 0

/-- Lines 133-135: the glyph the shader computes for sample `(u, v)`. -/
noncomputable def sampleGlyph (ax ay : ℝ) (u v : ℕ) : Char :=
  rampAt (glyphIndex (brightness (sampleNormal u v ax ay) normalized_light))

/-- Lines 96-97: the two per-frame grids, `screen` and `z_buffer`. -/
structure FrameBuffer where
  screen : Fin kHeight → Fin kWidth → Char
  z_buffer : Fin kHeight → Fin kWidth → ℝ

/-- Lines 98-103: every cell reset to the blank (character 32) and depth 0. -/
def FrameBuffer.reset : FrameBuffer :=
  { screen := fun _ _ => Char.ofNat 32
    z_buffer := fun _ _ => 0 }

/-- Lines 135-136: the two writes `screen[i][j] = g; z_buffer[i][j] = z;`. -/
def FrameBuffer.write (fb : FrameBuffer) (i : Fin kHeight) (j : Fin kWidth)
    (g : Char) (z : ℝ) : FrameBuffer :=
  { screen := fun a b => if a = i ∧ b = j then g else fb.screen a b
    z_buffer := fun a b => if a = i ∧ b = j then z else fb.z_buffer a b }

/-- Lines 124-125: the bounds test `i >= 0 && i < kHeight && j >= 0 && j < kWidth`,
returning the cell addressed when it passes. -/
def cellOf (i j : ℤ) : Option (Fin kHeight × Fin kWidth) :=
  if h : 0 ≤ i ∧ i < (kHeight : ℤ) ∧ 0 ≤ j ∧ j < (kWidth : ℤ) then
    some (⟨i.toNat, by omega⟩, ⟨j.toNat, by omega⟩)
  else
    none

/-- Lines 124-137: the depth test and write for a sample that projects to `(i, j)` with
inverse depth `z` and would be drawn with glyph `g`. -/
noncomputable def plot (fb : FrameBuffer) (i j : ℤ) (z : ℝ) (g : Char) : FrameBuffer :=
  match cellOf i j with
  | none => fb
  | some (a, b) => if z > fb.z_buffer a b then fb.write a b g z else fb

/-- Lines 110-137: the body of the inner loop, processing sample `(u, v)`. -/
noncomputable def sampleStep (ax ay : ℝ) (fb : FrameBuffer) (u v : ℕ) : FrameBuffer :=
  plot fb (sampleI ax ay u v) (sampleJ ax ay u v) (sampleZ ax ay u v) (sampleGlyph ax ay u v)

/-- Lines 109-138: the inner loop `for (int v = 0; v < kMaxV; ++v)`. -/
noncomputable def innerLoop (ax ay : ℝ) (fb : FrameBuffer) (u : ℕ) : FrameBuffer :=
  (List.range kMaxV).foldl (fun acc v => sampleStep ax ay acc u v) fb

/-- Lines 105-139: the sampling loop `for (int u = 0; u < kMaxU; ++u)`. -/
noncomputable def samplingLoop (ax ay : ℝ) (fb : FrameBuffer) : FrameBuffer :=
  (List.range kMaxU).foldl (fun acc u => innerLoop ax ay acc u) fb

/-- Lines 96-139: the frame drawn at rotation `(ax, ay)`: reset, then the sampling loop. -/
noncomputable def renderFrame (ax ay : ℝ) : FrameBuffer :=
  samplingLoop ax ay FrameBuffer.reset

/-- The samples in iteration order: `u` outer, `v` inner. -/
def samples : List (ℕ × ℕ) :=
  (List.range kMaxU).flatMap fun u => (List.range kMaxV).map fun v => (u, v)

/-- The loop body run over a list of samples, in the order of the list. -/
noncomputable def stepList (ax ay : ℝ) (fb : FrameBuffer) (l : List (ℕ × ℕ)) : FrameBuffer :=
  l.foldl (fun acc s => sampleStep ax ay acc s.1 s.2) fb

/-- Sample `s` projects to the screen cell `(a, b)` at rotation `(ax, ay)`. -/
def Hits (ax ay : ℝ) (a : Fin kHeight) (b : Fin kWidth) (s : ℕ × ℕ) : Prop :=
  sampleI ax ay s.1 s.2 = ((a : ℕ) : ℤ) ∧ sampleJ ax ay s.1 s.2 = ((b : ℕ) : ℤ)

/-- Sample `s` comes before sample `t` in the iteration order of the double loop. -/
def Before (s t : ℕ × ℕ) : Prop :=
  s.1 < t.1 ∨ (s.1 = t.1 ∧ s.2 < t.2)

/-- Lines 98-103: the two reset loops, run over whatever the arrays hold on entry:
`screen[i][j] = 32; z_buffer[i][j] = 0;` for every `i < kHeight`, `j < kWidth`. -/
def resetLoop (fb : FrameBuffer) : FrameBuffer :=
  (List.finRange kHeight).foldl
    (fun acc i => (List.finRange kWidth).foldl
      (fun acc' j => acc'.write i j (Char.ofNat 32) 0) acc) fb

/-- Lines 96-139: one pass of the body of `while (true)` up to the end of the sampling
loop, where `prev` is what the two arrays hold when the pass begins. -/
noncomputable def frameFrom (prev : FrameBuffer) (ax ay : ℝ) : FrameBuffer :=
  samplingLoop ax ay (resetLoop prev)

/-- The escape character `\x1b`. -/
def escChar : Char := Char.ofNat 27

/-- The newline written by `std::endl` (line 104) and by `put` (line 142). -/
def newline : Char := Char.ofNat 10

/-- Line 104: the literal `"\x1b[HHere, have a doughnut:"`. -/
def captionText : List Char :=
  escChar :: ['[', 'H', 'H', 'e', 'r', 'e', ',', ' ', 'h', 'a', 'v', 'e', ' ', 'a', ' ',
    'd', 'o', 'u', 'g', 'h', 'n', 'u', 't', ':']

/-- Lines 140-143: the presenter's loop, appending to the text already written each row
of `screen` (`kWidth` characters) and a newline. -/
def presentRows (fb : FrameBuffer) (out : List Char) : List Char :=
  (List.finRange kHeight).foldl
    (fun acc i => acc ++ List.ofFn (fb.screen i) ++ [newline]) out

/-- Lines 104 and 140-144: the text written to `std::cout` during the frame drawn at
rotation `(ax, ay)`. -/
noncomputable def frameText (ax ay : ℝ) : List Char :=
  presentRows (renderFrame ax ay) (captionText ++ [newline])

/-- Line 147: the frame delay in milliseconds. -/
def kFrameDelayMs : ℕ := 33

/-- Lines 145-146: `ax += kXDelta; ay += kYDelta;`. -/
noncomputable def nextAngles (a : ℝ × ℝ) : ℝ × ℝ :=
  (a.1 + kXDelta, a.2 + kYDelta)

/-! ## IEEE-754 binary64 arithmetic -/

/-- A value of the type `double` (IEEE-754 binary64): a finite value, given by the
rational it denotes, an infinity (`true` for the negative one) or a NaN.  The sign of
zero is not tracked. -/
inductive F64 where
  | fin : ℚ → F64
  | inf : Bool → F64
  | nan : F64
deriving DecidableEq

namespace F64

/-- The power `2 ^ e` for an integer exponent. -/
def pow2 (e : ℤ) : ℚ :=
  if 0 ≤ e then ((2 ^ e.toNat : ℕ) : ℚ) else 1 / ((2 ^ (-e).toNat : ℕ) : ℚ)

/-- The binary logarithm by repeated halving, with `f` halvings allowed. -/
def lgFuel : ℕ → ℕ → ℕ
  | 0, _ => 0
  | f + 1, n => if n < 2 then 0 else lgFuel f (n / 2) + 1

/-- The binary logarithm `⌊log₂ n⌋` of a natural number `n ≥ 1`. -/
def lg2 (n : ℕ) : ℕ := lgFuel n n

/-- The integer `⌊log₂ a⌋` of a positive rational. -/
def ilog2 (a : ℚ) : ℤ :=
  let e0 : ℤ := (lg2 a.num.natAbs : ℤ) - (lg2 a.den : ℤ)
  if a < pow2 e0 then e0 - 1 else e0

/-- The nearest integer to a nonnegative rational, ties to even. -/
def rnInt (s : ℚ) : ℤ :=
  let m : ℤ := s.num / (s.den : ℤ)
  let f : ℚ := s - m
  if f < 1 / 2 then m else if 1 / 2 < f then m + 1 else if m % 2 = 0 then m else m + 1

/-- Rounding of an exact result to binary64, `roundTiesToEven`: 53 significant bits,
no quantum below `2 ^ (-1074)`, and overflow to an infinity from `2 ^ 1024` on. -/
def round (q : ℚ) : F64 :=
  if q = 0 then fin 0
  else
    let a : ℚ := |q|
    let e : ℤ := max (ilog2 a - 52) (-1074)
    let r : ℚ := (rnInt (a / pow2 e) : ℚ) * pow2 e
    if pow2 1024 ≤ r then inf (decide (q < 0)) else fin (if q < 0 then -r else r)

/-- The integer square root by bisection on the bits `k - 1, ..., 0`. -/
def isqrtAux : ℕ → ℕ → ℕ → ℕ
  | 0, r, _ => r
  | k + 1, r, n => isqrtAux k (if (r + 2 ^ k) * (r + 2 ^ k) ≤ n then r + 2 ^ k else r) n

/-- The integer square root `⌊√n⌋`. -/
def isqrt (n : ℕ) : ℕ := isqrtAux (lg2 n / 2 + 1) 0 n

/-- The correctly rounded square root of a positive rational. -/
def roundSqrt (a : ℚ) : F64 :=
  let l : ℤ := ilog2 a
  let e : ℤ := (l - 104) / 2
  let t : ℚ := a / pow2 (2 * e)
  let m : ℕ := isqrt (t.num / (t.den : ℤ)).toNat
  let h : ℚ := (m : ℚ) + 1 / 2
  let m' : ℕ := if t < h * h then m else if h * h < t then m + 1 else if m % 2 = 0 then m else m + 1
  fin ((m' : ℚ) * pow2 e)

/-- The sign of a product or quotient of two signs. -/
def sgn (a b : Bool) : Bool := xor a b

/-- Addition of doubles. -/
def add : F64 → F64 → F64
  | fin a, fin b => round (a + b)
  | fin _, inf s => inf s
  | inf s, fin _ => inf s
  | inf s, inf t => if s = t then inf s else nan
  | _, _ => nan

/-- Multiplication of doubles. -/
def mul : F64 → F64 → F64
  | fin a, fin b => round (a * b)
  | fin a, inf s => if a = 0 then nan else inf (sgn (decide (a < 0)) s)
  | inf s, fin b => if b = 0 then nan else inf (sgn s (decide (b < 0)))
  | inf s, inf t => inf (sgn s t)
  | _, _ => nan

/-- Division of doubles; a zero divisor is taken as `+0`. -/
def div : F64 → F64 → F64
  | fin a, fin b =>
    if b = 0 then (if a = 0 then nan else inf (decide (a < 0))) else round (a / b)
  | fin _, inf _ => fin 0
  | inf s, fin b => inf (sgn s (decide (b < 0)))
  | _, _ => nan

/-- The function `std::sqrt`. -/
def sqrt : F64 → F64
  | fin a => if a < 0 then nan else if a = 0 then fin 0 else roundSqrt a
  | inf s => if s then nan else inf false
  | nan => nan

end F64

/-! ## `Point::Normalize`, `Point::Dot` and the shader in double arithmetic -/

/-- The `struct Point` of lines 30-37 with its coordinates kept as doubles. -/
structure Point64 where
  x : F64
  y : F64
  z : F64
deriving DecidableEq

namespace Point64

/-- Lines 47-53: `Point::operator /` in double arithmetic. -/
def div (p : Point64) (rhs : F64) : Point64 :=
  { x := F64.div p.x rhs
    y := F64.div p.y rhs
    z := F64.div p.z rhs }

/-- Line 56: `std::sqrt(x * x + y * y + z * z)` in double arithmetic, every product
and sum rounded on its own, the sum taken from the left. -/
def magnitude (p : Point64) : F64 :=
  F64.sqrt (F64.add (F64.add (F64.mul p.x p.x) (F64.mul p.y p.y)) (F64.mul p.z p.z))

/-- Lines 55-57: `Point::Normalize` in double arithmetic. -/
def Normalize (p : Point64) : Point64 :=
  p.div p.magnitude

/-- Lines 59-61: `Point::Dot` in double arithmetic. -/
def Dot (p rhs : Point64) : F64 :=
  F64.add (F64.add (F64.mul p.x rhs.x) (F64.mul p.y rhs.y)) (F64.mul p.z rhs.z)

end Point64

/-- Lines 81-85: the directional light, as doubles. -/
def kLight64 : Point64 :=
  { x := F64.fin (-1)
    y := F64.fin (-1)
    z := F64.fin 2 }

/-- Line 92: `normalized_light = kLight.Normalize()` in double arithmetic. -/
def normalized_light64 : Point64 := kLight64.Normalize

/-- The function `std::acos` with its domain error: for an argument outside `[-1, 1]`
the result is a NaN, here `none`.  Inside the domain the exact value is taken. -/
noncomputable def acosChecked (x : ℝ) : Option ℝ :=
  if -1 ≤ x ∧ x ≤ 1 then some (Real.arccos x) else none

/-- Line 134 for a dot product `d` computed in doubles: `std::acos(d) / PI`, or `none`
where the result is a NaN (a dot product outside `[-1, 1]`, an infinity or a NaN).
What is kept of the double arithmetic is the dot product itself, and with it the
question whether `std::acos` is called inside its domain; the value of `std::acos`
inside the domain and the quotient by `PI` are taken exactly. -/
noncomputable def brightness64 : F64 → Option ℝ
  | F64.fin d => (acosChecked (d : ℝ)).map fun a => a / PI
  | _ => none

/-- Line 135 for a dot product computed in doubles: the index
`(int)std::floor(brightness * 12)`, or `none` where the brightness is a NaN and the
conversion to `int` has no defined result. -/
noncomputable def glyphIndex64 (d : F64) : Option ℤ :=
  (brightness64 d).map glyphIndex

/-! ## Enclosures of the cosines and sines of the sample angles

Auxiliary to the statements about frame 0: natural-number bounds, scaled by `kScale`,
on `cos (kπ / 50)` and `sin (kπ / 50)` for the angles of the first quadrant, the tests
that certify them, and the tests of the projected coordinates built on them. -/

/-- Bounds on a nonnegative cosine and sine: `cl ≤ kScale * cos t ≤ ch` and
`sl ≤ kScale * sin t ≤ sh`. -/
structure Encl where
  cl : ℕ
  ch : ℕ
  sl : ℕ
  sh : ℕ

/-- The scale of the enclosures, `10 ^ 25`. -/
def kScale : ℕ := 10000000000000000000000000

/-- The enclosure `e` holds of the angle `t`. -/
def Encl.Holds (e : Encl) (t : ℝ) : Prop :=
  (e.cl : ℝ) ≤ (kScale : ℝ) * Real.cos t ∧ (kScale : ℝ) * Real.cos t ≤ (e.ch : ℝ) ∧
    (e.sl : ℝ) ≤ (kScale : ℝ) * Real.sin t ∧ (kScale : ℝ) * Real.sin t ≤ (e.sh : ℝ)

/-- The test that `e2` encloses the doubled angle of `e`, by `cos 2t = 2 cos² t - 1` and
`sin 2t = 2 sin t cos t`. -/
def doubleOK (e e2 : Encl) : Bool :=
  Nat.ble (e2.cl * kScale + kScale * kScale) (2 * (e.cl * e.cl)) &&
    Nat.ble (2 * (e.ch * e.ch)) (e2.ch * kScale + kScale * kScale) &&
    Nat.ble (e2.sl * kScale) (2 * (e.sl * e.cl)) &&
    Nat.ble (2 * (e.sh * e.ch)) (e2.sh * kScale)

/-- The doubling test along a list of enclosures that follows `e`. -/
def doubleChainFrom (e : Encl) : List Encl → Bool
  | [] => true
  | e2 :: l => doubleOK e e2 && doubleChainFrom e2 l

/-- The last enclosure of a list that follows `e`. -/
def lastFrom (e : Encl) : List Encl → Encl
  | [] => e
  | e2 :: l => lastFrom e2 l

/-- The test that `e2` encloses the angle of `e` advanced by the angle of `s`, by the
addition formulas; a lower bound 0 on the cosine is left to the quadrant. -/
def addOK (s e e2 : Encl) : Bool :=
  (Nat.ble (e2.cl * kScale + e.sh * s.sh) (e.cl * s.cl) || Nat.beq e2.cl 0) &&
    Nat.ble (e.ch * s.ch) (e2.ch * kScale + e.sl * s.sl) &&
    Nat.ble (e2.sl * kScale) (e.sl * s.cl + e.cl * s.sl) &&
    Nat.ble (e.sh * s.ch + e.ch * s.sh) (e2.sh * kScale)

/-- The addition test along a list of numbered enclosures that follows number `k`. -/
def addChainFrom (s : Encl) (k : ℕ) (e : Encl) : List (ℕ × Encl) → Bool
  | [] => true
  | p :: l => Nat.beq p.1 (k + 1) && addOK s e p.2 && addChainFrom s p.1 p.2 l

/-- An enclosure of the angle `π / (50 * 2 ^ 12)`, from the Taylor polynomials. -/
def baseEncl : Encl := Encl.mk 9999999998823451471170034 9999999998823451471227713 153398078782548084668 153398078782548142348

/-- Enclosures of the angles `π / (50 * 2 ^ 12) * 2 ^ (i + 1)`, `i = 0 .. 11`. -/
def doubleTable : List Encl := [
    Encl.mk 9999999995293805884956989 9999999995293805885187706 306796157529000112552 306796157529000227915,
    Encl.mk 9999999981175223544257608 9999999981175223545180477 613592314769231770887 613592314769232001628,
    Encl.mk 9999999924700894247904873 9999999924700894251596350 1227184627228315909675 1227184627228316371271,
    Encl.mk 9999999698803578125610557 9999999698803578140376466 2454369235975450814747 2454369235975451738846,
    Encl.mk 9999998795214330646299137 9999998795214330705362773 4908738324101455262617 4908738324101457118064,
    Encl.mk 9999995180857612886898364 9999995180857613123152880 9817475465407393028286 9817475465407396797167,
    Encl.mk 9999980723435096374262910 9999980723435097319280519 19634941468452356099033 19634941468452364100677,
    Encl.mk 9999922893814702687948379 9999922893814706468011529 39269807238059993095209 39269807238060012809541,
    Encl.mk 9999691576447883514014200 9999691576447898634150214 78539008887113288674452 78539008887113357791284,
    Encl.mk 9998766324816551556086949 9998766324816612034765643 157073173118206443000625 157073173118206818734126,
    Encl.mk 9995065603657097875658144 9995065603657339760528503 314107590781280599496732 314107590781283250786622,
    Encl.mk 9980267284281845271804389 9980267284282812333863499 627905195293115409390296 627905195293135904928349]

/-- An enclosure of the angle `π / 50`, the last of `doubleTable`. -/
def stepEncl : Encl := Encl.mk 9980267284281845271804389 9980267284282812333863499 627905195293115409390296 627905195293135904928349

/-- The enclosure of the angle 0. -/
def zeroEncl : Encl := Encl.mk kScale kScale 0 0

/-- Numbered enclosures of the angles `kπ / 50`, `k = 1 .. 25`. -/
def quadTail : List (ℕ × Encl) := [
    (1, Encl.mk 9980267284281845271804389 9980267284282812333863499 627905195293115409390296 627905195293135904928349),
    (2, Encl.mk 9921147013143040780658129 9921147013144973662075176 1253332335642896524241802 1253332335643058879089601),
    (3, Encl.mk 9822872507284287924775482 9822872507287189191695803 1873813145856864273333910 1873813145857289213379408),
    (4, Encl.mk 9685831611282859409671248 9685831611286735407022451 2486898871647822305559113 2486898871648629921005369),
    (5, Encl.mk 9510565162947242058620934 9510565162952102895229469 3090169943748299135026053 3090169943749608882902483),
    (6, Encl.mk 9297764858877391979941149 9297764858883251528691149 3681245526845050797646445 3681245526846981506516523),
    (7, Encl.mk 9048270524654260631168785 9048270524661136544124559 4257792915648342030444219 4257792915651011909168866),
    (8, Encl.mk 8763066800431906588974296 8763066800439820327446875 4817536741014013176518532 4817536741017539828909836),
    (9, Encl.mk 8443279255012646750709630 8443279255021623630306080 5358267949785974894704634 5358267949790475341880112),
    (10, Encl.mk 8090169943741217035590929 8090169943751286286342998 5877852522919794847127424 5877852522925385559350850),
    (11, Encl.mk 7705132427748904928095156 7705132427760099769821456 6374239897480925499809287 6374239897487722439580201),
    (12, Encl.mk 7289686274204421781497122 7289686274216779514610687 6845471059279793676211798 6845471059287912354342271),
    (13, Encl.mk 6845471059276512092171321 6845471059290074204202265 7289686274205818338546193 7289686274215373884940377),
    (14, Encl.mk 6374239897475866540060141 6374239897490678828221499 7705132427748313339212601 7705132427759420590042191),
    (15, Encl.mk 5877852522913070102028148 5877852522929182812212038 8090169943738539247364288 8090169943751312850311414),
    (16, Encl.mk 5358267949777699244295014 5358267949795167226946257 8443279255007790244620857 8443279255022344783839331),
    (17, Encl.mk 4817536741004304089149729 4817536741023186972525234 8763066800424784783443433 8763066800441234925869894),
    (18, Encl.mk 4257792915637318813766038 4257792915657681195150842 9048270524644793213017638 9048270524663253877646232),
    (19, Encl.mk 3681245526832833806443984 3681245526854745461959067 9297764858865505162280439 9297764858886091713998501),
    (20, Encl.mk 3090169943735008940536428 3090169943758545054239563 9510565162932868762436242 9510565162955697232004311),
    (21, Encl.mk 2486898871633578831015128 2486898871658820244064322 9685831611265939366664590 9685831611291126698412300),
    (22, Encl.mk 1873813145841785900574512 1873813145868819381294299 9822872507264767699308664 9822872507292432028108947),
    (23, Encl.mk 1253332335627099176298173 1253332335656017712062418 9921147013120873708939293 9921147013151134668017274),
    (24, Encl.mk 627905195276711614000816 627905195307614725922042 9980267284256991316758419 9980267284289970377888765),
    (25, Encl.mk 0 16092020521428 9999999999972425520564776 10000000000008246368212460)]

/-- Numbered enclosures of the angles `kπ / 50` of the first quadrant, `k = 0 .. 25`. -/
def quadTable : List (ℕ × Encl) := (0, zeroEncl) :: quadTail

/-- The test that every quotient `X / D` with `Xl ≤ X ≤ Xh` and `Dl ≤ D ≤ Dh` is within
`1 - en / 10000` of an even natural number. -/
def near (Xl Xh Dl Dh en : ℕ) : Bool :=
  Nat.ble (2 * ((Xl + Dl) / (2 * Dl)) * Dh * 10000) (10000 * Xl + (10000 - en) * Dl) &&
    Nat.ble (10000 * Xh) (2 * ((Xl + Dl) / (2 * Dl)) * Dl * 10000 + (10000 - en) * Dl)

/-- A lower bound of `kScale * (2 + c)`, where `c` is the cosine enclosed by `ev`, or
its negative when `nr` is set. -/
def rhoLo (nr : Bool) (ev : Encl) : ℕ :=
  if nr then 2 * kScale - ev.ch else 2 * kScale + ev.cl

/-- An upper bound of `kScale * (2 + c)`. -/
def rhoHi (nr : Bool) (ev : Encl) : ℕ :=
  if nr then 2 * kScale - ev.cl else 2 * kScale + ev.ch

/-- A lower bound of `kScale ^ 2 * (6 + s * ρ)`, where `s` is the sine enclosed by `eu`,
or its negative when `nd` is set, and `ρ` lies between `rl / kScale` and
`rh / kScale`. -/
def denLo (nd : Bool) (eu : Encl) (rl rh : ℕ) : ℕ :=
  if nd then 6 * (kScale * kScale) - eu.sh * rh else 6 * (kScale * kScale) + eu.sl * rl

/-- An upper bound of `kScale ^ 2 * (6 + s * ρ)`. -/
def denHi (nd : Bool) (eu : Encl) (rl rh : ℕ) : ℕ :=
  if nd then 6 * (kScale * kScale) - eu.sl * rl else 6 * (kScale * kScale) + eu.sh * rh

/-- The column test of frame 0, for `|cos a1|`, `|sin a1|` enclosed by `eu` and
`|cos a2|` by `ev`, `nr` telling that `cos a2` is negative and `nd` that `sin a1` is:
twice `|x| = 40 |p.x| / (6 + p.z)` is within `1 - 2 / 10000` of an even number. -/
def colOK (nr nd : Bool) (eu ev : Encl) : Bool :=
  near (80 * (eu.cl * rhoLo nr ev)) (80 * (eu.ch * rhoHi nr ev))
    (denLo nd eu (rhoLo nr ev) (rhoHi nr ev)) (denHi nd eu (rhoLo nr ev) (rhoHi nr ev)) 2

/-- The row test of frame 0, with `|sin a2|` enclosed by `ev`: twice
`|y| = 20 |p.y| / (6 + p.z)` is within `1 - 1 / 10000` of an even number. -/
def rowOK (nr nd : Bool) (eu ev : Encl) : Bool :=
  near (40 * (kScale * ev.sl)) (40 * (kScale * ev.sh))
    (denLo nd eu (rhoLo nr ev) (rhoHi nr ev)) (denHi nd eu (rhoLo nr ev) (rhoHi nr ev)) 1

/-- The column test for all pairs of angles of the first quadrant and all signs, and the
row test for all pairs with `a1` off the right angle. -/
def checkAll : Bool :=
  quadTable.all fun pu => quadTable.all fun pv =>
    colOK false false pu.2 pv.2 && colOK false true pu.2 pv.2 &&
      colOK true false pu.2 pv.2 && colOK true true pu.2 pv.2 &&
      (Nat.beq pu.1 25 ||
        (rowOK false false pu.2 pv.2 && rowOK false true pu.2 pv.2 &&
          rowOK true false pu.2 pv.2 && rowOK true true pu.2 pv.2))

/-- The sign `-1` when the flag is set, else `1`. -/
def sgn (b : Bool) : ℝ := if b then -1 else 1

/-! ## Basic facts about the constants and `Point` -/

theorem PI_eq : PI = Real.pi := by
  unfold PI
  rw [Real.arctan_one]
  ring

theorem magnitude_eq_one_iff (p : Point) :
    p.magnitude = 1 ↔ p.x * p.x + p.y * p.y + p.z * p.z = 1 := by
  unfold Point.magnitude
  exact Real.sqrt_eq_one

theorem Rotate_sq (p : Point) (ax ay : ℝ) :
    (p.Rotate ax ay).x * (p.Rotate ax ay).x + (p.Rotate ax ay).y * (p.Rotate ax ay).y
      + (p.Rotate ax ay).z * (p.Rotate ax ay).z = p.x * p.x + p.y * p.y + p.z * p.z := by
  have hx := Real.sin_sq_add_cos_sq ax
  have hy := Real.sin_sq_add_cos_sq ay
  simp only [Point.Rotate]
  linear_combination
    (p.y * p.y + p.z * p.z) * hx
      + (p.x * p.x + (p.z * Real.cos ax - p.y * Real.sin ax) ^ 2) * hy

theorem Rotate_magnitude (p : Point) (ax ay : ℝ) :
    (p.Rotate ax ay).magnitude = p.magnitude := by
  unfold Point.magnitude
  rw [Rotate_sq]

theorem rotateYZ_plane_sq (p : Point) (a : ℝ) :
    (p.rotateYZ a).y ^ 2 + (p.rotateYZ a).z ^ 2 = p.y ^ 2 + p.z ^ 2 := by
  have h := Real.sin_sq_add_cos_sq a
  simp only [Point.rotateYZ]
  linear_combination (p.y ^ 2 + p.z ^ 2) * h

theorem rotateXZ_plane_sq (p : Point) (a : ℝ) :
    (p.rotateXZ a).x ^ 2 + (p.rotateXZ a).z ^ 2 = p.x ^ 2 + p.z ^ 2 := by
  have h := Real.sin_sq_add_cos_sq a
  simp only [Point.rotateXZ]
  linear_combination (p.x ^ 2 + p.z ^ 2) * h

theorem rotateYZ_add (p : Point) (a b : ℝ) :
    (p.rotateYZ a).rotateYZ b = p.rotateYZ (a + b) := by
  simp only [Point.rotateYZ, Real.sin_add, Real.cos_add, Point.mk.injEq]
  refine ⟨trivial, ?_, ?_⟩ <;> ring

theorem rotateXZ_add (p : Point) (a b : ℝ) :
    (p.rotateXZ a).rotateXZ b = p.rotateXZ (a + b) := by
  simp only [Point.rotateXZ, Real.sin_add, Real.cos_add, Point.mk.injEq]
  refine ⟨?_, trivial, ?_⟩ <;> ring

theorem Rotate_sub (p c : Point) (ax ay : ℝ) :
    (p.Rotate ax ay).sub (c.Rotate ax ay) = (p.sub c).Rotate ax ay := by
  simp only [Point.Rotate, Point.sub, Point.mk.injEq]
  refine ⟨?_, ?_, ?_⟩ <;> ring

theorem div_one_eq (p : Point) : p.div 1 = p := by
  simp [Point.div]

/-- The offset from the ring point to the torus point at the same first angle. -/
theorem torusPoint_sub_ringPoint (a1 a2 : ℝ) :
    (torusPoint a1 a2).sub (ringPoint a1)
      = { x := Real.cos a1 * Real.cos a2
          y := Real.sin a2
          z := Real.sin a1 * Real.cos a2 } := by
  simp only [torusPoint, ringPoint, Point.sub, kMainRadius, kThicknessRadius, Point.mk.injEq]
  refine ⟨?_, ?_, ?_⟩ <;> ring

theorem torusPoint_sub_ringPoint_magnitude (a1 a2 : ℝ) :
    ((torusPoint a1 a2).sub (ringPoint a1)).magnitude = 1 := by
  rw [torusPoint_sub_ringPoint, magnitude_eq_one_iff]
  have h1 := Real.sin_sq_add_cos_sq a1
  have h2 := Real.sin_sq_add_cos_sq a2
  linear_combination (Real.cos a2) ^ 2 * h1 + h2

theorem sampleNormal_magnitude (u v : ℕ) (ax ay : ℝ) :
    (sampleNormal u v ax ay).magnitude = 1 := by
  unfold sampleNormal samplePoint sampleRing
  rw [show kThicknessRadius = 1 from rfl, div_one_eq, Rotate_sub, Rotate_magnitude]
  exact torusPoint_sub_ringPoint_magnitude _ _

/-! ## The light and the shader -/

theorem kLight_magnitude : kLight.magnitude = Real.sqrt 6 := by
  unfold Point.magnitude kLight
  norm_num

theorem sqrt_six_pos : 0 < Real.sqrt 6 :=
  Real.sqrt_pos.mpr (by norm_num)

theorem normalized_light_eq :
    normalized_light
      = { x := -1 / Real.sqrt 6, y := -1 / Real.sqrt 6, z := 2 / Real.sqrt 6 } := by
  unfold normalized_light Point.Normalize
  rw [kLight_magnitude]
  rfl

theorem normalized_light_magnitude : normalized_light.magnitude = 1 := by
  rw [magnitude_eq_one_iff, normalized_light_eq]
  have h6 : Real.sqrt 6 * Real.sqrt 6 = 6 := Real.mul_self_sqrt (by norm_num)
  have hpos := sqrt_six_pos
  field_simp
  nlinarith [h6]

/-- Cauchy-Schwarz for two unit vectors: their dot product lies in `[-1, 1]`. -/
theorem Dot_mem_of_unit (n l : Point) (hn : n.magnitude = 1) (hl : l.magnitude = 1) :
    -1 ≤ n.Dot l ∧ n.Dot l ≤ 1 := by
  rw [magnitude_eq_one_iff] at hn hl
  unfold Point.Dot
  constructor
  · nlinarith [sq_nonneg (n.x + l.x), sq_nonneg (n.y + l.y), sq_nonneg (n.z + l.z)]
  · nlinarith [sq_nonneg (n.x - l.x), sq_nonneg (n.y - l.y), sq_nonneg (n.z - l.z)]

theorem PI_pos : 0 < PI := by
  rw [PI_eq]
  exact Real.pi_pos

theorem brightness_nonneg (n l : Point) : 0 ≤ brightness n l :=
  div_nonneg (Real.arccos_nonneg _) PI_pos.le

theorem brightness_le_one (n l : Point) : brightness n l ≤ 1 := by
  unfold brightness
  rw [div_le_one PI_pos, PI_eq]
  exact Real.arccos_le_pi _

theorem glyphIndex_nonneg {b : ℝ} (hb : 0 ≤ b) : 0 ≤ glyphIndex b :=
  Int.floor_nonneg.mpr (by positivity)

theorem glyphIndex_le {b : ℝ} (hb : b ≤ 1) : glyphIndex b ≤ 12 := by
  unfold glyphIndex
  have h : ⌊b * 12⌋ < 13 := Int.floor_lt.mpr (by push_cast; linarith)
  omega

theorem torusPoint_sq (a1 a2 : ℝ) :
    (torusPoint a1 a2).x * (torusPoint a1 a2).x + (torusPoint a1 a2).y * (torusPoint a1 a2).y
      + (torusPoint a1 a2).z * (torusPoint a1 a2).z = 5 + 4 * Real.cos a2 := by
  have h1 := Real.sin_sq_add_cos_sq a1
  have h2 := Real.sin_sq_add_cos_sq a2
  simp only [torusPoint, kMainRadius, kThicknessRadius]
  linear_combination (2 + Real.cos a2) ^ 2 * h1 + h2

theorem sampleQ_z_sq_le (ax ay : ℝ) (u v : ℕ) : (sampleQ ax ay u v).z ^ 2 ≤ 9 := by
  have hrot := Rotate_sq (samplePoint u v) ax ay
  have hp := torusPoint_sq (angle1 u) (angle2 v)
  have hc := Real.cos_le_one (angle2 v)
  unfold sampleQ
  unfold samplePoint at hrot ⊢
  nlinarith [mul_self_nonneg ((torusPoint (angle1 u) (angle2 v)).Rotate ax ay).x,
    mul_self_nonneg ((torusPoint (angle1 u) (angle2 v)).Rotate ax ay).y]

theorem sampleQ_z_bounds (ax ay : ℝ) (u v : ℕ) :
    -3 ≤ (sampleQ ax ay u v).z ∧ (sampleQ ax ay u v).z ≤ 3 := by
  have h := sampleQ_z_sq_le ax ay u v
  constructor <;> nlinarith

theorem divisor_bounds (ax ay : ℝ) (u v : ℕ) :
    3 ≤ kDistance + (sampleQ ax ay u v).z ∧ kDistance + (sampleQ ax ay u v).z ≤ 9 := by
  have h := sampleQ_z_bounds ax ay u v
  unfold kDistance
  constructor <;> linarith [h.1, h.2]

theorem sampleZ_bounds (ax ay : ℝ) (u v : ℕ) :
    1 / 9 ≤ sampleZ ax ay u v ∧ sampleZ ax ay u v ≤ 1 / 3 := by
  have h := divisor_bounds ax ay u v
  have hpos : 0 < kDistance + (sampleQ ax ay u v).z := by linarith [h.1]
  unfold sampleZ
  constructor
  · exact one_div_le_one_div_of_le hpos h.2
  · exact one_div_le_one_div_of_le (by norm_num) h.1

theorem sampleZ_pos (ax ay : ℝ) (u v : ℕ) : 0 < sampleZ ax ay u v := by
  have h := sampleZ_bounds ax ay u v
  linarith [h.1]

/-! ## The frame buffer -/

theorem cellOf_eq_some_iff (i j : ℤ) (a : Fin kHeight) (b : Fin kWidth) :
    cellOf i j = some (a, b) ↔ i = ((a : ℕ) : ℤ) ∧ j = ((b : ℕ) : ℤ) := by
  have ha := a.isLt
  have hb := b.isLt
  unfold cellOf
  split
  · rename_i h
    simp only [Option.some.injEq, Prod.mk.injEq, Fin.ext_iff]
    omega
  · rename_i h
    simp only [false_iff, reduceCtorEq]
    omega

theorem cellOf_eq_none_iff (i j : ℤ) :
    cellOf i j = none ↔ ¬(0 ≤ i ∧ i < (kHeight : ℤ) ∧ 0 ≤ j ∧ j < (kWidth : ℤ)) := by
  unfold cellOf
  split <;> simp_all

theorem plot_of_none (fb : FrameBuffer) (i j : ℤ) (z : ℝ) (g : Char)
    (h : cellOf i j = none) : plot fb i j z g = fb := by
  unfold plot
  rw [h]

theorem plot_of_le (fb : FrameBuffer) (i j : ℤ) (z : ℝ) (g : Char)
    (a : Fin kHeight) (b : Fin kWidth) (h : cellOf i j = some (a, b))
    (hz : z ≤ fb.z_buffer a b) : plot fb i j z g = fb := by
  unfold plot
  rw [h]
  simp only
  rw [if_neg (not_lt.mpr hz)]

theorem plot_of_gt (fb : FrameBuffer) (i j : ℤ) (z : ℝ) (g : Char)
    (a : Fin kHeight) (b : Fin kWidth) (h : cellOf i j = some (a, b))
    (hz : fb.z_buffer a b < z) : plot fb i j z g = fb.write a b g z := by
  unfold plot
  rw [h]
  simp only
  rw [if_pos hz]

theorem write_same (fb : FrameBuffer) (a : Fin kHeight) (b : Fin kWidth) (g : Char) (z : ℝ) :
    (fb.write a b g z).screen a b = g ∧ (fb.write a b g z).z_buffer a b = z := by
  simp [FrameBuffer.write]

theorem write_other (fb : FrameBuffer) (a c : Fin kHeight) (b d : Fin kWidth) (g : Char)
    (z : ℝ) (h : ¬(c = a ∧ d = b)) :
    (fb.write a b g z).screen c d = fb.screen c d ∧
      (fb.write a b g z).z_buffer c d = fb.z_buffer c d := by
  simp [FrameBuffer.write, h]

/-- A sample's depth test touches no cell but the one it projects to. -/
theorem plot_other (fb : FrameBuffer) (i j : ℤ) (z : ℝ) (g : Char)
    (c : Fin kHeight) (d : Fin kWidth) (h : ¬(i = ((c : ℕ) : ℤ) ∧ j = ((d : ℕ) : ℤ))) :
    (plot fb i j z g).screen c d = fb.screen c d ∧
      (plot fb i j z g).z_buffer c d = fb.z_buffer c d := by
  cases hc : cellOf i j with
  | none => rw [plot_of_none fb i j z g hc]; exact ⟨rfl, rfl⟩
  | some ab =>
    obtain ⟨a, b⟩ := ab
    have hab := (cellOf_eq_some_iff i j a b).mp hc
    by_cases hz : fb.z_buffer a b < z
    · rw [plot_of_gt fb i j z g a b hc hz]
      apply write_other
      rintro ⟨rfl, rfl⟩
      exact h hab
    · rw [plot_of_le fb i j z g a b hc (not_lt.mp hz)]
      exact ⟨rfl, rfl⟩

theorem stepList_cons (ax ay : ℝ) (fb : FrameBuffer) (s : ℕ × ℕ) (l : List (ℕ × ℕ)) :
    stepList ax ay fb (s :: l) = stepList ax ay (sampleStep ax ay fb s.1 s.2) l := rfl

theorem stepList_append (ax ay : ℝ) (fb : FrameBuffer) (l₁ l₂ : List (ℕ × ℕ)) :
    stepList ax ay fb (l₁ ++ l₂) = stepList ax ay (stepList ax ay fb l₁) l₂ := by
  unfold stepList
  exact List.foldl_append _ _ _ _

/-- The cell a sample does not project to is left as it was. -/
theorem sampleStep_miss (ax ay : ℝ) (fb : FrameBuffer) (s : ℕ × ℕ)
    (a : Fin kHeight) (b : Fin kWidth) (h : ¬Hits ax ay a b s) :
    (sampleStep ax ay fb s.1 s.2).screen a b = fb.screen a b ∧
      (sampleStep ax ay fb s.1 s.2).z_buffer a b = fb.z_buffer a b :=
  plot_other fb _ _ _ _ a b h

/-- A sample no nearer than what its cell holds changes nothing. -/
theorem sampleStep_hit_le (ax ay : ℝ) (fb : FrameBuffer) (s : ℕ × ℕ)
    (a : Fin kHeight) (b : Fin kWidth) (h : Hits ax ay a b s)
    (hz : sampleZ ax ay s.1 s.2 ≤ fb.z_buffer a b) : sampleStep ax ay fb s.1 s.2 = fb :=
  plot_of_le fb _ _ _ _ a b ((cellOf_eq_some_iff _ _ a b).mpr h) hz

/-- A sample strictly nearer than what its cell holds takes the cell. -/
theorem sampleStep_hit_gt (ax ay : ℝ) (fb : FrameBuffer) (s : ℕ × ℕ)
    (a : Fin kHeight) (b : Fin kWidth) (h : Hits ax ay a b s)
    (hz : fb.z_buffer a b < sampleZ ax ay s.1 s.2) :
    (sampleStep ax ay fb s.1 s.2).screen a b = sampleGlyph ax ay s.1 s.2 ∧
      (sampleStep ax ay fb s.1 s.2).z_buffer a b = sampleZ ax ay s.1 s.2 := by
  unfold sampleStep
  rw [plot_of_gt fb _ _ _ _ a b ((cellOf_eq_some_iff _ _ a b).mpr h) hz]
  exact write_same fb a b _ _

/-- Samples that are no nearer than the stored depth leave a cell as it was. -/
theorem stepList_unchanged (ax ay : ℝ) (a : Fin kHeight) (b : Fin kWidth)
    (l : List (ℕ × ℕ)) : ∀ fb : FrameBuffer,
    (∀ s ∈ l, Hits ax ay a b s → sampleZ ax ay s.1 s.2 ≤ fb.z_buffer a b) →
    (stepList ax ay fb l).screen a b = fb.screen a b ∧
      (stepList ax ay fb l).z_buffer a b = fb.z_buffer a b := by
  induction l with
  | nil => intro fb _; exact ⟨rfl, rfl⟩
  | cons s l ih =>
    intro fb h
    rw [stepList_cons]
    have hs : (sampleStep ax ay fb s.1 s.2).screen a b = fb.screen a b ∧
        (sampleStep ax ay fb s.1 s.2).z_buffer a b = fb.z_buffer a b := by
      by_cases hh : Hits ax ay a b s
      · rw [sampleStep_hit_le ax ay fb s a b hh (h s (List.mem_cons_self _ _) hh)]
        exact ⟨rfl, rfl⟩
      · exact sampleStep_miss ax ay fb s a b hh
    have h2 := ih (sampleStep ax ay fb s.1 s.2) (fun t ht hh => by
      rw [hs.2]
      exact h t (List.mem_cons_of_mem _ ht) hh)
    exact ⟨h2.1.trans hs.1, h2.2.trans hs.2⟩

/-- The depth a cell holds after some samples is the depth it held before or the
inverse depth of one of those samples that projects to it. -/
theorem stepList_depth_cases (ax ay : ℝ) (a : Fin kHeight) (b : Fin kWidth)
    (l : List (ℕ × ℕ)) : ∀ fb : FrameBuffer,
    (stepList ax ay fb l).z_buffer a b = fb.z_buffer a b ∨
      ∃ s ∈ l, Hits ax ay a b s ∧
        (stepList ax ay fb l).z_buffer a b = sampleZ ax ay s.1 s.2 := by
  induction l with
  | nil => intro fb; exact Or.inl rfl
  | cons s l ih =>
    intro fb
    rw [stepList_cons]
    rcases ih (sampleStep ax ay fb s.1 s.2) with h | ⟨t, ht, hh, hz⟩
    · by_cases hh : Hits ax ay a b s
      · by_cases hz : fb.z_buffer a b < sampleZ ax ay s.1 s.2
        · right
          exact ⟨s, List.mem_cons_self _ _, hh,
            h.trans (sampleStep_hit_gt ax ay fb s a b hh hz).2⟩
        · left
          rw [h, sampleStep_hit_le ax ay fb s a b hh (not_lt.mp hz)]
      · left
        exact h.trans (sampleStep_miss ax ay fb s a b hh).2
    · right
      exact ⟨t, List.mem_cons_of_mem _ ht, hh, hz⟩

/-- The depth resolver on a list of samples: a sample that projects to the cell, is
strictly nearer than the depth the cell starts with and than every earlier sample
projecting there, and at least as near as every later one, owns the cell at the end. -/
theorem stepList_winner (ax ay : ℝ) (a : Fin kHeight) (b : Fin kWidth) (fb : FrameBuffer)
    (l₁ l₂ : List (ℕ × ℕ)) (s : ℕ × ℕ) (hs : Hits ax ay a b s)
    (h0 : fb.z_buffer a b < sampleZ ax ay s.1 s.2)
    (h1 : ∀ t ∈ l₁, Hits ax ay a b t → sampleZ ax ay t.1 t.2 < sampleZ ax ay s.1 s.2)
    (h2 : ∀ t ∈ l₂, Hits ax ay a b t → sampleZ ax ay t.1 t.2 ≤ sampleZ ax ay s.1 s.2) :
    (stepList ax ay fb (l₁ ++ s :: l₂)).screen a b = sampleGlyph ax ay s.1 s.2 ∧
      (stepList ax ay fb (l₁ ++ s :: l₂)).z_buffer a b = sampleZ ax ay s.1 s.2 := by
  rw [stepList_append, stepList_cons]
  have hlt : (stepList ax ay fb l₁).z_buffer a b < sampleZ ax ay s.1 s.2 := by
    rcases stepList_depth_cases ax ay a b l₁ fb with h | ⟨t, ht, hh, hz⟩
    · rw [h]; exact h0
    · rw [hz]; exact h1 t ht hh
  have hstep := sampleStep_hit_gt ax ay (stepList ax ay fb l₁) s a b hs hlt
  have hrest := stepList_unchanged ax ay a b l₂
    (sampleStep ax ay (stepList ax ay fb l₁) s.1 s.2) (fun t ht hh => by
      rw [hstep.2]
      exact h2 t ht hh)
  exact ⟨hrest.1.trans hstep.1, hrest.2.trans hstep.2⟩

/-! ## The iteration order -/

theorem flat_fold (ax ay : ℝ) (us : List ℕ) : ∀ fb : FrameBuffer,
    us.foldl (fun acc u => innerLoop ax ay acc u) fb
      = stepList ax ay fb (us.flatMap fun u => (List.range kMaxV).map fun v => (u, v)) := by
  induction us with
  | nil => intro fb; rfl
  | cons u us ih =>
    intro fb
    rw [List.foldl_cons, ih, List.flatMap_cons, stepList_append]
    congr 1

theorem samplingLoop_eq (ax ay : ℝ) (fb : FrameBuffer) :
    samplingLoop ax ay fb = stepList ax ay fb samples :=
  flat_fold ax ay (List.range kMaxU) fb

theorem mem_samples (s : ℕ × ℕ) : s ∈ samples ↔ s.1 < kMaxU ∧ s.2 < kMaxV := by
  obtain ⟨u, v⟩ := s
  simp only [samples, List.mem_flatMap, List.mem_range, List.mem_map, Prod.mk.injEq]
  constructor
  · rintro ⟨u', hu, v', hv, rfl, rfl⟩
    exact ⟨hu, hv⟩
  · rintro ⟨hu, hv⟩
    exact ⟨u, hu, v, hv, rfl, rfl⟩

theorem samples_sorted : samples.Pairwise Before := by
  unfold samples
  rw [List.pairwise_flatMap]
  constructor
  · intro u _
    rw [List.pairwise_map]
    exact (List.pairwise_lt_range kMaxV).imp (fun h => Or.inr ⟨rfl, h⟩)
  · refine (List.pairwise_lt_range kMaxU).imp ?_
    intro u u' h x hx y hy
    simp only [List.mem_map] at hx hy
    obtain ⟨_, _, rfl⟩ := hx
    obtain ⟨_, _, rfl⟩ := hy
    exact Or.inl h

theorem Before_irrefl (s : ℕ × ℕ) : ¬Before s s := by
  unfold Before
  omega

theorem Before_asymm (s t : ℕ × ℕ) (h : Before s t) : ¬Before t s := by
  unfold Before at *
  omega

/-- Splitting the iteration at a sample: what comes earlier in the list is `Before` it,
and it is `Before` what comes later. -/
theorem samples_split (l₁ l₂ : List (ℕ × ℕ)) (s : ℕ × ℕ) (h : samples = l₁ ++ s :: l₂) :
    (∀ t ∈ l₁, Before t s) ∧ (∀ t ∈ l₂, Before s t) := by
  have hp := samples_sorted
  rw [h, List.pairwise_append, List.pairwise_cons] at hp
  exact ⟨fun t ht => hp.2.2 t ht s (List.mem_cons_self _ _), fun t ht => hp.2.1.1 t ht⟩

/-- Among samples of which one projects to the cell with inverse depth above `z0`, there
is one that is strictly nearer than every earlier one and as near as every later one. -/
theorem exists_winner (ax ay : ℝ) (a : Fin kHeight) (b : Fin kWidth) (l : List (ℕ × ℕ)) :
    ∀ z0 : ℝ, (∃ s ∈ l, Hits ax ay a b s ∧ z0 < sampleZ ax ay s.1 s.2) →
    ∃ l₁ s l₂, l = l₁ ++ s :: l₂ ∧ Hits ax ay a b s ∧ z0 < sampleZ ax ay s.1 s.2 ∧
      (∀ t ∈ l₁, Hits ax ay a b t → sampleZ ax ay t.1 t.2 < sampleZ ax ay s.1 s.2) ∧
      (∀ t ∈ l₂, Hits ax ay a b t → sampleZ ax ay t.1 t.2 ≤ sampleZ ax ay s.1 s.2) := by
  induction l with
  | nil => rintro z0 ⟨s, hs, _⟩; exact absurd hs (List.not_mem_nil s)
  | cons x l ih =>
    intro z0 hex
    by_cases hx : Hits ax ay a b x ∧ z0 < sampleZ ax ay x.1 x.2
    · by_cases hl : ∃ s ∈ l, Hits ax ay a b s ∧ sampleZ ax ay x.1 x.2 < sampleZ ax ay s.1 s.2
      · obtain ⟨l₁, s, l₂, hsplit, hs, hz, h1, h2⟩ := ih (sampleZ ax ay x.1 x.2) hl
        refine ⟨x :: l₁, s, l₂, by rw [hsplit]; rfl, hs, hx.2.trans hz, ?_, h2⟩
        intro t ht hh
        rcases List.mem_cons.mp ht with rfl | ht
        · exact hz
        · exact h1 t ht hh
      · refine ⟨[], x, l, rfl, hx.1, hx.2, fun t ht => absurd ht (List.not_mem_nil t), ?_⟩
        intro t ht hh
        by_contra hlt
        exact hl ⟨t, ht, hh, not_le.mp hlt⟩
    · have hl : ∃ s ∈ l, Hits ax ay a b s ∧ z0 < sampleZ ax ay s.1 s.2 := by
        obtain ⟨s, hs, hh, hz⟩ := hex
        rcases List.mem_cons.mp hs with rfl | hs
        · exact absurd ⟨hh, hz⟩ hx
        · exact ⟨s, hs, hh, hz⟩
      obtain ⟨l₁, s, l₂, hsplit, hs, hz, h1, h2⟩ := ih z0 hl
      refine ⟨x :: l₁, s, l₂, by rw [hsplit]; rfl, hs, hz, ?_, h2⟩
      intro t ht hh
      rcases List.mem_cons.mp ht with rfl | ht
      · have hle : sampleZ ax ay t.1 t.2 ≤ z0 := by
          by_contra hlt
          exact hx ⟨hh, not_le.mp hlt⟩
        exact lt_of_le_of_lt hle hz
      · exact h1 t ht hh

/-- The cell of a frame when no sample with positive inverse depth projects to it. -/
theorem renderFrame_blank (ax ay : ℝ) (a : Fin kHeight) (b : Fin kWidth)
    (h : ∀ s : ℕ × ℕ, s.1 < kMaxU → s.2 < kMaxV → Hits ax ay a b s →
      sampleZ ax ay s.1 s.2 ≤ 0) :
    (renderFrame ax ay).screen a b = Char.ofNat 32 := by
  unfold renderFrame
  rw [samplingLoop_eq]
  exact (stepList_unchanged ax ay a b samples FrameBuffer.reset (fun s hs hh =>
    h s ((mem_samples s).mp hs).1 ((mem_samples s).mp hs).2 hh)).1

/-- The cell of a frame when sample `s` is the earliest of the nearest samples
projecting to it. -/
theorem renderFrame_winner (ax ay : ℝ) (a : Fin kHeight) (b : Fin kWidth) (s : ℕ × ℕ)
    (hu : s.1 < kMaxU) (hv : s.2 < kMaxV) (hs : Hits ax ay a b s)
    (hpos : 0 < sampleZ ax ay s.1 s.2)
    (hmax : ∀ t : ℕ × ℕ, t.1 < kMaxU → t.2 < kMaxV → Hits ax ay a b t →
      sampleZ ax ay t.1 t.2 ≤ sampleZ ax ay s.1 s.2)
    (hfirst : ∀ t : ℕ × ℕ, t.1 < kMaxU → t.2 < kMaxV → Hits ax ay a b t → Before t s →
      sampleZ ax ay t.1 t.2 < sampleZ ax ay s.1 s.2) :
    (renderFrame ax ay).screen a b = sampleGlyph ax ay s.1 s.2 ∧
      (renderFrame ax ay).z_buffer a b = sampleZ ax ay s.1 s.2 := by
  obtain ⟨l₁, l₂, hsplit⟩ := List.append_of_mem ((mem_samples s).mpr ⟨hu, hv⟩)
  have hord := samples_split l₁ l₂ s hsplit
  have hmem : ∀ t, t ∈ l₁ ∨ t ∈ l₂ → t.1 < kMaxU ∧ t.2 < kMaxV := by
    intro t ht
    apply (mem_samples t).mp
    rw [hsplit]
    rcases ht with ht | ht
    · exact List.mem_append_left _ ht
    · exact List.mem_append_right _ (List.mem_cons_of_mem _ ht)
  unfold renderFrame
  rw [samplingLoop_eq, hsplit]
  apply stepList_winner ax ay a b FrameBuffer.reset l₁ l₂ s hs hpos
  · intro t ht hh
    exact hfirst t (hmem t (Or.inl ht)).1 (hmem t (Or.inl ht)).2 hh (hord.1 t ht)
  · intro t ht hh
    exact hmax t (hmem t (Or.inr ht)).1 (hmem t (Or.inr ht)).2 hh

/-- When some sample with positive inverse depth projects to a cell, one of them is the
earliest of the nearest. -/
theorem renderFrame_exists_winner (ax ay : ℝ) (a : Fin kHeight) (b : Fin kWidth)
    (h : ∃ s : ℕ × ℕ, s.1 < kMaxU ∧ s.2 < kMaxV ∧ Hits ax ay a b s ∧
      0 < sampleZ ax ay s.1 s.2) :
    ∃ s : ℕ × ℕ, (s.1 < kMaxU ∧ s.2 < kMaxV ∧ Hits ax ay a b s ∧ 0 < sampleZ ax ay s.1 s.2) ∧
      (∀ t : ℕ × ℕ, t.1 < kMaxU → t.2 < kMaxV → Hits ax ay a b t →
        sampleZ ax ay t.1 t.2 ≤ sampleZ ax ay s.1 s.2) ∧
      (∀ t : ℕ × ℕ, t.1 < kMaxU → t.2 < kMaxV → Hits ax ay a b t → Before t s →
        sampleZ ax ay t.1 t.2 < sampleZ ax ay s.1 s.2) := by
  obtain ⟨s0, hu0, hv0, hh0, hz0⟩ := h
  obtain ⟨l₁, s, l₂, hsplit, hs, hz, h1, h2⟩ :=
    exists_winner ax ay a b samples 0 ⟨s0, (mem_samples s0).mpr ⟨hu0, hv0⟩, hh0, hz0⟩
  have hord := samples_split l₁ l₂ s hsplit
  have hsmem : s ∈ samples := by
    rw [hsplit]
    exact List.mem_append_right _ (List.mem_cons_self _ _)
  have hcases : ∀ t : ℕ × ℕ, t.1 < kMaxU → t.2 < kMaxV → t ∈ l₁ ∨ t = s ∨ t ∈ l₂ := by
    intro t hu hv
    have ht : t ∈ samples := (mem_samples t).mpr ⟨hu, hv⟩
    rw [hsplit, List.mem_append, List.mem_cons] at ht
    exact ht
  refine ⟨s, ⟨((mem_samples s).mp hsmem).1, ((mem_samples s).mp hsmem).2, hs, hz⟩, ?_, ?_⟩
  · intro t hu hv hh
    rcases hcases t hu hv with ht | rfl | ht
    · exact (h1 t ht hh).le
    · exact le_rfl
    · exact h2 t ht hh
  · intro t hu hv hh hb
    rcases hcases t hu hv with ht | rfl | ht
    · exact h1 t ht hh
    · exact absurd hb (Before_irrefl t)
    · exact absurd hb (Before_asymm s t (hord.2 t ht))

/-! ## A sample that is culled -/

theorem angle1_25 : angle1 25 = Real.pi / 2 := by
  unfold angle1 kMaxU
  rw [PI_eq]
  push_cast
  ring

theorem angle2_0 : angle2 0 = 0 := by
  unfold angle2
  simp

theorem samplePoint_25_0 : samplePoint 25 0 = { x := 0, y := 0, z := 3 } := by
  unfold samplePoint torusPoint
  rw [angle1_25, angle2_0]
  simp only [Real.cos_pi_div_two, Real.sin_pi_div_two, Real.sin_zero, Real.cos_zero,
    kMainRadius, kThicknessRadius]
  norm_num

theorem sampleQ_culled :
    sampleQ (Real.pi / 3 + Real.pi) 0 25 0
      = { x := 0, y := -(3 * (Real.sqrt 3 / 2)), z := -(3 / 2) } := by
  unfold sampleQ Point.Rotate
  rw [samplePoint_25_0]
  simp only [Real.sin_add_pi, Real.cos_add_pi, Real.sin_pi_div_three, Real.cos_pi_div_three,
    Real.sin_zero, Real.cos_zero]
  norm_num

theorem sqrt_three_bounds : 1.73 < Real.sqrt 3 ∧ Real.sqrt 3 < 1.74 := by
  constructor
  · rw [Real.lt_sqrt (by norm_num)]
    norm_num
  · rw [Real.sqrt_lt' (by norm_num)]
    norm_num

theorem sampleI_culled : sampleI (Real.pi / 3 + Real.pi) 0 25 0 = 23 := by
  have h3 := sqrt_three_bounds
  unfold sampleI sampleY sampleZ
  rw [sampleQ_culled]
  simp only [kHalfHeight, kHalfWidth, kCharacterSizeRatio, kDistance, kHeight, kWidth]
  unfold cround
  rw [if_pos (by norm_num; nlinarith [h3.1]), Int.floor_eq_iff]
  norm_num
  constructor <;> nlinarith [h3.1, h3.2]

/-! ## Frame 0: the two ends of the middle row

At `ax = ay = 0` the torus is seen edge-on.  The samples that reach the outermost
columns 17 and 63 of row 11 lie near the tangent rays of the outer equator, and the light
`(-1, -1, 2)` comes from the left: at column 17 the glyph index is at most 7, at column
63 it is at least 8. -/

theorem circle_K_le (c s : ℝ) (h : s ^ 2 + c ^ 2 = 1) : 40 * c - 22.5 * s ≤ 45.9 := by
  nlinarith [sq_nonneg (22.5 * c + 40 * s), sq_nonneg (40 * c - 22.5 * s - 45.9)]

theorem K_ge_of_mul (ρ K : ℝ) (h0 : 0 < ρ) (h3 : ρ ≤ 3) (h : 135 ≤ ρ * K) : 45 ≤ K := by
  by_contra hlt
  push_neg at hlt
  rcases le_or_lt 0 K with hK | hK
  · nlinarith [mul_nonneg (sub_nonneg.mpr h3) hK]
  · nlinarith [mul_pos h0 (neg_pos.mpr hK)]

theorem rho_ge_of_mul (ρ K : ℝ) (h0 : 0 < ρ) (hK : K ≤ 45.9) (h : 135 ≤ ρ * K) :
    2.94 ≤ ρ := by
  nlinarith [mul_nonneg h0.le (sub_nonneg.mpr hK)]

theorem arc_sin_le (c s : ℝ) (h : s ^ 2 + c ^ 2 = 1) (hK : 45 ≤ 40 * c - 22.5 * s) :
    s ≤ -0.3 := by
  by_contra hlt
  push_neg at hlt
  nlinarith [sq_nonneg (40 * c - 22.5 * s - 45 + 22.5 * (s + 0.3)), sq_nonneg (s + 0.3)]

theorem arc_sin_ge (c s : ℝ) (h : s ^ 2 + c ^ 2 = 1) (hK : 45 ≤ 40 * c - 22.5 * s) :
    -0.7 ≤ s := by
  by_contra hlt
  push_neg at hlt
  nlinarith [sq_nonneg (40 * c - 22.5 * s - 45 - 22.5 * (-0.7 - s)), sq_nonneg (-0.7 - s)]

theorem arc_M_le (c s : ℝ) (h : s ^ 2 + c ^ 2 = 1) (hK : 45 ≤ 40 * c - 22.5 * s) :
    2 * s - c ≤ -1.56 := by
  by_contra hlt
  push_neg at hlt
  nlinarith [sq_nonneg (2 * (40 * c - 22.5 * s - 45) + 22.5 * (2 * s - c + 1.56)),
    sq_nonneg ((40 * c - 22.5 * s - 45) + 40 * (2 * s - c + 1.56))]

/-- The shading dot product, times `√6`, of a point that projects to row 11, column 63
of the unrotated frame: the right edge of the silhouette faces away from the light. -/
theorem right_core (c1 s1 c2 s2 : ℝ) (h1 : s1 ^ 2 + c1 ^ 2 = 1) (h2 : s2 ^ 2 + c2 ^ 2 = 1)
    (hx : 22.5 * (6 + s1 * (2 + c2)) ≤ 40 * (c1 * (2 + c2)))
    (hy2 : -(0.5 * (6 + s1 * (2 + c2))) ≤ 20 * s2) :
    c2 * (2 * s1 - c1) - s2 ≤ -1.3 := by
  have hc2 : c2 ≤ 1 := by nlinarith [sq_nonneg s2]
  have hc2' : -1 ≤ c2 := by nlinarith [sq_nonneg s2]
  have hρ : 0 < 2 + c2 := by linarith
  have hρ3 : 2 + c2 ≤ 3 := by linarith
  have hK46 := circle_K_le c1 s1 h1
  have hρK : 135 ≤ (2 + c2) * (40 * c1 - 22.5 * s1) := by linarith
  have hK45 := K_ge_of_mul _ _ hρ hρ3 hρK
  have hc2lo := rho_ge_of_mul _ _ hρ hK46 hρK
  have hs1 := arc_sin_le c1 s1 h1 hK45
  have hM := arc_M_le c1 s1 h1 hK45
  have hsρ : 0 ≤ (2 + c2) * (-s1) := mul_nonneg hρ.le (by linarith)
  have hs2 : -0.15 ≤ s2 := by linarith
  have hcM : 0 ≤ c2 * (-1.56 - (2 * s1 - c1)) := mul_nonneg (by linarith) (by linarith)
  linarith

/-- The shading dot product, times `√6`, of a point that projects to row 11, column 17
of the unrotated frame: the left edge of the silhouette is lit from the side. -/
theorem left_core (c1 s1 c2 s2 : ℝ) (h1 : s1 ^ 2 + c1 ^ 2 = 1) (h2 : s2 ^ 2 + c2 ^ 2 = 1)
    (hx : 40 * (c1 * (2 + c2)) ≤ -(22.5 * (6 + s1 * (2 + c2))))
    (hy1 : 20 * s2 ≤ 0.5 * (6 + s1 * (2 + c2))) :
    -0.9 ≤ c2 * (2 * s1 - c1) - s2 := by
  have hc2 : c2 ≤ 1 := by nlinarith [sq_nonneg s2]
  have hc2' : -1 ≤ c2 := by nlinarith [sq_nonneg s2]
  have hρ : 0 < 2 + c2 := by linarith
  have hρ3 : 2 + c2 ≤ 3 := by linarith
  have h1' : s1 ^ 2 + (-c1) ^ 2 = 1 := by linarith [neg_sq c1]
  have hK46 := circle_K_le (-c1) s1 h1'
  have hρK : 135 ≤ (2 + c2) * (40 * (-c1) - 22.5 * s1) := by linarith
  have hK45 := K_ge_of_mul _ _ hρ hρ3 hρK
  have hc2lo := rho_ge_of_mul _ _ hρ hK46 hρK
  have hs1 := arc_sin_le (-c1) s1 h1' hK45
  have hs1lo := arc_sin_ge (-c1) s1 h1' hK45
  have hsρ : 0 ≤ (2 + c2) * (-s1) := mul_nonneg hρ.le (by linarith)
  have hs2 : s2 ≤ 0.15 := by linarith
  have hcM : 0 ≤ c2 * (2 * s1 - c1 + 0.7) := mul_nonneg (by linarith) (by linarith)
  linarith

theorem Rotate_zero (p : Point) : p.Rotate 0 0 = p := by
  simp [Point.Rotate]

theorem sampleQ_zero (u v : ℕ) : sampleQ 0 0 u v = torusPoint (angle1 u) (angle2 v) := by
  unfold sampleQ samplePoint
  exact Rotate_zero _

theorem sampleNormal_zero (u v : ℕ) :
    sampleNormal u v 0 0
      = { x := Real.cos (angle1 u) * Real.cos (angle2 v)
          y := Real.sin (angle2 v)
          z := Real.sin (angle1 u) * Real.cos (angle2 v) } := by
  unfold sampleNormal samplePoint sampleRing
  rw [Rotate_zero, Rotate_zero, show kThicknessRadius = 1 from rfl, div_one_eq,
    torusPoint_sub_ringPoint]

theorem sampleDot_zero (u v : ℕ) :
    (sampleNormal u v 0 0).Dot normalized_light
      = (Real.cos (angle2 v) * (2 * Real.sin (angle1 u) - Real.cos (angle1 u))
          - Real.sin (angle2 v)) / Real.sqrt 6 := by
  rw [sampleNormal_zero, normalized_light_eq]
  simp only [Point.Dot]
  ring

theorem sqrt_six_bounds : 2.4 < Real.sqrt 6 ∧ Real.sqrt 6 < 2.6 := by
  constructor
  · rw [Real.lt_sqrt (by norm_num)]
    norm_num
  · rw [Real.sqrt_lt' (by norm_num)]
    norm_num

theorem cround_eq_imp (t : ℝ) (n : ℤ) (hn : 0 < n) (h : cround t = n) :
    (n : ℝ) - 1 / 2 ≤ t ∧ t < (n : ℝ) + 1 / 2 := by
  unfold cround at h
  split at h
  · rw [Int.floor_eq_iff] at h
    constructor <;> linarith [h.1, h.2]
  · rename_i hneg
    exfalso
    have hle : ⌈t - 1 / 2⌉ ≤ 0 := Int.ceil_le.mpr (by push_cast; linarith)
    omega

theorem cround_eq_of (t : ℝ) (n : ℤ) (h0 : 0 ≤ t) (h1 : (n : ℝ) - 1 / 2 ≤ t)
    (h2 : t < (n : ℝ) + 1 / 2) : cround t = n := by
  unfold cround
  rw [if_pos h0, Int.floor_eq_iff]
  constructor <;> linarith

theorem arccos_neg_half : Real.arccos (-(1 / 2)) = 2 * Real.pi / 3 := by
  apply Real.arccos_eq_of_eq_cos
  · positivity
  · linarith [Real.pi_pos]
  · rw [show 2 * Real.pi / 3 = Real.pi - Real.pi / 3 by ring, Real.cos_pi_sub,
      Real.cos_pi_div_three]

theorem glyphIndex_ge_eight (n l : Point) (hd1 : -1 ≤ n.Dot l) (hd : n.Dot l ≤ -(1 / 2)) :
    8 ≤ glyphIndex (brightness n l) := by
  have hanti := Real.strictAntiOn_arccos.antitoneOn
    (Set.mem_Icc.mpr ⟨hd1, by linarith⟩)
    (Set.mem_Icc.mpr ⟨by norm_num, by norm_num⟩ : (-(1 / 2) : ℝ) ∈ Set.Icc (-1 : ℝ) 1) hd
  rw [arccos_neg_half] at hanti
  unfold glyphIndex brightness
  rw [PI_eq]
  apply Int.le_floor.mpr
  push_cast
  rw [div_mul_eq_mul_div, le_div_iff₀ Real.pi_pos]
  linarith

theorem glyphIndex_le_seven (n l : Point) (hd1 : n.Dot l ≤ 1) (hd : -(1 / 2) < n.Dot l) :
    glyphIndex (brightness n l) ≤ 7 := by
  have hanti := Real.strictAntiOn_arccos
    (Set.mem_Icc.mpr ⟨by norm_num, by norm_num⟩ : (-(1 / 2) : ℝ) ∈ Set.Icc (-1 : ℝ) 1)
    (Set.mem_Icc.mpr ⟨by linarith, hd1⟩) hd
  rw [arccos_neg_half] at hanti
  unfold glyphIndex brightness
  rw [PI_eq]
  have hlt : ⌊Real.arccos (n.Dot l) / Real.pi * 12⌋ < 8 := by
    apply Int.floor_lt.mpr
    push_cast
    rw [div_mul_eq_mul_div, div_lt_iff₀ Real.pi_pos]
    linarith
  omega

theorem hit_col_right (u v : ℕ) (h : sampleJ 0 0 u v = 63) :
    22.5 * (6 + Real.sin (angle1 u) * (2 + Real.cos (angle2 v)))
      ≤ 40 * (Real.cos (angle1 u) * (2 + Real.cos (angle2 v))) := by
  have hD := (divisor_bounds 0 0 u v).1
  have hpos : 0 < kDistance + (sampleQ 0 0 u v).z := by linarith
  have hc := (cround_eq_imp _ 63 (by norm_num) h).1
  unfold sampleX sampleZ at hc
  rw [sampleQ_zero] at hc hD hpos
  simp only [torusPoint, kHalfWidth, kWidth, kDistance, kMainRadius, kThicknessRadius] at hc hD hpos
  push_cast at hc
  rw [mul_one] at hc hD hpos
  have h2 : 22.5 ≤ Real.cos (angle1 u) * (2 + Real.cos (angle2 v)) * 40
      / (6 + Real.sin (angle1 u) * (2 + Real.cos (angle2 v))) := by
    rw [mul_one_div] at hc
    linarith
  rw [le_div_iff₀ hpos] at h2
  linarith

theorem hit_col_left (u v : ℕ) (h : sampleJ 0 0 u v = 17) :
    40 * (Real.cos (angle1 u) * (2 + Real.cos (angle2 v)))
      ≤ -(22.5 * (6 + Real.sin (angle1 u) * (2 + Real.cos (angle2 v)))) := by
  have hD := (divisor_bounds 0 0 u v).1
  have hpos : 0 < kDistance + (sampleQ 0 0 u v).z := by linarith
  have hc := (cround_eq_imp _ 17 (by norm_num) h).2
  unfold sampleX sampleZ at hc
  rw [sampleQ_zero] at hc hD hpos
  simp only [torusPoint, kHalfWidth, kWidth, kDistance, kMainRadius, kThicknessRadius] at hc hD hpos
  push_cast at hc
  rw [mul_one] at hc hD hpos
  have h2 : Real.cos (angle1 u) * (2 + Real.cos (angle2 v)) * 40
      / (6 + Real.sin (angle1 u) * (2 + Real.cos (angle2 v))) ≤ -22.5 := by
    rw [mul_one_div] at hc
    linarith
  rw [div_le_iff₀ hpos] at h2
  linarith

theorem hit_row_mid (u v : ℕ) (h : sampleI 0 0 u v = 11) :
    20 * Real.sin (angle2 v) ≤ 0.5 * (6 + Real.sin (angle1 u) * (2 + Real.cos (angle2 v))) ∧
      -(0.5 * (6 + Real.sin (angle1 u) * (2 + Real.cos (angle2 v))))
        ≤ 20 * Real.sin (angle2 v) := by
  have hD := (divisor_bounds 0 0 u v).1
  have hpos : 0 < kDistance + (sampleQ 0 0 u v).z := by linarith
  have hc := cround_eq_imp _ 11 (by norm_num) h
  unfold sampleY sampleZ at hc
  rw [sampleQ_zero] at hc hD hpos
  simp only [torusPoint, kHalfWidth, kHalfHeight, kHeight, kWidth, kDistance, kMainRadius,
    kThicknessRadius, kCharacterSizeRatio] at hc hD hpos
  push_cast at hc
  rw [mul_one] at hc hD hpos
  rw [mul_one, mul_one_div] at hc
  have h1 : Real.sin (angle2 v) * (1 / 2) * (80 / 2)
      / (6 + Real.sin (angle1 u) * (2 + Real.cos (angle2 v))) ≤ 0.5 := by linarith [hc.1]
  have h2 : -0.5 ≤ Real.sin (angle2 v) * (1 / 2) * (80 / 2)
      / (6 + Real.sin (angle1 u) * (2 + Real.cos (angle2 v))) := by linarith [hc.2]
  rw [div_le_iff₀ hpos] at h1
  rw [le_div_iff₀ hpos] at h2
  constructor <;> linarith

theorem right_index (u v : ℕ) (hi : sampleI 0 0 u v = 11) (hj : sampleJ 0 0 u v = 63) :
    8 ≤ glyphIndex (brightness (sampleNormal u v 0 0) normalized_light) := by
  have hunit := Dot_mem_of_unit _ _ (sampleNormal_magnitude u v 0 0) normalized_light_magnitude
  apply glyphIndex_ge_eight _ _ hunit.1
  rw [sampleDot_zero, div_le_iff₀ sqrt_six_pos]
  have hT := right_core _ _ _ _ (Real.sin_sq_add_cos_sq (angle1 u))
    (Real.sin_sq_add_cos_sq (angle2 v)) (hit_col_right u v hj) (hit_row_mid u v hi).2
  linarith [sqrt_six_bounds.2]

theorem left_index (u v : ℕ) (hi : sampleI 0 0 u v = 11) (hj : sampleJ 0 0 u v = 17) :
    glyphIndex (brightness (sampleNormal u v 0 0) normalized_light) ≤ 7 := by
  have hunit := Dot_mem_of_unit _ _ (sampleNormal_magnitude u v 0 0) normalized_light_magnitude
  apply glyphIndex_le_seven _ _ hunit.2
  rw [sampleDot_zero, lt_div_iff₀ sqrt_six_pos]
  have hT := left_core _ _ _ _ (Real.sin_sq_add_cos_sq (angle1 u))
    (Real.sin_sq_add_cos_sq (angle2 v)) (hit_col_left u v hj) (hit_row_mid u v hi).1
  linarith [sqrt_six_bounds.1]

/-- The angle `4π/25` between the samples `u = 92`, `u = 58` and the `x` axis. -/
theorem theta_bounds : 0.5024 < 4 * Real.pi / 25 ∧ 4 * Real.pi / 25 < 0.504 := by
  constructor
  · linarith [Real.pi_gt_d2]
  · linarith [Real.pi_lt_d2]

theorem theta_trig :
    45 < 40 * Real.cos (4 * Real.pi / 25) + 22.5 * Real.sin (4 * Real.pi / 25) ∧
      40 * Real.cos (4 * Real.pi / 25) + 23.5 * Real.sin (4 * Real.pi / 25) < 47 ∧
      0 < Real.sin (4 * Real.pi / 25) ∧ Real.sin (4 * Real.pi / 25) < 0.504 := by
  obtain ⟨hlo, hhi⟩ := theta_bounds
  have hcos := @Real.one_sub_sq_div_two_le_cos (4 * Real.pi / 25)
  have hsin := Real.sin_gt_sub_cube (by linarith : 0 < 4 * Real.pi / 25) (by linarith)
  have hsq : (4 * Real.pi / 25) ^ 2 ≤ 0.504 ^ 2 := by nlinarith
  have hcu : (4 * Real.pi / 25) ^ 3 ≤ 0.504 ^ 3 := by
    have h3 : (4 * Real.pi / 25) ^ 3 = (4 * Real.pi / 25) ^ 2 * (4 * Real.pi / 25) := by ring
    rw [h3]
    nlinarith [sq_nonneg (4 * Real.pi / 25)]
  have hcs := Real.sin_sq_add_cos_sq (4 * Real.pi / 25)
  have hslt := Real.sin_lt (by linarith : 0 < 4 * Real.pi / 25)
  refine ⟨?_, ?_, ?_, by linarith⟩
  · norm_num at hsq hcu ⊢
    linarith
  · nlinarith [sq_nonneg (23.5 * Real.cos (4 * Real.pi / 25) - 40 * Real.sin (4 * Real.pi / 25)),
      sq_nonneg (40 * Real.cos (4 * Real.pi / 25) + 23.5 * Real.sin (4 * Real.pi / 25) - 47)]
  · norm_num at hcu ⊢
    linarith

theorem angle1_92 : angle1 92 = 2 * Real.pi - 4 * Real.pi / 25 := by
  unfold angle1 kMaxU
  rw [PI_eq]
  push_cast
  ring

theorem angle1_58 : angle1 58 = 4 * Real.pi / 25 + Real.pi := by
  unfold angle1 kMaxU
  rw [PI_eq]
  push_cast
  ring

theorem sampleQ_92 :
    sampleQ 0 0 92 0 = { x := Real.cos (4 * Real.pi / 25) * 3, y := 0,
                         z := -Real.sin (4 * Real.pi / 25) * 3 } := by
  rw [sampleQ_zero, angle1_92, angle2_0]
  simp only [torusPoint, Real.cos_two_pi_sub, Real.sin_two_pi_sub, Real.sin_zero, Real.cos_zero,
    kMainRadius, kThicknessRadius]
  norm_num

theorem sampleQ_58 :
    sampleQ 0 0 58 0 = { x := -Real.cos (4 * Real.pi / 25) * 3, y := 0,
                         z := -Real.sin (4 * Real.pi / 25) * 3 } := by
  rw [sampleQ_zero, angle1_58, angle2_0]
  simp only [torusPoint, Real.cos_add_pi, Real.sin_add_pi, Real.sin_zero, Real.cos_zero,
    kMainRadius, kThicknessRadius]
  norm_num

theorem sampleI_92 : sampleI 0 0 92 0 = 11 := by
  unfold sampleI sampleY
  rw [sampleQ_92]
  apply cround_eq_of <;> norm_num [kHalfHeight, kHeight]

theorem sampleI_58 : sampleI 0 0 58 0 = 11 := by
  unfold sampleI sampleY
  rw [sampleQ_58]
  apply cround_eq_of <;> norm_num [kHalfHeight, kHeight]

theorem sampleX_92 :
    22.5 ≤ sampleX 0 0 92 0 ∧ sampleX 0 0 92 0 < 23.5 := by
  obtain ⟨h1, h2, h3, h4⟩ := theta_trig
  have hpos : 0 < 6 + -Real.sin (4 * Real.pi / 25) * 3 := by linarith
  unfold sampleX sampleZ
  rw [sampleQ_92]
  simp only [kHalfWidth, kWidth, kDistance]
  push_cast
  rw [mul_one_div, le_div_iff₀ hpos, div_lt_iff₀ hpos]
  constructor <;> linarith

theorem sampleX_58 :
    -23.5 < sampleX 0 0 58 0 ∧ sampleX 0 0 58 0 < -22.5 := by
  obtain ⟨h1, h2, h3, h4⟩ := theta_trig
  have hpos : 0 < 6 + -Real.sin (4 * Real.pi / 25) * 3 := by linarith
  unfold sampleX sampleZ
  rw [sampleQ_58]
  simp only [kHalfWidth, kWidth, kDistance]
  push_cast
  rw [mul_one_div, lt_div_iff₀ hpos, div_lt_iff₀ hpos]
  constructor <;> linarith

theorem sampleJ_92 : sampleJ 0 0 92 0 = 63 := by
  have h := sampleX_92
  unfold sampleJ
  apply cround_eq_of <;> norm_num [kHalfWidth, kWidth] <;> linarith [h.1, h.2]

theorem sampleJ_58 : sampleJ 0 0 58 0 = 17 := by
  have h := sampleX_58
  unfold sampleJ
  apply cround_eq_of <;> norm_num [kHalfWidth, kWidth] <;> linarith [h.1, h.2]

theorem rampAt_ne (m n : ℤ) (hm0 : 0 ≤ m) (hm : m ≤ 7) (hn : 8 ≤ n) (hn12 : n ≤ 12) :
    rampAt m ≠ rampAt n := by
  interval_cases m <;> interval_cases n <;> decide

/-- A cell some sample projects to holds the glyph of a sample that projects to it. -/
theorem renderFrame_glyph_of_hit (ax ay : ℝ) (a : Fin kHeight) (b : Fin kWidth)
    (h : ∃ s : ℕ × ℕ, s.1 < kMaxU ∧ s.2 < kMaxV ∧ Hits ax ay a b s) :
    ∃ s : ℕ × ℕ, Hits ax ay a b s ∧
      (renderFrame ax ay).screen a b = sampleGlyph ax ay s.1 s.2 := by
  obtain ⟨s0, hu0, hv0, hh0⟩ := h
  obtain ⟨s, ⟨hu, hv, hs, hpos⟩, hmax, hfirst⟩ :=
    renderFrame_exists_winner ax ay a b ⟨s0, hu0, hv0, hh0, sampleZ_pos ax ay s0.1 s0.2⟩
  exact ⟨s, hs, (renderFrame_winner ax ay a b s hu hv hs hpos hmax hfirst).1⟩

theorem frame0_left_right :
    (renderFrame 0 0).screen ⟨11, by decide⟩ ⟨17, by decide⟩
      ≠ (renderFrame 0 0).screen ⟨11, by decide⟩ ⟨63, by decide⟩ := by
  obtain ⟨sl, hl, hgl⟩ := renderFrame_glyph_of_hit 0 0 ⟨11, by decide⟩ ⟨17, by decide⟩
    ⟨(58, 0), by decide, by decide, sampleI_58, sampleJ_58⟩
  obtain ⟨sr, hr, hgr⟩ := renderFrame_glyph_of_hit 0 0 ⟨11, by decide⟩ ⟨63, by decide⟩
    ⟨(92, 0), by decide, by decide, sampleI_92, sampleJ_92⟩
  rw [hgl, hgr]
  unfold sampleGlyph
  apply rampAt_ne
  · exact glyphIndex_nonneg (brightness_nonneg _ _)
  · exact left_index sl.1 sl.2 hl.1 hl.2
  · exact right_index sr.1 sr.2 hr.1 hr.2
  · exact glyphIndex_le (brightness_le_one _ _)

/-! ## Frame 0: the mirror sample -/

/-- The first angle of the mirror sample `(150 - u) mod 100`. -/
theorem mirror_angle (u : ℕ) (hu : u < kMaxU) :
    Real.cos (angle1 ((150 - u) % 100)) = -Real.cos (angle1 u) ∧
      Real.sin (angle1 ((150 - u) % 100)) = Real.sin (angle1 u) := by
  unfold kMaxU at hu
  rcases Nat.lt_or_ge 50 u with h | h
  · have hm : (150 - u) % 100 = 150 - u := Nat.mod_eq_of_lt (by omega)
    have ha : angle1 (150 - u) = Real.pi - angle1 u + 2 * Real.pi := by
      unfold angle1 kMaxU
      rw [PI_eq, Nat.cast_sub (by omega)]
      push_cast
      ring
    rw [hm, ha, Real.cos_add_two_pi, Real.sin_add_two_pi, Real.cos_pi_sub, Real.sin_pi_sub]
    exact ⟨rfl, rfl⟩
  · have hm : (150 - u) % 100 = 50 - u := by omega
    have ha : angle1 (50 - u) = Real.pi - angle1 u := by
      unfold angle1 kMaxU
      rw [PI_eq, Nat.cast_sub h]
      push_cast
      ring
    rw [hm, ha, Real.cos_pi_sub, Real.sin_pi_sub]
    exact ⟨rfl, rfl⟩

theorem mirror_sampleQ (u v : ℕ) (hu : u < kMaxU) :
    sampleQ 0 0 ((150 - u) % 100) v
      = { x := -(sampleQ 0 0 u v).x, y := (sampleQ 0 0 u v).y, z := (sampleQ 0 0 u v).z } := by
  obtain ⟨hc, hs⟩ := mirror_angle u hu
  rw [sampleQ_zero, sampleQ_zero]
  simp only [torusPoint, hc, hs, Point.mk.injEq, and_true]
  ring

theorem sampleQ_x_sq_le (ax ay : ℝ) (u v : ℕ) : (sampleQ ax ay u v).x ^ 2 ≤ 9 := by
  have hrot := Rotate_sq (samplePoint u v) ax ay
  have hp := torusPoint_sq (angle1 u) (angle2 v)
  have hc := Real.cos_le_one (angle2 v)
  unfold sampleQ
  unfold samplePoint at hrot ⊢
  nlinarith [mul_self_nonneg ((torusPoint (angle1 u) (angle2 v)).Rotate ax ay).z,
    mul_self_nonneg ((torusPoint (angle1 u) (angle2 v)).Rotate ax ay).y]

theorem sampleX_abs_le (ax ay : ℝ) (u v : ℕ) :
    -40 ≤ sampleX ax ay u v ∧ sampleX ax ay u v ≤ 40 := by
  have hx := sampleQ_x_sq_le ax ay u v
  have hz := sampleZ_bounds ax ay u v
  have hzpos := sampleZ_pos ax ay u v
  have hx3 : (sampleQ ax ay u v).x ≤ 3 := by nlinarith
  have hx3' : -3 ≤ (sampleQ ax ay u v).x := by nlinarith
  unfold sampleX kHalfWidth kWidth
  push_cast
  constructor
  · nlinarith [mul_nonneg (by linarith : 0 ≤ (sampleQ ax ay u v).x + 3) hzpos.le,
      mul_nonneg (by linarith : (0:ℝ) ≤ 3) (by linarith : 0 ≤ 1 / 3 - sampleZ ax ay u v)]
  · nlinarith [mul_nonneg (by linarith : 0 ≤ 3 - (sampleQ ax ay u v).x) hzpos.le,
      mul_nonneg (by linarith : (0:ℝ) ≤ 3) (by linarith : 0 ≤ 1 / 3 - sampleZ ax ay u v)]

/-- Rounding commutes with the reflection `t ↦ 80 - t` of a screen column, except at the
exact midpoints between two columns. -/
theorem cround_reflect (t : ℝ) (h0 : 0 ≤ t) (h80 : t ≤ 80)
    (hne : ∀ k : ℤ, t ≠ (k : ℝ) + 1 / 2) : cround (80 - t) = 80 - cround t := by
  unfold cround
  rw [if_pos h0, if_pos (by linarith)]
  have hlo : ((⌊t + 1 / 2⌋ : ℤ) : ℝ) ≤ t + 1 / 2 := Int.floor_le _
  have hhi : t + 1 / 2 < ((⌊t + 1 / 2⌋ : ℤ) : ℝ) + 1 := Int.lt_floor_add_one _
  have hne' : ((⌊t + 1 / 2⌋ : ℤ) : ℝ) ≠ t + 1 / 2 := by
    intro heq
    apply hne (⌊t + 1 / 2⌋ - 1)
    push_cast
    linarith
  have hlt : ((⌊t + 1 / 2⌋ : ℤ) : ℝ) < t + 1 / 2 := lt_of_le_of_ne hlo hne'
  rw [Int.floor_eq_iff]
  push_cast
  constructor <;> linarith

theorem mirror_geometry (u v : ℕ) (hu : u < kMaxU) :
    (150 - u) % 100 < kMaxU ∧
      sampleZ 0 0 ((150 - u) % 100) v = sampleZ 0 0 u v ∧
      sampleI 0 0 ((150 - u) % 100) v = sampleI 0 0 u v ∧
      sampleX 0 0 ((150 - u) % 100) v = -sampleX 0 0 u v ∧
      ((∀ k : ℤ, sampleX 0 0 u v ≠ (k : ℝ) + 1 / 2) →
        sampleJ 0 0 ((150 - u) % 100) v = 80 - sampleJ 0 0 u v) := by
  have hq := mirror_sampleQ u v hu
  have hZ : sampleZ 0 0 ((150 - u) % 100) v = sampleZ 0 0 u v := by
    unfold sampleZ
    rw [hq]
  have hX : sampleX 0 0 ((150 - u) % 100) v = -sampleX 0 0 u v := by
    unfold sampleX
    rw [hZ, hq]
    ring
  have hI : sampleI 0 0 ((150 - u) % 100) v = sampleI 0 0 u v := by
    unfold sampleI sampleY
    rw [hZ, hq]
  refine ⟨Nat.mod_lt _ (by decide), hZ, hI, hX, ?_⟩
  intro hne
  have hb := sampleX_abs_le 0 0 u v
  unfold sampleJ
  rw [hX]
  have hw : kHalfWidth = 40 := by
    unfold kHalfWidth kWidth
    norm_num
  rw [hw, show -sampleX 0 0 u v + 40 = 80 - (sampleX 0 0 u v + 40) by ring]
  apply cround_reflect _ (by linarith [hb.1]) (by linarith [hb.2])
  intro k heq
  apply hne (k - 40)
  push_cast
  linarith

/-! ## The angle increments and the sample angles -/

theorem kXDelta_eq : kXDelta = 1 / 10 := by
  unfold kXDelta kXSpeed
  norm_num

theorem kYDelta_eq : kYDelta = -(1 / 15) := by
  unfold kYDelta kYSpeed
  norm_num

theorem delta_values :
    (∀ a : ℝ × ℝ, nextAngles a = (a.1 + 1 / 10, a.2 + -(1 / 15))) ∧
      (kXDelta = kXSpeed / 3 ∧ kYDelta = kYSpeed / 3) ∧
      (kXDelta ≠ kXSpeed / 30 ∧ kYDelta ≠ kYSpeed / 30) ∧
      (kXDelta * 30 = 3 ∧ kYDelta * 30 = -2) := by
  refine ⟨fun a => ?_, ⟨rfl, rfl⟩, ⟨?_, ?_⟩, ?_, ?_⟩
  · unfold nextAngles
    rw [kXDelta_eq, kYDelta_eq]
  · rw [kXDelta_eq]; unfold kXSpeed; norm_num
  · rw [kYDelta_eq]; unfold kYSpeed; norm_num
  · rw [kXDelta_eq]; norm_num
  · rw [kYDelta_eq]; norm_num

theorem angle1_eq (u : ℕ) : angle1 u = 2 * Real.pi * (u : ℝ) / 100 := by
  unfold angle1 kMaxU
  rw [PI_eq]
  push_cast
  ring

theorem angle2_eq (v : ℕ) : angle2 v = 2 * Real.pi * (v : ℝ) / 100 := by
  unfold angle2 kMaxV
  rw [PI_eq]
  push_cast
  ring

/-! ## Reset, monotone depth and idempotence -/

theorem FrameBuffer_eq (f g : FrameBuffer)
    (h : ∀ (a : Fin kHeight) (b : Fin kWidth),
      f.screen a b = g.screen a b ∧ f.z_buffer a b = g.z_buffer a b) : f = g := by
  obtain ⟨fs, fz⟩ := f
  obtain ⟨gs, gz⟩ := g
  have hs : fs = gs := funext fun a => funext fun b => (h a b).1
  have hz : fz = gz := funext fun a => funext fun b => (h a b).2
  rw [hs, hz]

/-- The inner reset loop over the columns `js` of row `i`. -/
theorem resetRow_cell (i : Fin kHeight) (js : List (Fin kWidth)) :
    ∀ (fb : FrameBuffer) (a : Fin kHeight) (b : Fin kWidth),
      (js.foldl (fun acc' j => acc'.write i j (Char.ofNat 32) 0) fb).screen a b
          = (if a = i ∧ b ∈ js then Char.ofNat 32 else fb.screen a b) ∧
        (js.foldl (fun acc' j => acc'.write i j (Char.ofNat 32) 0) fb).z_buffer a b
          = (if a = i ∧ b ∈ js then 0 else fb.z_buffer a b) := by
  induction js with
  | nil => intro fb a b; simp
  | cons j js ih =>
    intro fb a b
    rw [List.foldl_cons]
    obtain ⟨h1, h2⟩ := ih (fb.write i j (Char.ofNat 32) 0) a b
    rw [h1, h2]
    by_cases hai : a = i
    · by_cases hbj : b = j
      · subst hai; subst hbj
        simp [FrameBuffer.write]
      · by_cases hb : b ∈ js
        · simp [hai, hb]
        · simp [hai, hb, hbj, FrameBuffer.write]
    · simp [hai, FrameBuffer.write]

/-- The outer reset loop over the rows `is`. -/
theorem resetRows_cell (is : List (Fin kHeight)) :
    ∀ (fb : FrameBuffer) (a : Fin kHeight) (b : Fin kWidth),
      (is.foldl (fun acc i => (List.finRange kWidth).foldl
          (fun acc' j => acc'.write i j (Char.ofNat 32) 0) acc) fb).screen a b
          = (if a ∈ is then Char.ofNat 32 else fb.screen a b) ∧
        (is.foldl (fun acc i => (List.finRange kWidth).foldl
          (fun acc' j => acc'.write i j (Char.ofNat 32) 0) acc) fb).z_buffer a b
          = (if a ∈ is then 0 else fb.z_buffer a b) := by
  induction is with
  | nil => intro fb a b; simp
  | cons i is ih =>
    intro fb a b
    rw [List.foldl_cons]
    obtain ⟨h1, h2⟩ := ih ((List.finRange kWidth).foldl
      (fun acc' j => acc'.write i j (Char.ofNat 32) 0) fb) a b
    obtain ⟨r1, r2⟩ := resetRow_cell i (List.finRange kWidth) fb a b
    rw [h1, h2, r1, r2]
    by_cases hai : a = i
    · simp [hai, List.mem_finRange]
    · by_cases ha : a ∈ is
      · simp [ha]
      · simp [hai, ha]

theorem resetLoop_eq (fb : FrameBuffer) : resetLoop fb = FrameBuffer.reset := by
  apply FrameBuffer_eq
  intro a b
  obtain ⟨h1, h2⟩ := resetRows_cell (List.finRange kHeight) fb a b
  unfold resetLoop
  rw [h1, h2]
  simp [List.mem_finRange, FrameBuffer.reset]

theorem frameFrom_eq (prev : FrameBuffer) (ax ay : ℝ) :
    frameFrom prev ax ay = renderFrame ax ay := by
  unfold frameFrom renderFrame
  rw [resetLoop_eq]

/-- One sample never lowers a depth cell. -/
theorem sampleStep_depth_mono (ax ay : ℝ) (fb : FrameBuffer) (s : ℕ × ℕ)
    (a : Fin kHeight) (b : Fin kWidth) :
    fb.z_buffer a b ≤ (sampleStep ax ay fb s.1 s.2).z_buffer a b := by
  by_cases hh : Hits ax ay a b s
  · by_cases hz : fb.z_buffer a b < sampleZ ax ay s.1 s.2
    · rw [(sampleStep_hit_gt ax ay fb s a b hh hz).2]
      exact hz.le
    · rw [sampleStep_hit_le ax ay fb s a b hh (not_lt.mp hz)]
  · rw [(sampleStep_miss ax ay fb s a b hh).2]

/-- A sample that changes a cell projects to it, is strictly nearer than what the cell
held, and leaves its own glyph and inverse depth there. -/
theorem sampleStep_change (ax ay : ℝ) (fb : FrameBuffer) (s : ℕ × ℕ)
    (a : Fin kHeight) (b : Fin kWidth)
    (h : (sampleStep ax ay fb s.1 s.2).screen a b ≠ fb.screen a b ∨
      (sampleStep ax ay fb s.1 s.2).z_buffer a b ≠ fb.z_buffer a b) :
    Hits ax ay a b s ∧ fb.z_buffer a b < sampleZ ax ay s.1 s.2 ∧
      (sampleStep ax ay fb s.1 s.2).screen a b = sampleGlyph ax ay s.1 s.2 ∧
      (sampleStep ax ay fb s.1 s.2).z_buffer a b = sampleZ ax ay s.1 s.2 := by
  by_cases hh : Hits ax ay a b s
  · by_cases hz : fb.z_buffer a b < sampleZ ax ay s.1 s.2
    · exact ⟨hh, hz, sampleStep_hit_gt ax ay fb s a b hh hz⟩
    · exfalso
      rw [sampleStep_hit_le ax ay fb s a b hh (not_lt.mp hz)] at h
      rcases h with h | h <;> exact h rfl
  · exfalso
    obtain ⟨h1, h2⟩ := sampleStep_miss ax ay fb s a b hh
    rcases h with h | h
    · exact h h1
    · exact h h2

theorem stepList_depth_mono (ax ay : ℝ) (a : Fin kHeight) (b : Fin kWidth)
    (l : List (ℕ × ℕ)) : ∀ fb : FrameBuffer,
    fb.z_buffer a b ≤ (stepList ax ay fb l).z_buffer a b := by
  induction l with
  | nil => intro fb; exact le_rfl
  | cons s l ih =>
    intro fb
    rw [stepList_cons]
    exact (sampleStep_depth_mono ax ay fb s a b).trans (ih _)

/-- After a list of samples a cell is at least as near as each of them that projects
to it. -/
theorem stepList_depth_upper (ax ay : ℝ) (a : Fin kHeight) (b : Fin kWidth)
    (l : List (ℕ × ℕ)) : ∀ fb : FrameBuffer, ∀ s ∈ l, Hits ax ay a b s →
    sampleZ ax ay s.1 s.2 ≤ (stepList ax ay fb l).z_buffer a b := by
  induction l with
  | nil => intro fb s hs; exact absurd hs (List.not_mem_nil s)
  | cons x l ih =>
    intro fb s hs hh
    rw [stepList_cons]
    rcases List.mem_cons.mp hs with rfl | hs
    · refine le_trans ?_ (stepList_depth_mono ax ay a b l _)
      by_cases hz : fb.z_buffer a b < sampleZ ax ay s.1 s.2
      · rw [(sampleStep_hit_gt ax ay fb s a b hh hz).2]
      · rw [sampleStep_hit_le ax ay fb s a b hh (not_lt.mp hz)]
        exact not_lt.mp hz
    · exact ih _ s hs hh

/-- The depth of a cell at the end of a frame is the greatest of 0 and the inverse
depths of the samples that project to the cell. -/
theorem renderFrame_depth_isGreatest (ax ay : ℝ) (a : Fin kHeight) (b : Fin kWidth) :
    IsGreatest
      (insert (0 : ℝ) {z | ∃ s : ℕ × ℕ, s.1 < kMaxU ∧ s.2 < kMaxV ∧ Hits ax ay a b s ∧
        z = sampleZ ax ay s.1 s.2})
      ((renderFrame ax ay).z_buffer a b) := by
  unfold renderFrame
  rw [samplingLoop_eq]
  constructor
  · rcases stepList_depth_cases ax ay a b samples FrameBuffer.reset with h | ⟨s, hs, hh, hz⟩
    · left
      rw [h]
      rfl
    · right
      exact ⟨s, ((mem_samples s).mp hs).1, ((mem_samples s).mp hs).2, hh, hz⟩
  · rintro z (rfl | ⟨s, hu, hv, hh, rfl⟩)
    · exact stepList_depth_mono ax ay a b samples FrameBuffer.reset
    · exact stepList_depth_upper ax ay a b samples FrameBuffer.reset s
        ((mem_samples s).mpr ⟨hu, hv⟩) hh

theorem samplingLoop_idem (ax ay : ℝ) (fb : FrameBuffer) :
    samplingLoop ax ay (samplingLoop ax ay fb) = samplingLoop ax ay fb := by
  apply FrameBuffer_eq
  intro a b
  rw [samplingLoop_eq ax ay (samplingLoop ax ay fb)]
  apply stepList_unchanged
  intro s hs hh
  rw [samplingLoop_eq]
  exact stepList_depth_upper ax ay a b samples fb s hs hh

/-! ## The frame text -/

/-- The glyphs of the ramp, each once. -/
theorem rampAt_mem (idx : ℤ) (h0 : 0 ≤ idx) (h12 : idx ≤ 12) :
    rampAt idx ∈ ['.', ',', '-', '~', ':', ';', '=', '!', '*', '#', '$', '@'] := by
  interval_cases idx <;> decide

theorem sampleGlyph_mem (ax ay : ℝ) (u v : ℕ) :
    sampleGlyph ax ay u v ∈ ['.', ',', '-', '~', ':', ';', '=', '!', '*', '#', '$', '@'] :=
  rampAt_mem _ (glyphIndex_nonneg (brightness_nonneg _ _)) (glyphIndex_le (brightness_le_one _ _))

theorem presentRows_fold (fb : FrameBuffer) (is : List (Fin kHeight)) :
    ∀ out : List Char,
    is.foldl (fun acc i => acc ++ List.ofFn (fb.screen i) ++ [newline]) out
      = out ++ (is.map fun i => List.ofFn (fb.screen i)).flatMap fun r => r ++ [newline] := by
  induction is with
  | nil => intro out; simp
  | cons i is ih =>
    intro out
    rw [List.foldl_cons, ih, List.map_cons, List.flatMap_cons]
    simp only [List.append_assoc]

theorem presentRows_eq (fb : FrameBuffer) (out : List Char) :
    presentRows fb out
      = out ++ ((List.finRange kHeight).map fun i => List.ofFn (fb.screen i)).flatMap
          fun r => r ++ [newline] :=
  presentRows_fold fb (List.finRange kHeight) out

theorem frameText_eq (ax ay : ℝ) :
    frameText ax ay
      = captionText ++ [newline]
        ++ ((List.finRange kHeight).map fun i => List.ofFn ((renderFrame ax ay).screen i)).flatMap
          fun r => r ++ [newline] := by
  unfold frameText
  exact presentRows_eq _ _

/-! ## The projected column -/

theorem sampleQ_xz_sq_le (ax ay : ℝ) (u v : ℕ) :
    (sampleQ ax ay u v).x ^ 2 + (sampleQ ax ay u v).z ^ 2 ≤ 9 := by
  have hrot := Rotate_sq (samplePoint u v) ax ay
  have hp := torusPoint_sq (angle1 u) (angle2 v)
  have hc := Real.cos_le_one (angle2 v)
  unfold sampleQ
  unfold samplePoint at hrot ⊢
  nlinarith [mul_self_nonneg ((torusPoint (angle1 u) (angle2 v)).Rotate ax ay).y]

theorem tangent_bound (x z : ℝ) (h : x ^ 2 + z ^ 2 ≤ 9) : 40 * x - 23.5 * z < 141 := by
  by_contra hge
  push_neg at hge
  nlinarith [sq_nonneg (23.5 * x + 40 * z), sq_nonneg (40 * x - 23.5 * z - 141)]

theorem sampleX_bounds (ax ay : ℝ) (u v : ℕ) :
    -23.5 < sampleX ax ay u v ∧ sampleX ax ay u v < 23.5 := by
  have hq := sampleQ_xz_sq_le ax ay u v
  have hD := (divisor_bounds ax ay u v).1
  have hpos : 0 < kDistance + (sampleQ ax ay u v).z := by linarith
  have h1 := tangent_bound (sampleQ ax ay u v).x (sampleQ ax ay u v).z hq
  have h2 := tangent_bound (-(sampleQ ax ay u v).x) (sampleQ ax ay u v).z
    (by rw [neg_sq]; exact hq)
  unfold sampleX sampleZ kHalfWidth kWidth
  unfold kDistance at hpos ⊢
  push_cast
  rw [mul_one_div, lt_div_iff₀ hpos, div_lt_iff₀ hpos]
  constructor <;> linarith

theorem sampleJ_bounds (ax ay : ℝ) (u v : ℕ) :
    17 ≤ sampleJ ax ay u v ∧ sampleJ ax ay u v ≤ 63 := by
  have hX := sampleX_bounds ax ay u v
  have hw : kHalfWidth = 40 := by
    unfold kHalfWidth kWidth
    norm_num
  unfold sampleJ cround
  rw [hw, if_pos (by linarith [hX.1])]
  constructor
  · apply Int.le_floor.mpr
    push_cast
    linarith [hX.1]
  · have hlt : ⌊sampleX ax ay u v + 40 + 1 / 2⌋ < 64 := by
      apply Int.floor_lt.mpr
      push_cast
      linarith [hX.2]
    omega

/-! ## Rounding: the error of one operation -/

namespace F64

theorem lgFuel_spec : ∀ f n : ℕ, n ≤ f → 1 ≤ n →
    2 ^ lgFuel f n ≤ n ∧ n < 2 ^ (lgFuel f n + 1) := by
  intro f
  induction f with
  | zero => intro n h0 h1; omega
  | succ f ih =>
    intro n hf h1
    unfold lgFuel
    by_cases h2 : n < 2
    · rw [if_pos h2]
      constructor <;> simp <;> omega
    · rw [if_neg h2]
      obtain ⟨ihl, ihr⟩ := ih (n / 2) (by omega) (by omega)
      constructor
      · rw [pow_succ]; omega
      · rw [pow_succ]; omega

theorem lg2_spec (n : ℕ) (h : 1 ≤ n) : 2 ^ lg2 n ≤ n ∧ n < 2 ^ (lg2 n + 1) :=
  lgFuel_spec n n le_rfl h

theorem pow2_eq (e : ℤ) : pow2 e = (2 : ℚ) ^ e := by
  unfold pow2
  split
  · rename_i h
    push_cast
    rw [← zpow_natCast, Int.toNat_of_nonneg h]
  · rename_i h
    push_cast
    rw [← zpow_natCast, Int.toNat_of_nonneg (by omega), zpow_neg, one_div, inv_inv]

theorem pow2_pos (e : ℤ) : 0 < pow2 e := by
  rw [pow2_eq]
  positivity

theorem quot_pow_bounds (N D ln ld : ℕ) (hD : 1 ≤ D)
    (n1 : 2 ^ ln ≤ N) (n2 : N < 2 ^ (ln + 1)) (d1 : 2 ^ ld ≤ D) (d2 : D < 2 ^ (ld + 1)) :
    (2 : ℚ) ^ ((ln : ℤ) - (ld : ℤ) - 1) < (N : ℚ) / (D : ℚ) ∧
      (N : ℚ) / (D : ℚ) < (2 : ℚ) ^ ((ln : ℤ) - (ld : ℤ) + 1) := by
  have hDpos : (0 : ℚ) < (D : ℚ) := by exact_mod_cast hD
  have n1q : (2 : ℚ) ^ (ln : ℤ) ≤ (N : ℚ) := by
    rw [zpow_natCast]; exact_mod_cast n1
  have n2q : (N : ℚ) < (2 : ℚ) ^ ((ln : ℤ) + 1) := by
    rw [show ((ln : ℤ) + 1) = ((ln + 1 : ℕ) : ℤ) by push_cast; ring, zpow_natCast]
    exact_mod_cast n2
  have d1q : (2 : ℚ) ^ (ld : ℤ) ≤ (D : ℚ) := by
    rw [zpow_natCast]; exact_mod_cast d1
  have d2q : (D : ℚ) < (2 : ℚ) ^ ((ld : ℤ) + 1) := by
    rw [show ((ld : ℤ) + 1) = ((ld + 1 : ℕ) : ℤ) by push_cast; ring, zpow_natCast]
    exact_mod_cast d2
  constructor
  · rw [lt_div_iff₀ hDpos]
    calc (2 : ℚ) ^ ((ln : ℤ) - (ld : ℤ) - 1) * (D : ℚ)
        < (2 : ℚ) ^ ((ln : ℤ) - (ld : ℤ) - 1) * (2 : ℚ) ^ ((ld : ℤ) + 1) := by
          apply mul_lt_mul_of_pos_left d2q; positivity
      _ = (2 : ℚ) ^ (ln : ℤ) := by
          rw [← zpow_add₀ (by norm_num : (2 : ℚ) ≠ 0)]; congr 1; ring
      _ ≤ _ := n1q
  · rw [div_lt_iff₀ hDpos]
    calc (N : ℚ) < (2 : ℚ) ^ ((ln : ℤ) + 1) := n2q
      _ = (2 : ℚ) ^ ((ln : ℤ) - (ld : ℤ) + 1) * (2 : ℚ) ^ (ld : ℤ) := by
          rw [← zpow_add₀ (by norm_num : (2 : ℚ) ≠ 0)]; congr 1; ring
      _ ≤ _ := by
          apply mul_le_mul_of_nonneg_left d1q; positivity

theorem ilog2_spec (a : ℚ) (ha : 0 < a) :
    (2 : ℚ) ^ ilog2 a ≤ a ∧ a < (2 : ℚ) ^ (ilog2 a + 1) := by
  have hnum : 0 < a.num := Rat.num_pos.mpr ha
  have hden : 1 ≤ a.den := a.den_pos
  have hN : 1 ≤ a.num.natAbs := by omega
  obtain ⟨n1, n2⟩ := lg2_spec a.num.natAbs hN
  obtain ⟨d1, d2⟩ := lg2_spec a.den hden
  have hNq : ((a.num.natAbs : ℕ) : ℚ) = (a.num : ℚ) := by
    have h : ((a.num.natAbs : ℕ) : ℤ) = a.num := Int.natAbs_of_nonneg hnum.le
    calc ((a.num.natAbs : ℕ) : ℚ) = (((a.num.natAbs : ℕ) : ℤ) : ℚ) := (Int.cast_natCast _).symm
      _ = (a.num : ℚ) := by rw [h]
  have ha_eq : (a.num.natAbs : ℚ) / (a.den : ℚ) = a := by
    rw [hNq]; exact Rat.num_div_den a
  obtain ⟨hlow, hhigh⟩ := quot_pow_bounds _ _ _ _ hden n1 n2 d1 d2
  rw [ha_eq] at hlow hhigh
  unfold ilog2
  simp only
  rw [pow2_eq]
  split
  · rename_i h
    refine ⟨hlow.le, ?_⟩
    rw [show ((lg2 a.num.natAbs : ℤ) - (lg2 a.den : ℤ) - 1 + 1)
      = ((lg2 a.num.natAbs : ℤ) - (lg2 a.den : ℤ)) by ring]
    exact h
  · rename_i h
    exact ⟨not_lt.mp h, hhigh⟩

theorem rnInt_floor (s : ℚ) : s.num / (s.den : ℤ) = ⌊s⌋ := (Rat.floor_def' s).symm

theorem rnInt_spec (s : ℚ) :
    |((rnInt s : ℤ) : ℚ) - s| ≤ 1 / 2 ∧ (⌊s⌋ ≤ rnInt s) ∧ rnInt s ≤ ⌊s⌋ + 1 := by
  have h1 : ((⌊s⌋ : ℤ) : ℚ) ≤ s := Int.floor_le s
  have h2 : s < ((⌊s⌋ : ℤ) : ℚ) + 1 := Int.lt_floor_add_one s
  unfold rnInt
  simp only
  rw [rnInt_floor]
  split
  · rename_i h
    refine ⟨?_, le_rfl, by omega⟩
    rw [abs_le]; constructor <;> linarith
  · split
    · rename_i h h'
      refine ⟨?_, by omega, le_rfl⟩
      push_cast
      rw [abs_le]; constructor <;> linarith
    · rename_i h h'
      have heq : s - ((⌊s⌋ : ℤ) : ℚ) = 1 / 2 := le_antisymm (not_lt.mp h') (not_lt.mp h)
      split
      · refine ⟨?_, le_rfl, by omega⟩
        rw [abs_le]; constructor <;> linarith
      · refine ⟨?_, by omega, le_rfl⟩
        push_cast
        rw [abs_le]; constructor <;> linarith

end F64

namespace F64

theorem two_zpow_lt_of (a : ℚ) (m n : ℤ) (h1 : (2 : ℚ) ^ m ≤ a) (h2 : a < (2 : ℚ) ^ n) :
    m < n :=
  (zpow_lt_zpow_iff_right₀ (by norm_num : (1 : ℚ) < 2)).mp (lt_of_le_of_lt h1 h2)

/-- The significand of a value inside the normal range: between `2 ^ 52` and `2 ^ 53`
after rounding, and within one half of the scaled value. -/
theorem significand_spec (a : ℚ) (l : ℤ) (h1 : (2 : ℚ) ^ l ≤ a) (h2 : a < (2 : ℚ) ^ (l + 1)) :
    |((rnInt (a / pow2 (l - 52)) : ℤ) : ℚ) - a / pow2 (l - 52)| ≤ 1 / 2 ∧
      (2 : ℚ) ^ (52 : ℕ) ≤ ((rnInt (a / pow2 (l - 52)) : ℤ) : ℚ) ∧
      ((rnInt (a / pow2 (l - 52)) : ℤ) : ℚ) ≤ (2 : ℚ) ^ (53 : ℕ) := by
  have hp : 0 < pow2 (l - 52) := pow2_pos _
  have hs1 : (2 : ℚ) ^ (52 : ℕ) ≤ a / pow2 (l - 52) := by
    rw [le_div_iff₀ hp, pow2_eq, ← zpow_natCast, ← zpow_add₀ (by norm_num : (2 : ℚ) ≠ 0)]
    rw [show ((52 : ℕ) : ℤ) + (l - 52) = l by push_cast; ring]
    exact h1
  have hs2 : a / pow2 (l - 52) < (2 : ℚ) ^ (53 : ℕ) := by
    rw [div_lt_iff₀ hp, pow2_eq, ← zpow_natCast, ← zpow_add₀ (by norm_num : (2 : ℚ) ≠ 0)]
    rw [show ((53 : ℕ) : ℤ) + (l - 52) = l + 1 by push_cast; ring]
    exact h2
  obtain ⟨habs, hfl, hfu⟩ := rnInt_spec (a / pow2 (l - 52))
  have hf1 : (2 : ℤ) ^ (52 : ℕ) ≤ ⌊a / pow2 (l - 52)⌋ := by
    apply Int.le_floor.mpr
    push_cast
    exact hs1
  have hf2 : ⌊a / pow2 (l - 52)⌋ < (2 : ℤ) ^ (53 : ℕ) := by
    apply Int.floor_lt.mpr
    push_cast
    exact hs2
  refine ⟨habs, ?_, ?_⟩
  · have : (2 : ℤ) ^ (52 : ℕ) ≤ rnInt (a / pow2 (l - 52)) := le_trans hf1 hfl
    exact_mod_cast this
  · have : rnInt (a / pow2 (l - 52)) ≤ (2 : ℤ) ^ (53 : ℕ) := by omega
    exact_mod_cast this

/-- The rounded magnitude of a value inside the normal range. -/
theorem round_mag (a : ℚ) (l : ℤ) (h1 : (2 : ℚ) ^ l ≤ a) (h2 : a < (2 : ℚ) ^ (l + 1))
    (hl : l < 1023) :
    0 < ((rnInt (a / pow2 (l - 52)) : ℤ) : ℚ) * pow2 (l - 52) ∧
      ((rnInt (a / pow2 (l - 52)) : ℤ) : ℚ) * pow2 (l - 52) < pow2 1024 ∧
      abs (((rnInt (a / pow2 (l - 52)) : ℤ) : ℚ) * pow2 (l - 52) - a) ≤ a / 2 ^ 53 := by
  obtain ⟨habs, hm1, hm2⟩ := significand_spec a l h1 h2
  have hp : 0 < pow2 (l - 52) := pow2_pos _
  generalize ((rnInt (a / pow2 (l - 52)) : ℤ) : ℚ) = m at habs hm1 hm2 ⊢
  refine ⟨mul_pos (lt_of_lt_of_le (by positivity) hm1) hp, ?_, ?_⟩
  · calc m * pow2 (l - 52)
        ≤ (2 : ℚ) ^ (53 : ℕ) * pow2 (l - 52) := mul_le_mul_of_nonneg_right hm2 hp.le
      _ = (2 : ℚ) ^ (l + 1) := by
          rw [pow2_eq, ← zpow_natCast, ← zpow_add₀ (by norm_num : (2 : ℚ) ≠ 0)]
          congr 1; push_cast; ring
      _ < pow2 1024 := by
          rw [pow2_eq]
          exact zpow_lt_zpow_right₀ (by norm_num) (by omega)
  · have h3 : m * pow2 (l - 52) - a = (m - a / pow2 (l - 52)) * pow2 (l - 52) := by
      field_simp
    rw [h3, abs_mul, abs_of_pos hp]
    calc abs (m - a / pow2 (l - 52)) * pow2 (l - 52)
        ≤ 1 / 2 * pow2 (l - 52) := mul_le_mul_of_nonneg_right habs hp.le
      _ = (2 : ℚ) ^ l / 2 ^ 53 := by
          rw [pow2_eq, zpow_sub₀ (by norm_num : (2 : ℚ) ≠ 0)]
          norm_num
          ring
      _ ≤ a / 2 ^ 53 := by
          apply div_le_div_of_nonneg_right h1; positivity

/-- Rounding inside the normal range: the result is finite, has the sign of the exact
value and is within the relative error `2 ^ (-53)` of it. -/
theorem round_spec (q : ℚ) (hlo : (2 : ℚ) ^ (-1022 : ℤ) ≤ abs q)
    (hhi : abs q < (2 : ℚ) ^ (1023 : ℤ)) :
    ∃ r : ℚ, round q = fin r ∧ abs (r - q) ≤ abs q / 2 ^ 53 ∧
      (0 < q → 0 < r) ∧ (q < 0 → r < 0) := by
  have hapos : 0 < abs q := lt_of_lt_of_le (by positivity) hlo
  have hq0 : q ≠ 0 := abs_pos.mp hapos
  obtain ⟨l1, l2⟩ := ilog2_spec (abs q) hapos
  have hl_lo : -1022 < ilog2 (abs q) + 1 := two_zpow_lt_of _ _ _ hlo l2
  have hl_hi : ilog2 (abs q) < 1023 := two_zpow_lt_of _ _ _ l1 hhi
  have he : max (ilog2 (abs q) - 52) (-1074) = ilog2 (abs q) - 52 := by omega
  obtain ⟨hrpos, hrlt, herr⟩ := round_mag (abs q) (ilog2 (abs q)) l1 l2 hl_hi
  unfold round
  rw [if_neg hq0]
  simp only
  rw [he, if_neg (not_le.mpr hrlt)]
  generalize ((rnInt (abs q / pow2 (ilog2 (abs q) - 52)) : ℤ) : ℚ) * pow2 (ilog2 (abs q) - 52)
    = r at hrpos hrlt herr ⊢
  rcases lt_or_gt_of_ne hq0 with hneg | hpos
  · rw [if_pos hneg]
    refine ⟨_, rfl, ?_, fun h => absurd h (not_lt.mpr hneg.le), fun _ => by linarith⟩
    rw [abs_of_neg hneg] at herr ⊢
    rw [show -r - q = -(r - -q) by ring, abs_neg]
    exact herr
  · rw [if_neg (not_lt.mpr hpos.le)]
    refine ⟨_, rfl, ?_, fun _ => hrpos, fun h => absurd h (not_lt.mpr hpos.le)⟩
    rw [abs_of_pos hpos] at herr ⊢
    exact herr

theorem round_zero : round 0 = fin 0 := by
  unfold round
  rw [if_pos rfl]

end F64

namespace F64

theorem isqrtAux_spec : ∀ k r n : ℕ, r * r ≤ n → n < (r + 2 ^ k) * (r + 2 ^ k) →
    isqrtAux k r n * isqrtAux k r n ≤ n ∧ n < (isqrtAux k r n + 1) * (isqrtAux k r n + 1) := by
  intro k
  induction k with
  | zero =>
    intro r n h1 h2
    unfold isqrtAux
    exact ⟨h1, by simpa using h2⟩
  | succ k ih =>
    intro r n h1 h2
    unfold isqrtAux
    by_cases hc : (r + 2 ^ k) * (r + 2 ^ k) ≤ n
    · rw [if_pos hc]
      apply ih _ _ hc
      rw [pow_succ] at h2
      rw [show r + 2 ^ k + 2 ^ k = r + 2 ^ k * 2 by ring]
      exact h2
    · rw [if_neg hc]
      exact ih _ _ h1 (not_le.mp hc)

theorem isqrt_spec (n : ℕ) : isqrt n * isqrt n ≤ n ∧ n < (isqrt n + 1) * (isqrt n + 1) := by
  unfold isqrt
  apply isqrtAux_spec _ _ _ (Nat.zero_le _)
  rcases Nat.eq_zero_or_pos n with rfl | hn
  · positivity
  · obtain ⟨_, h2⟩ := lg2_spec n hn
    calc n < 2 ^ (lg2 n + 1) := h2
      _ ≤ 2 ^ (2 * (lg2 n / 2 + 1)) := Nat.pow_le_pow_right (by norm_num) (by omega)
      _ = (0 + 2 ^ (lg2 n / 2 + 1)) * (0 + 2 ^ (lg2 n / 2 + 1)) := by
          rw [Nat.zero_add, ← pow_add]; congr 1; ring

theorem le_sqrt_of (x t : ℝ) (hx : 0 ≤ x) (h : x * x ≤ t) : x ≤ Real.sqrt t := by
  rw [← Real.sqrt_mul_self hx]
  exact Real.sqrt_le_sqrt h

theorem sqrt_lt_of (x t : ℝ) (hx : 0 ≤ x) (ht : 0 ≤ t) (h : t < x * x) : Real.sqrt t < x := by
  rw [← Real.sqrt_mul_self hx]
  exact Real.sqrt_lt_sqrt ht h

theorem sqrt_le_of (x t : ℝ) (hx : 0 ≤ x) (h : t ≤ x * x) : Real.sqrt t ≤ x := by
  rw [← Real.sqrt_mul_self hx]
  exact Real.sqrt_le_sqrt h

/-- The nearest integer to `√t` chosen by `roundSqrt` is within one half of it. -/
theorem sqrt_nearest (t : ℚ) (m : ℕ) (h1 : ((m * m : ℕ) : ℚ) ≤ t)
    (h2 : t < (((m + 1) * (m + 1) : ℕ) : ℚ)) :
    |(((if t < ((m : ℚ) + 1 / 2) * ((m : ℚ) + 1 / 2) then m
          else if ((m : ℚ) + 1 / 2) * ((m : ℚ) + 1 / 2) < t then m + 1
          else if m % 2 = 0 then m else m + 1 : ℕ) : ℝ)) - Real.sqrt (t : ℝ)| ≤ 1 / 2 := by
  have ht0 : (0 : ℝ) ≤ (t : ℝ) := by
    have : (0 : ℚ) ≤ t := le_trans (by positivity) h1
    exact_mod_cast this
  have h1r : ((m : ℝ)) * (m : ℝ) ≤ (t : ℝ) := by
    have : (((m * m : ℕ) : ℚ) : ℝ) ≤ (t : ℝ) := by exact_mod_cast h1
    push_cast at this
    exact this
  have h2r : (t : ℝ) < ((m : ℝ) + 1) * ((m : ℝ) + 1) := by
    have : (t : ℝ) < ((((m + 1) * (m + 1) : ℕ) : ℚ) : ℝ) := by exact_mod_cast h2
    push_cast at this
    exact this
  have hm0 : (0 : ℝ) ≤ (m : ℝ) := Nat.cast_nonneg m
  have hs1 : (m : ℝ) ≤ Real.sqrt (t : ℝ) := le_sqrt_of _ _ hm0 h1r
  have hs2 : Real.sqrt (t : ℝ) < (m : ℝ) + 1 := sqrt_lt_of _ _ (by positivity) ht0 h2r
  split
  · rename_i h
    have hr : (t : ℝ) < ((m : ℝ) + 1 / 2) * ((m : ℝ) + 1 / 2) := by
      have : (t : ℝ) < ((((m : ℚ) + 1 / 2) * ((m : ℚ) + 1 / 2) : ℚ) : ℝ) := by exact_mod_cast h
      push_cast at this
      exact this
    have hs3 : Real.sqrt (t : ℝ) < (m : ℝ) + 1 / 2 := sqrt_lt_of _ _ (by positivity) ht0 hr
    rw [abs_le]; constructor <;> linarith
  · rename_i h
    have hr : ((m : ℝ) + 1 / 2) * ((m : ℝ) + 1 / 2) ≤ (t : ℝ) := by
      have : ((((m : ℚ) + 1 / 2) * ((m : ℚ) + 1 / 2) : ℚ) : ℝ) ≤ (t : ℝ) := by
        exact_mod_cast not_lt.mp h
      push_cast at this
      exact this
    have hs3 : (m : ℝ) + 1 / 2 ≤ Real.sqrt (t : ℝ) := le_sqrt_of _ _ (by positivity) hr
    split
    · push_cast
      rw [abs_le]; constructor <;> linarith
    · rename_i h'
      have hr' : (t : ℝ) ≤ ((m : ℝ) + 1 / 2) * ((m : ℝ) + 1 / 2) := by
        have : (t : ℝ) ≤ ((((m : ℚ) + 1 / 2) * ((m : ℚ) + 1 / 2) : ℚ) : ℝ) := by
          exact_mod_cast not_lt.mp h'
        push_cast at this
        exact this
      have hs4 : Real.sqrt (t : ℝ) ≤ (m : ℝ) + 1 / 2 := sqrt_le_of _ _ (by positivity) hr'
      split
      · rw [abs_le]; constructor <;> linarith
      · push_cast
        rw [abs_le]; constructor <;> linarith

end F64

namespace F64

theorem pow2_double (e : ℤ) : pow2 (2 * e) = pow2 e * pow2 e := by
  rw [pow2_eq, pow2_eq, ← zpow_add₀ (by norm_num : (2 : ℚ) ≠ 0)]
  congr 1; ring

/-- The scaled radicand of `roundSqrt` lies in `[2 ^ 104, 2 ^ 106)`. -/
theorem radicand_bounds (a : ℚ) (l : ℤ) (h1 : (2 : ℚ) ^ l ≤ a) (h2 : a < (2 : ℚ) ^ (l + 1)) :
    (2 : ℚ) ^ (104 : ℕ) ≤ a / pow2 (2 * ((l - 104) / 2)) ∧
      a / pow2 (2 * ((l - 104) / 2)) < (2 : ℚ) ^ (106 : ℕ) := by
  have hp : 0 < pow2 (2 * ((l - 104) / 2)) := pow2_pos _
  constructor
  · rw [le_div_iff₀ hp, pow2_eq, ← zpow_natCast, ← zpow_add₀ (by norm_num : (2 : ℚ) ≠ 0)]
    refine le_trans ?_ h1
    apply zpow_le_zpow_right₀ (by norm_num)
    push_cast
    omega
  · rw [div_lt_iff₀ hp, pow2_eq, ← zpow_natCast, ← zpow_add₀ (by norm_num : (2 : ℚ) ≠ 0)]
    refine lt_of_lt_of_le h2 ?_
    apply zpow_le_zpow_right₀ (by norm_num)
    push_cast
    omega

/-- The integer part of the root of a radicand in `[2 ^ 104, 2 ^ 106)`. -/
theorem root_bounds (t : ℚ) (ht1 : (2 : ℚ) ^ (104 : ℕ) ≤ t) :
    ((isqrt (t.num / (t.den : ℤ)).toNat * isqrt (t.num / (t.den : ℤ)).toNat : ℕ) : ℚ) ≤ t ∧
      t < (((isqrt (t.num / (t.den : ℤ)).toNat + 1)
            * (isqrt (t.num / (t.den : ℤ)).toNat + 1) : ℕ) : ℚ) ∧
      2 ^ 52 ≤ isqrt (t.num / (t.den : ℤ)).toNat := by
  rw [rnInt_floor]
  have hf0 : (2 : ℤ) ^ (104 : ℕ) ≤ ⌊t⌋ := by
    apply Int.le_floor.mpr
    simp only [Int.cast_pow, Int.cast_ofNat]
    exact ht1
  have hcast : ((⌊t⌋.toNat : ℕ) : ℤ) = ⌊t⌋ := Int.toNat_of_nonneg (le_trans (by positivity) hf0)
  have hn1 : ((⌊t⌋.toNat : ℕ) : ℚ) ≤ t := by
    calc ((⌊t⌋.toNat : ℕ) : ℚ) = (((⌊t⌋.toNat : ℕ) : ℤ) : ℚ) := (Int.cast_natCast _).symm
      _ = ((⌊t⌋ : ℤ) : ℚ) := by rw [hcast]
      _ ≤ t := Int.floor_le t
  have hn2 : t < ((⌊t⌋.toNat : ℕ) : ℚ) + 1 := by
    calc t < ((⌊t⌋ : ℤ) : ℚ) + 1 := Int.lt_floor_add_one t
      _ = (((⌊t⌋.toNat : ℕ) : ℤ) : ℚ) + 1 := by rw [hcast]
      _ = ((⌊t⌋.toNat : ℕ) : ℚ) + 1 := by rw [Int.cast_natCast]
  have hn104 : 2 ^ 104 ≤ ⌊t⌋.toNat := by
    have : ((2 ^ 104 : ℕ) : ℤ) ≤ ((⌊t⌋.toNat : ℕ) : ℤ) := by
      rw [hcast]; simp only [Nat.cast_pow, Nat.cast_ofNat]; exact hf0
    exact Int.ofNat_le.mp this
  obtain ⟨s1, s2⟩ := isqrt_spec ⌊t⌋.toNat
  generalize isqrt ⌊t⌋.toNat = m at s1 s2 ⊢
  generalize ⌊t⌋.toNat = n at hn1 hn2 hn104 s1 s2
  refine ⟨?_, ?_, ?_⟩
  · exact le_trans (by exact_mod_cast s1) hn1
  · refine lt_of_lt_of_le hn2 ?_
    have : n + 1 ≤ (m + 1) * (m + 1) := s2
    exact_mod_cast this
  · by_contra hlt
    push_neg at hlt
    have h1 : m + 1 ≤ 2 ^ 52 := hlt
    have h2 : (m + 1) * (m + 1) ≤ 2 ^ 52 * 2 ^ 52 := Nat.mul_le_mul h1 h1
    have h3 : (2 : ℕ) ^ 52 * 2 ^ 52 = 2 ^ 104 := by norm_num
    omega

/-- The correctly rounded square root: finite, positive and within the relative error
`2 ^ (-53)` of the real square root. -/
theorem roundSqrt_spec (a : ℚ) (ha : 0 < a) :
    ∃ r : ℚ, roundSqrt a = fin r ∧ 0 < r ∧
      |(r : ℝ) - Real.sqrt (a : ℝ)| ≤ Real.sqrt (a : ℝ) / 2 ^ 53 := by
  obtain ⟨l1, l2⟩ := ilog2_spec a ha
  obtain ⟨t1, t2⟩ := radicand_bounds a (ilog2 a) l1 l2
  obtain ⟨r1, r2, r3⟩ := root_bounds _ t1
  have hnear := sqrt_nearest _ _ r1 r2
  have hpe : 0 < pow2 ((ilog2 a - 104) / 2) := pow2_pos _
  have ha_eq : a = a / pow2 (2 * ((ilog2 a - 104) / 2)) * (pow2 ((ilog2 a - 104) / 2)
      * pow2 ((ilog2 a - 104) / 2)) := by
    rw [← pow2_double]
    field_simp [(pow2_pos (2 * ((ilog2 a - 104) / 2))).ne']
  unfold roundSqrt
  simp only
  generalize a / pow2 (2 * ((ilog2 a - 104) / 2)) = t at t1 t2 r1 r2 r3 hnear ha_eq
  generalize isqrt (t.num / (t.den : ℤ)).toNat = m at r1 r2 r3 hnear
  generalize pow2 ((ilog2 a - 104) / 2) = c at hpe ha_eq
  have hsqrt_a : Real.sqrt (a : ℝ) = Real.sqrt (t : ℝ) * (c : ℝ) := by
    have hc0 : (0 : ℝ) ≤ (c : ℝ) := by exact_mod_cast hpe.le
    have : (a : ℝ) = (t : ℝ) * ((c : ℝ) * (c : ℝ)) := by
      have h := congrArg (fun x : ℚ => (x : ℝ)) ha_eq
      simp only at h
      push_cast at h
      exact h
    rw [this, Real.sqrt_mul' _ (mul_nonneg hc0 hc0), Real.sqrt_mul_self hc0]
  have hm52 : (2 : ℝ) ^ 52 ≤ (m : ℝ) := by exact_mod_cast r3
  have hσ : (m : ℝ) ≤ Real.sqrt (t : ℝ) := by
    apply le_sqrt_of _ _ (Nat.cast_nonneg m)
    have : (((m * m : ℕ) : ℚ) : ℝ) ≤ (t : ℝ) := by exact_mod_cast r1
    push_cast at this
    exact this
  generalize (if t < ((m : ℚ) + 1 / 2) * ((m : ℚ) + 1 / 2) then m
      else if ((m : ℚ) + 1 / 2) * ((m : ℚ) + 1 / 2) < t then m + 1
      else if m % 2 = 0 then m else m + 1) = m' at hnear ⊢
  have hcr : (0 : ℝ) < (c : ℝ) := by exact_mod_cast hpe
  have hm'pos : (0 : ℝ) < (m' : ℝ) := by
    have := abs_le.mp hnear
    have h252 : (1 : ℝ) ≤ (2 : ℝ) ^ 52 := by norm_num
    linarith [this.1]
  refine ⟨_, rfl, ?_, ?_⟩
  · have : (0 : ℚ) < (m' : ℚ) := by exact_mod_cast hm'pos
    exact mul_pos this hpe
  · push_cast
    rw [hsqrt_a, ← sub_mul, abs_mul, abs_of_pos hcr]
    have hhalf : (1 : ℝ) / 2 ≤ Real.sqrt (t : ℝ) / 2 ^ 53 := by
      rw [le_div_iff₀ (by positivity)]
      have : (1 : ℝ) / 2 * 2 ^ 53 = 2 ^ 52 := by norm_num
      rw [this]
      linarith
    calc |(m' : ℝ) - Real.sqrt (t : ℝ)| * (c : ℝ)
        ≤ Real.sqrt (t : ℝ) / 2 ^ 53 * (c : ℝ) :=
          mul_le_mul_of_nonneg_right (le_trans hnear hhalf) hcr.le
      _ = Real.sqrt (t : ℝ) * (c : ℝ) / 2 ^ 53 := by ring

end F64

namespace F64

/-- The relative error bound of one rounding, `2 ^ (-53)`. -/
theorem round_rel (q : ℚ) (h : q = 0 ∨ ((2 : ℚ) ^ (-1022 : ℤ) ≤ abs q ∧ abs q < (2 : ℚ) ^ (1023 : ℤ))) :
    ∃ r : ℚ, round q = fin r ∧ abs (r - q) ≤ abs q / 2 ^ 53 ∧
      (0 ≤ q → 0 ≤ r) ∧ (0 < q → 0 < r) := by
  rcases h with rfl | ⟨h1, h2⟩
  · exact ⟨0, round_zero, by simp, fun _ => le_rfl, fun h => absurd h (lt_irrefl _)⟩
  · obtain ⟨r, hr, herr, hpos, hneg⟩ := round_spec q h1 h2
    refine ⟨r, hr, herr, fun h0 => ?_, hpos⟩
    have hq0 : q ≠ 0 := by
      intro h
      rw [h, abs_zero] at h1
      exact absurd h1 (not_le.mpr (by positivity))
    exact (hpos (lt_of_le_of_ne h0 (Ne.symm hq0))).le

/-- A nonnegative exact value and its rounding: two-sided bounds. -/
theorem round_nonneg_bounds (q : ℚ) (h0 : 0 ≤ q)
    (h : q = 0 ∨ ((2 : ℚ) ^ (-1022 : ℤ) ≤ q ∧ q < (2 : ℚ) ^ (1023 : ℤ))) :
    ∃ r : ℚ, round q = fin r ∧ q * (1 - 1 / 2 ^ 53) ≤ r ∧ r ≤ q * (1 + 1 / 2 ^ 53) := by
  have h' : q = 0 ∨ ((2 : ℚ) ^ (-1022 : ℤ) ≤ abs q ∧ abs q < (2 : ℚ) ^ (1023 : ℤ)) := by
    rw [abs_of_nonneg h0]; exact h
  obtain ⟨r, hr, herr, _, _⟩ := round_rel q h'
  rw [abs_of_nonneg h0, abs_le] at herr
  refine ⟨r, hr, ?_, ?_⟩
  · have : q * (1 - 1 / 2 ^ 53) = q - q / 2 ^ 53 := by ring
    rw [this]; linarith [herr.1]
  · have : q * (1 + 1 / 2 ^ 53) = q + q / 2 ^ 53 := by ring
    rw [this]; linarith [herr.2]

end F64

namespace F64

theorem range_of_bounds (q : ℚ) (h1 : 1 / 2 ^ 1010 ≤ q) (h2 : q ≤ 2 ^ 1010) :
    (2 : ℚ) ^ (-1022 : ℤ) ≤ q ∧ q < (2 : ℚ) ^ (1023 : ℤ) := by
  constructor
  · refine le_trans ?_ h1
    rw [one_div, ← zpow_natCast, ← zpow_neg]
    exact zpow_le_zpow_right₀ (by norm_num) (by norm_num)
  · refine lt_of_le_of_lt h2 ?_
    rw [← zpow_natCast]
    exact zpow_lt_zpow_right₀ (by norm_num) (by norm_num)

/-- A rounded nonnegative value inside `[2 ^ (-1010), 2 ^ 1010]`, or zero. -/
theorem round_step (q : ℚ) (h0 : 0 ≤ q) (h : q = 0 ∨ (1 / 2 ^ 1010 ≤ q ∧ q ≤ 2 ^ 1010)) :
    ∃ r : ℚ, round q = fin r ∧ q * (1 - 1 / 2 ^ 53) ≤ r ∧ r ≤ q * (1 + 1 / 2 ^ 53) := by
  apply round_nonneg_bounds q h0
  rcases h with h | ⟨h1, h2⟩
  · exact Or.inl h
  · exact Or.inr (range_of_bounds q h1 h2)

/-- The square of a coordinate that is zero or of magnitude in `[2 ^ (-500), 2 ^ 500]`. -/
theorem sq_moderate (c : ℚ) (hc : c = 0 ∨ (1 / 2 ^ 500 ≤ abs c ∧ abs c ≤ 2 ^ 500)) :
    c * c = 0 ∨ (1 / 2 ^ 1000 ≤ c * c ∧ c * c ≤ 2 ^ 1000) := by
  rcases hc with rfl | ⟨h1, h2⟩
  · left; ring
  · right
    have hsq : c * c = abs c * abs c := (abs_mul_abs_self c).symm
    have h0 : (0 : ℚ) ≤ abs c := abs_nonneg c
    rw [hsq]
    constructor
    · calc (1 : ℚ) / 2 ^ 1000 = 1 / 2 ^ 500 * (1 / 2 ^ 500) := by
            rw [div_mul_div_comm, one_mul, ← pow_add]
        _ ≤ abs c * abs c := mul_le_mul h1 h1 (by positivity) h0
    · calc abs c * abs c ≤ 2 ^ 500 * 2 ^ 500 := mul_le_mul h2 h2 h0 (by positivity)
        _ = 2 ^ 1000 := by rw [← pow_add]

theorem lo_le (k : ℕ) (hk : k ≤ 10) : (1 : ℚ) / 2 ^ 1010 ≤ 1 / 2 ^ 1000 / 2 ^ k := by
  rw [div_div, ← pow_add]
  apply one_div_le_one_div_of_le (by positivity)
  exact pow_le_pow_right₀ (by norm_num) (by omega)

theorem hi_le (k : ℕ) (hk : k ≤ 10) : (2 : ℚ) ^ 1000 * 2 ^ k ≤ 2 ^ 1010 := by
  rw [← pow_add]
  exact pow_le_pow_right₀ (by norm_num) (by omega)

end F64

namespace F64

/-- Bookkeeping for the first sum `x * x + y * y` of the magnitude. -/
theorem sum_two_range (L H u X Y sx sy : ℚ) (hL : 0 < L) (hu0 : 0 ≤ u) (hu1 : u ≤ 1 / 2)
    (hX0 : 0 ≤ X) (hY0 : 0 ≤ Y)
    (hX : X = 0 ∨ (L ≤ X ∧ X ≤ H)) (hY : Y = 0 ∨ (L ≤ Y ∧ Y ≤ H))
    (x1 : X * (1 - u) ≤ sx) (x2 : sx ≤ X * (1 + u))
    (y1 : Y * (1 - u) ≤ sy) (y2 : sy ≤ Y * (1 + u)) :
    0 ≤ sx ∧ 0 ≤ sy ∧ (sx + sy = 0 ∨ (L / 2 ≤ sx + sy ∧ sx + sy ≤ H * 4)) := by
  have hsx0 : 0 ≤ sx := le_trans (mul_nonneg hX0 (by linarith)) x1
  have hsy0 : 0 ≤ sy := le_trans (mul_nonneg hY0 (by linarith)) y1
  have hXu : X * u ≤ X * (1 / 2) := mul_le_mul_of_nonneg_left hu1 hX0
  have hYu : Y * u ≤ Y * (1 / 2) := mul_le_mul_of_nonneg_left hu1 hY0
  have hXu0 : 0 ≤ X * u := mul_nonneg hX0 hu0
  have hYu0 : 0 ≤ Y * u := mul_nonneg hY0 hu0
  refine ⟨hsx0, hsy0, ?_⟩
  rcases hX with hX | ⟨hX1, hX2⟩
  · rcases hY with hY | ⟨hY1, hY2⟩
    · left
      rw [hX] at x2; rw [hY] at y2
      linarith
    · right
      rw [hX] at x2 hXu hXu0
      constructor <;> linarith
  · rcases hY with hY | ⟨hY1, hY2⟩
    · right
      rw [hY] at y2 hYu hYu0
      constructor <;> linarith
    · right
      constructor <;> linarith

/-- Bookkeeping for the full sum `x * x + y * y + z * z` of the magnitude. -/
theorem sum_three_range (L H u X Y Z sx sy sz s1 : ℚ) (hL : 0 < L) (hu0 : 0 ≤ u)
    (hu1 : u ≤ 1 / 2) (hX0 : 0 ≤ X) (hY0 : 0 ≤ Y) (hZ0 : 0 ≤ Z)
    (hX : X = 0 ∨ (L ≤ X ∧ X ≤ H)) (hY : Y = 0 ∨ (L ≤ Y ∧ Y ≤ H))
    (hZ : Z = 0 ∨ (L ≤ Z ∧ Z ≤ H)) (hpos : 0 < X + Y + Z)
    (x1 : X * (1 - u) ≤ sx) (x2 : sx ≤ X * (1 + u))
    (y1 : Y * (1 - u) ≤ sy) (y2 : sy ≤ Y * (1 + u))
    (z1 : Z * (1 - u) ≤ sz) (z2 : sz ≤ Z * (1 + u))
    (a1 : (sx + sy) * (1 - u) ≤ s1) (a2 : s1 ≤ (sx + sy) * (1 + u)) :
    0 ≤ s1 ∧ 0 ≤ sz ∧ L / 4 ≤ s1 + sz ∧ s1 + sz ≤ H * 16 := by
  obtain ⟨hsx0, hsy0, hA⟩ := sum_two_range L H u X Y sx sy hL hu0 hu1 hX0 hY0 hX hY x1 x2 y1 y2
  have hs10 : 0 ≤ s1 := le_trans (mul_nonneg (by linarith) (by linarith)) a1
  have hsz0 : 0 ≤ sz := le_trans (mul_nonneg hZ0 (by linarith)) z1
  have hAu : (sx + sy) * u ≤ (sx + sy) * (1 / 2) :=
    mul_le_mul_of_nonneg_left hu1 (by linarith)
  have hAu0 : 0 ≤ (sx + sy) * u := mul_nonneg (by linarith) hu0
  have hZu : Z * u ≤ Z * (1 / 2) := mul_le_mul_of_nonneg_left hu1 hZ0
  have hZu0 : 0 ≤ Z * u := mul_nonneg hZ0 hu0
  have hH : 0 < H := by
    rcases hX with h | ⟨h1, h2⟩
    · rcases hY with h' | ⟨h1, h2⟩
      · rcases hZ with h'' | ⟨h1, h2⟩
        · rw [h, h', h''] at hpos; linarith
        · linarith
      · linarith
    · linarith
  have hs1up : s1 ≤ H * 8 := by
    rcases hA with h | ⟨_, h2⟩
    · rw [h] at a2; linarith
    · linarith
  have hszup : sz ≤ H * 2 := by
    rcases hZ with h | ⟨_, h2⟩
    · rw [h] at z2; linarith
    · linarith
  refine ⟨hs10, hsz0, ?_, by linarith⟩
  rcases hA with hA | ⟨hA1, _⟩
  · -- then `X = Y = 0`, so `Z` is not zero
    have hX' : X = 0 := by
      rcases hX with h | ⟨h1, _⟩
      · exact h
      · exfalso
        have : L * (1 / 2) ≤ X * (1 - u) := by
          have h3 : X * (1 / 2) ≤ X * (1 - u) := mul_le_mul_of_nonneg_left (by linarith) hX0
          linarith
        linarith
    have hY' : Y = 0 := by
      rcases hY with h | ⟨h1, _⟩
      · exact h
      · exfalso
        have : L * (1 / 2) ≤ Y * (1 - u) := by
          have h3 : Y * (1 / 2) ≤ Y * (1 - u) := mul_le_mul_of_nonneg_left (by linarith) hY0
          linarith
        linarith
    rcases hZ with hZ | ⟨hZ1, _⟩
    · rw [hX', hY', hZ] at hpos; linarith
    · linarith
  · linarith

end F64

namespace F64

/-- The three roundings of the sum of squares: relative error at most `(1 ± u) ^ 3`. -/
theorem chain_bounds (u X Y Z sx sy sz s1 S : ℚ) (hu0 : 0 ≤ u) (hu1 : u ≤ 1 / 2)
    (hX0 : 0 ≤ X) (hY0 : 0 ≤ Y) (hZ0 : 0 ≤ Z)
    (x1 : X * (1 - u) ≤ sx) (x2 : sx ≤ X * (1 + u))
    (y1 : Y * (1 - u) ≤ sy) (y2 : sy ≤ Y * (1 + u))
    (z1 : Z * (1 - u) ≤ sz) (z2 : sz ≤ Z * (1 + u))
    (a1 : (sx + sy) * (1 - u) ≤ s1) (a2 : s1 ≤ (sx + sy) * (1 + u))
    (b1 : (s1 + sz) * (1 - u) ≤ S) (b2 : S ≤ (s1 + sz) * (1 + u)) :
    (X + Y + Z) * (1 - u) ^ 3 ≤ S ∧ S ≤ (X + Y + Z) * (1 + u) ^ 3 := by
  have hm : 0 ≤ 1 - u := by linarith
  have hp : 0 ≤ 1 + u := by linarith
  constructor
  · have e1 : (X + Y) * (1 - u) * (1 - u) ≤ s1 :=
      le_trans (mul_le_mul_of_nonneg_right (by linarith) hm) a1
    have e2 : Z * (1 - u) * (1 - u) ≤ sz := by
      have : Z * (1 - u) * (1 - u) ≤ Z * (1 - u) * 1 :=
        mul_le_mul_of_nonneg_left (by linarith) (mul_nonneg hZ0 hm)
      linarith
    have e3 : ((X + Y) * (1 - u) * (1 - u) + Z * (1 - u) * (1 - u)) * (1 - u) ≤ S :=
      le_trans (mul_le_mul_of_nonneg_right (by linarith) hm) b1
    calc (X + Y + Z) * (1 - u) ^ 3
        = ((X + Y) * (1 - u) * (1 - u) + Z * (1 - u) * (1 - u)) * (1 - u) := by ring
      _ ≤ S := e3
  · have e1 : s1 ≤ (X + Y) * (1 + u) * (1 + u) :=
      le_trans a2 (mul_le_mul_of_nonneg_right (by linarith) hp)
    have e2 : sz ≤ Z * (1 + u) * (1 + u) := by
      have : Z * (1 + u) * 1 ≤ Z * (1 + u) * (1 + u) :=
        mul_le_mul_of_nonneg_left (by linarith) (mul_nonneg hZ0 hp)
      linarith
    have e3 : S ≤ ((X + Y) * (1 + u) * (1 + u) + Z * (1 + u) * (1 + u)) * (1 + u) :=
      le_trans b2 (mul_le_mul_of_nonneg_right (by linarith) hp)
    calc S ≤ ((X + Y) * (1 + u) * (1 + u) + Z * (1 + u) * (1 + u)) * (1 + u) := e3
      _ = (X + Y + Z) * (1 + u) ^ 3 := by ring

/-- From the bound on the rounded root to a bound on its square. -/
theorem sq_of_sqrt_bound (S m : ℚ) (hS : 0 < S) (hm : 0 < m)
    (h : |(m : ℝ) - Real.sqrt (S : ℝ)| ≤ Real.sqrt (S : ℝ) / 2 ^ 53) :
    S * (1 - 1 / 2 ^ 53) ^ 2 ≤ m * m ∧ m * m ≤ S * (1 + 1 / 2 ^ 53) ^ 2 := by
  have hSr : (0 : ℝ) < (S : ℝ) := by exact_mod_cast hS
  have hσ : 0 < Real.sqrt (S : ℝ) := Real.sqrt_pos.mpr hSr
  have hσ2 : Real.sqrt (S : ℝ) * Real.sqrt (S : ℝ) = (S : ℝ) := Real.mul_self_sqrt hSr.le
  have hmr : (0 : ℝ) < (m : ℝ) := by exact_mod_cast hm
  obtain ⟨h1, h2⟩ := abs_le.mp h
  have l1 : Real.sqrt (S : ℝ) * (1 - 1 / 2 ^ 53) ≤ (m : ℝ) := by
    have : Real.sqrt (S : ℝ) * (1 - 1 / 2 ^ 53)
        = Real.sqrt (S : ℝ) - Real.sqrt (S : ℝ) / 2 ^ 53 := by ring
    rw [this]; linarith
  have l2 : (m : ℝ) ≤ Real.sqrt (S : ℝ) * (1 + 1 / 2 ^ 53) := by
    have : Real.sqrt (S : ℝ) * (1 + 1 / 2 ^ 53)
        = Real.sqrt (S : ℝ) + Real.sqrt (S : ℝ) / 2 ^ 53 := by ring
    rw [this]; linarith
  have hlo0 : (0 : ℝ) ≤ Real.sqrt (S : ℝ) * (1 - 1 / 2 ^ 53) :=
    mul_nonneg hσ.le (by norm_num)
  have r1 : (S : ℝ) * (1 - 1 / 2 ^ 53) ^ 2 ≤ (m : ℝ) * (m : ℝ) := by
    calc (S : ℝ) * (1 - 1 / 2 ^ 53) ^ 2
        = (Real.sqrt (S : ℝ) * Real.sqrt (S : ℝ)) * (1 - 1 / 2 ^ 53) ^ 2 := by rw [hσ2]
      _ = (Real.sqrt (S : ℝ) * (1 - 1 / 2 ^ 53)) * (Real.sqrt (S : ℝ) * (1 - 1 / 2 ^ 53)) := by
          ring
      _ ≤ (m : ℝ) * (m : ℝ) := mul_le_mul l1 l1 hlo0 hmr.le
  have r2 : (m : ℝ) * (m : ℝ) ≤ (S : ℝ) * (1 + 1 / 2 ^ 53) ^ 2 := by
    calc (m : ℝ) * (m : ℝ)
        ≤ (Real.sqrt (S : ℝ) * (1 + 1 / 2 ^ 53)) * (Real.sqrt (S : ℝ) * (1 + 1 / 2 ^ 53)) :=
          mul_le_mul l2 l2 hmr.le (le_trans hmr.le l2)
      _ = (Real.sqrt (S : ℝ) * Real.sqrt (S : ℝ)) * (1 + 1 / 2 ^ 53) ^ 2 := by ring
      _ = (S : ℝ) * (1 + 1 / 2 ^ 53) ^ 2 := by rw [hσ2]
  constructor
  · have : ((S * (1 - 1 / 2 ^ 53) ^ 2 : ℚ) : ℝ) ≤ ((m * m : ℚ) : ℝ) := by
      push_cast; exact r1
    exact_mod_cast this
  · have : ((m * m : ℚ) : ℝ) ≤ ((S * (1 + 1 / 2 ^ 53) ^ 2 : ℚ) : ℝ) := by
      push_cast; exact r2
    exact_mod_cast this

end F64

section

open F64

/-- The computed magnitude of a vector whose coordinates are zero or of magnitude in
`[2 ^ (-500), 2 ^ 500]`, not all zero: finite, positive, and its square within the
factor `(1 ± 2 ^ (-53)) ^ 5` of the exact sum of squares. -/
theorem magnitude64_spec (x y z : ℚ)
    (hx : x = 0 ∨ (1 / 2 ^ 500 ≤ abs x ∧ abs x ≤ 2 ^ 500))
    (hy : y = 0 ∨ (1 / 2 ^ 500 ≤ abs y ∧ abs y ≤ 2 ^ 500))
    (hz : z = 0 ∨ (1 / 2 ^ 500 ≤ abs z ∧ abs z ≤ 2 ^ 500))
    (hne : x ≠ 0 ∨ y ≠ 0 ∨ z ≠ 0) :
    ∃ m : ℚ, (Point64.mk (fin x) (fin y) (fin z)).magnitude = fin m ∧ 0 < m ∧
      (x * x + y * y + z * z) * (1 - 1 / 2 ^ 53) ^ 5 ≤ m * m ∧
      m * m ≤ (x * x + y * y + z * z) * (1 + 1 / 2 ^ 53) ^ 5 := by
  have hu0 : (0 : ℚ) ≤ 1 / 2 ^ 53 := by positivity
  have hu1 : (1 : ℚ) / 2 ^ 53 ≤ 1 / 2 := by
    apply one_div_le_one_div_of_le (by norm_num)
    norm_num
  have hL : (0 : ℚ) < 1 / 2 ^ 1000 := by positivity
  have hX0 : 0 ≤ x * x := mul_self_nonneg x
  have hY0 : 0 ≤ y * y := mul_self_nonneg y
  have hZ0 : 0 ≤ z * z := mul_self_nonneg z
  have hX := sq_moderate x hx
  have hY := sq_moderate y hy
  have hZ := sq_moderate z hz
  have hT : 0 < x * x + y * y + z * z := by
    rcases hne with h | h | h
    · have := mul_self_pos.mpr h; linarith
    · have := mul_self_pos.mpr h; linarith
    · have := mul_self_pos.mpr h; linarith
  have widen : ∀ q : ℚ, (q = 0 ∨ (1 / 2 ^ 1000 ≤ q ∧ q ≤ 2 ^ 1000)) →
      (q = 0 ∨ (1 / 2 ^ 1010 ≤ q ∧ q ≤ 2 ^ 1010)) := by
    intro q hq
    rcases hq with h | ⟨h1, h2⟩
    · exact Or.inl h
    · refine Or.inr ⟨le_trans ?_ h1, le_trans h2 ?_⟩
      · have := lo_le 0 (by norm_num); simpa using this
      · have := hi_le 0 (by norm_num); simpa using this
  obtain ⟨sx, ex, x1, x2⟩ := round_step (x * x) hX0 (widen _ hX)
  obtain ⟨sy, ey, y1, y2⟩ := round_step (y * y) hY0 (widen _ hY)
  obtain ⟨sz, ez, z1, z2⟩ := round_step (z * z) hZ0 (widen _ hZ)
  obtain ⟨hsx0, hsy0, hA⟩ := sum_two_range _ _ _ _ _ sx sy hL hu0 hu1 hX0 hY0 hX hY x1 x2 y1 y2
  have hA' : sx + sy = 0 ∨ (1 / 2 ^ 1010 ≤ sx + sy ∧ sx + sy ≤ 2 ^ 1010) := by
    rcases hA with h | ⟨h1, h2⟩
    · exact Or.inl h
    · refine Or.inr ⟨le_trans ?_ h1, le_trans h2 ?_⟩
      · have := lo_le 1 (by norm_num); simpa using this
      · exact le_trans (by norm_num) (hi_le 2 (by norm_num))
  obtain ⟨s1, e1, a1, a2⟩ := round_step (sx + sy) (by linarith) hA'
  obtain ⟨hs10, hsz0, hB1, hB2⟩ := sum_three_range _ _ _ _ _ _ sx sy sz s1 hL hu0 hu1
    hX0 hY0 hZ0 hX hY hZ hT x1 x2 y1 y2 z1 z2 a1 a2
  have hB' : s1 + sz = 0 ∨ (1 / 2 ^ 1010 ≤ s1 + sz ∧ s1 + sz ≤ 2 ^ 1010) := by
    refine Or.inr ⟨le_trans ?_ hB1, le_trans hB2 ?_⟩
    · exact le_trans (lo_le 2 (by norm_num)) (by norm_num)
    · exact le_trans (by norm_num) (hi_le 4 (by norm_num))
  obtain ⟨S, eS, b1, b2⟩ := round_step (s1 + sz) (by linarith) hB'
  have hSpos : 0 < S := by
    have h1 : 0 < s1 + sz := lt_of_lt_of_le (by positivity) hB1
    have h2 : 0 < (s1 + sz) * (1 - 1 / 2 ^ 53) := mul_pos h1 (by norm_num)
    linarith
  obtain ⟨c1, c2⟩ := chain_bounds _ _ _ _ sx sy sz s1 S hu0 hu1 hX0 hY0 hZ0
    x1 x2 y1 y2 z1 z2 a1 a2 b1 b2
  obtain ⟨m, em, hm, hmerr⟩ := roundSqrt_spec S hSpos
  obtain ⟨q1, q2⟩ := sq_of_sqrt_bound S m hSpos hm hmerr
  refine ⟨m, ?_, hm, ?_, ?_⟩
  · show F64.sqrt (F64.add (F64.add (F64.mul (fin x) (fin x)) (F64.mul (fin y) (fin y)))
      (F64.mul (fin z) (fin z))) = fin m
    show F64.sqrt (F64.add (F64.add (F64.round (x * x)) (F64.round (y * y)))
      (F64.round (z * z))) = fin m
    rw [ex, ey, ez]
    show F64.sqrt (F64.add (F64.round (sx + sy)) (fin sz)) = fin m
    rw [e1]
    show F64.sqrt (F64.round (s1 + sz)) = fin m
    rw [eS]
    show (if S < 0 then F64.nan else if S = 0 then fin 0 else F64.roundSqrt S) = fin m
    rw [if_neg (not_lt.mpr hSpos.le), if_neg hSpos.ne', em]
  · calc (x * x + y * y + z * z) * (1 - 1 / 2 ^ 53) ^ 5
        = (x * x + y * y + z * z) * (1 - 1 / 2 ^ 53) ^ 3 * (1 - 1 / 2 ^ 53) ^ 2 := by ring
      _ ≤ S * (1 - 1 / 2 ^ 53) ^ 2 := mul_le_mul_of_nonneg_right c1 (by positivity)
      _ ≤ m * m := q1
  · calc m * m ≤ S * (1 + 1 / 2 ^ 53) ^ 2 := q2
      _ ≤ (x * x + y * y + z * z) * (1 + 1 / 2 ^ 53) ^ 3 * (1 + 1 / 2 ^ 53) ^ 2 :=
          mul_le_mul_of_nonneg_right c2 (by positivity)
      _ = (x * x + y * y + z * z) * (1 + 1 / 2 ^ 53) ^ 5 := by ring

end

namespace F64

/-- A relative error bound on a value gives one on its square. -/
theorem sq_rel (r q u : ℚ) (hu0 : 0 ≤ u) (hu1 : u ≤ 1) (h : abs (r - q) ≤ abs q * u) :
    q * q * (1 - u) ^ 2 ≤ r * r ∧ r * r ≤ q * q * (1 + u) ^ 2 := by
  have hq0 : 0 ≤ abs q := abs_nonneg q
  have h1 : abs q - abs r ≤ abs (r - q) := by
    have := abs_sub_abs_le_abs_sub q r
    rwa [abs_sub_comm q r] at this
  have h2 : abs r - abs q ≤ abs (r - q) := abs_sub_abs_le_abs_sub r q
  have lo : abs q * (1 - u) ≤ abs r := by nlinarith
  have hi : abs r ≤ abs q * (1 + u) := by nlinarith
  have hlo0 : 0 ≤ abs q * (1 - u) := mul_nonneg hq0 (by linarith)
  have hr0 : 0 ≤ abs r := abs_nonneg r
  have e1 : r * r = abs r * abs r := (abs_mul_abs_self r).symm
  have e2 : q * q = abs q * abs q := (abs_mul_abs_self q).symm
  constructor
  · calc q * q * (1 - u) ^ 2 = (abs q * (1 - u)) * (abs q * (1 - u)) := by rw [e2]; ring
      _ ≤ abs r * abs r := mul_le_mul lo lo hlo0 hr0
      _ = r * r := e1.symm
  · calc r * r = abs r * abs r := e1
      _ ≤ (abs q * (1 + u)) * (abs q * (1 + u)) := mul_le_mul hi hi hr0 (le_trans hr0 hi)
      _ = q * q * (1 + u) ^ 2 := by rw [e2]; ring

/-- The quotient of a moderate value by a moderate positive divisor is rounded with
relative error at most `2 ^ (-53)` and keeps its sign. -/
theorem div_step (c m : ℚ) (hm0 : 0 < m) (hmlo : 1 / 2 ^ 502 ≤ m) (hmhi : m ≤ 2 ^ 502)
    (hc : c = 0 ∨ (1 / 2 ^ 500 ≤ abs c ∧ abs c ≤ 2 ^ 500)) :
    ∃ r : ℚ, F64.div (fin c) (fin m) = fin r ∧ abs (r - c / m) ≤ abs (c / m) * (1 / 2 ^ 53) ∧
      (0 < c → 0 < r) ∧ (c < 0 → r < 0) ∧ (c = 0 → r = 0) := by
  have hdiv : F64.div (fin c) (fin m) = F64.round (c / m) := by
    show (if m = 0 then (if c = 0 then nan else inf (decide (c < 0))) else F64.round (c / m)) = _
    rw [if_neg hm0.ne']
  rcases hc with rfl | ⟨h1, h2⟩
  · refine ⟨0, ?_, ?_, ?_, ?_, ?_⟩
    · rw [hdiv, zero_div]; exact round_zero
    · simp
    · intro h; exact absurd h (lt_irrefl _)
    · intro h; exact absurd h (lt_irrefl _)
    · intro _; rfl
  · have habs : abs (c / m) = abs c / m := by rw [abs_div, abs_of_pos hm0]
    have hlo : (2 : ℚ) ^ (-1022 : ℤ) ≤ abs (c / m) := by
      rw [habs, le_div_iff₀ hm0]
      calc (2 : ℚ) ^ (-1022 : ℤ) * m ≤ (2 : ℚ) ^ (-1022 : ℤ) * 2 ^ 502 :=
            mul_le_mul_of_nonneg_left hmhi (by positivity)
        _ = (2 : ℚ) ^ (-1022 : ℤ) * (2 : ℚ) ^ (502 : ℤ) := by rw [zpow_ofNat]
        _ = (2 : ℚ) ^ (-520 : ℤ) := by rw [← zpow_add₀ (by norm_num)]; norm_num
        _ ≤ (2 : ℚ) ^ (-500 : ℤ) := zpow_le_zpow_right₀ (by norm_num) (by norm_num)
        _ = 1 / 2 ^ 500 := by rw [zpow_neg, zpow_ofNat, one_div]
        _ ≤ abs c := h1
    have hhi : abs (c / m) < (2 : ℚ) ^ (1023 : ℤ) := by
      rw [habs, div_lt_iff₀ hm0]
      calc abs c ≤ 2 ^ 500 := h2
        _ = (2 : ℚ) ^ (500 : ℤ) := by rw [zpow_ofNat]
        _ < (2 : ℚ) ^ (521 : ℤ) := zpow_lt_zpow_right₀ (by norm_num) (by norm_num)
        _ = (2 : ℚ) ^ (1023 : ℤ) * (2 : ℚ) ^ (-502 : ℤ) := by
            rw [← zpow_add₀ (by norm_num)]; norm_num
        _ = (2 : ℚ) ^ (1023 : ℤ) * (1 / 2 ^ 502) := by
            rw [zpow_neg, one_div, zpow_ofNat (2 : ℚ) 502]
        _ ≤ (2 : ℚ) ^ (1023 : ℤ) * m := mul_le_mul_of_nonneg_left hmlo (by positivity)
    obtain ⟨r, er, herr, hp, hn⟩ := round_spec (c / m) hlo hhi
    refine ⟨r, by rw [hdiv, er], ?_, ?_, ?_, ?_⟩
    · rw [mul_one_div]; exact herr
    · intro h; exact hp (div_pos h hm0)
    · intro h; exact hn (div_neg_of_neg_of_pos h hm0)
    · intro h
      rw [h, abs_zero] at h1
      have : (0 : ℚ) < 1 / 2 ^ 500 := by positivity
      linarith

end F64

namespace F64

/-- The size of a positive root whose square is known up to a factor in `[1/2, 2]`. -/
theorem root_range (B T m lo hi : ℚ) (hB : 0 < B) (hm : 0 < m)
    (hT1 : 1 / (B * B) ≤ T) (hT2 : T ≤ 3 * (B * B)) (hlo : 1 / 2 ≤ lo) (hhi : hi ≤ 2)
    (h1 : T * lo ≤ m * m) (h2 : m * m ≤ T * hi) :
    1 / (4 * B) ≤ m ∧ m ≤ 4 * B := by
  have hBB : 0 < B * B := mul_pos hB hB
  have hT0 : 0 < T := lt_of_lt_of_le (by positivity) hT1
  constructor
  · by_contra hc
    have hc' : m < 1 / (4 * B) := not_le.mp hc
    have e1 : m * m < 1 / (4 * B) * (1 / (4 * B)) :=
      mul_lt_mul'' hc' hc' hm.le hm.le
    have e2 : 1 / (4 * B) * (1 / (4 * B)) = 1 / (B * B) * (1 / 16) := by
      field_simp; ring
    have e3 : 1 / (B * B) * (1 / 2) ≤ T * lo :=
      mul_le_mul hT1 hlo (by norm_num) hT0.le
    have e4 : 0 < 1 / (B * B) := by positivity
    nlinarith
  · by_contra hc
    have hc' : 4 * B < m := not_le.mp hc
    have e1 : 4 * B * (4 * B) < m * m :=
      mul_lt_mul'' hc' hc' (by positivity) (by positivity)
    have e3 : T * hi ≤ 3 * (B * B) * 2 :=
      le_trans (mul_le_mul_of_nonneg_left hhi hT0.le)
        (mul_le_mul_of_nonneg_right hT2 (by norm_num))
    nlinarith

/-- The exact sum of squares of moderate coordinates, not all zero. -/
theorem sum_sq_range (L H X Y Z : ℚ) (hL : 0 < L) (hH : 0 ≤ H)
    (hX : X = 0 ∨ (L ≤ X ∧ X ≤ H)) (hY : Y = 0 ∨ (L ≤ Y ∧ Y ≤ H))
    (hZ : Z = 0 ∨ (L ≤ Z ∧ Z ≤ H)) (hpos : 0 < X + Y + Z) :
    L ≤ X + Y + Z ∧ X + Y + Z ≤ 3 * H := by
  rcases hX with rfl | ⟨x1, x2⟩ <;> rcases hY with rfl | ⟨y1, y2⟩ <;>
    rcases hZ with rfl | ⟨z1, z2⟩ <;> constructor <;> linarith

theorem u_pow_lo : (1 : ℚ) / 2 ≤ (1 - 1 / 2 ^ 53) ^ 5 := by norm_num

theorem u_pow_hi : (1 + 1 / 2 ^ 53 : ℚ) ^ 5 ≤ 2 := by norm_num

theorem u_num_1 : (1 + 1 / 2 ^ 53 : ℚ) ^ 2 ≤ (1 + 1 / 2 ^ 51) ^ 2 * (1 - 1 / 2 ^ 53) ^ 5 := by
  norm_num

theorem u_num_2 : (1 - 1 / 2 ^ 51 : ℚ) ^ 2 * (1 + 1 / 2 ^ 53) ^ 5 ≤ (1 - 1 / 2 ^ 53) ^ 2 := by
  norm_num

theorem u_num_3 : (1 + 1 / 2 ^ 53 : ℚ) ^ 5 ≤ (1 + 1 / 2 ^ 51) ^ 2 := by norm_num

theorem u_num_4 : (1 - 1 / 2 ^ 51 : ℚ) ^ 2 ≤ (1 - 1 / 2 ^ 53) ^ 5 := by norm_num

/-- The exact squared length of the computed quotient vector is within the factor
`(1 ± 2 ^ (-51)) ^ 2` of one. -/
theorem unit_bounds (T M R : ℚ) (hT : 0 < T) (hM : 0 < M)
    (m1 : T * (1 - 1 / 2 ^ 53) ^ 5 ≤ M) (m2 : M ≤ T * (1 + 1 / 2 ^ 53) ^ 5)
    (r1 : T / M * (1 - 1 / 2 ^ 53) ^ 2 ≤ R) (r2 : R ≤ T / M * (1 + 1 / 2 ^ 53) ^ 2) :
    (1 - 1 / 2 ^ 51) ^ 2 ≤ R ∧ R ≤ (1 + 1 / 2 ^ 51) ^ 2 := by
  have hQ : 0 < T / M := div_pos hT hM
  have q1 : T / M * (1 - 1 / 2 ^ 53) ^ 5 ≤ 1 := by
    rw [div_mul_eq_mul_div, div_le_one hM]; exact m1
  have q2 : 1 ≤ T / M * (1 + 1 / 2 ^ 53) ^ 5 := by
    rw [div_mul_eq_mul_div, one_le_div hM]; exact m2
  have p5 : (0 : ℚ) < (1 - 1 / 2 ^ 53) ^ 5 := by norm_num
  have P5 : (0 : ℚ) < (1 + 1 / 2 ^ 53) ^ 5 := by positivity
  constructor
  · have a1 : T / M * (1 - 1 / 2 ^ 53) ^ 2 * (1 + 1 / 2 ^ 53) ^ 5 ≤ R * (1 + 1 / 2 ^ 53) ^ 5 :=
      mul_le_mul_of_nonneg_right r1 P5.le
    have a2 : (1 - 1 / 2 ^ 53 : ℚ) ^ 2 ≤
        T / M * (1 - 1 / 2 ^ 53) ^ 2 * (1 + 1 / 2 ^ 53) ^ 5 := by
      calc (1 - 1 / 2 ^ 53 : ℚ) ^ 2 = 1 * (1 - 1 / 2 ^ 53) ^ 2 := (one_mul _).symm
        _ ≤ T / M * (1 + 1 / 2 ^ 53) ^ 5 * (1 - 1 / 2 ^ 53) ^ 2 :=
            mul_le_mul_of_nonneg_right q2 (by positivity)
        _ = T / M * (1 - 1 / 2 ^ 53) ^ 2 * (1 + 1 / 2 ^ 53) ^ 5 := by ring
    have a3 : (1 - 1 / 2 ^ 51 : ℚ) ^ 2 * (1 + 1 / 2 ^ 53) ^ 5 ≤ R * (1 + 1 / 2 ^ 53) ^ 5 :=
      le_trans u_num_2 (le_trans a2 a1)
    exact le_of_mul_le_mul_right a3 P5
  · have a1 : R * (1 - 1 / 2 ^ 53) ^ 5 ≤ T / M * (1 + 1 / 2 ^ 53) ^ 2 * (1 - 1 / 2 ^ 53) ^ 5 :=
      mul_le_mul_of_nonneg_right r2 p5.le
    have a2 : T / M * (1 + 1 / 2 ^ 53) ^ 2 * (1 - 1 / 2 ^ 53) ^ 5 ≤ (1 + 1 / 2 ^ 53 : ℚ) ^ 2 := by
      calc T / M * (1 + 1 / 2 ^ 53) ^ 2 * (1 - 1 / 2 ^ 53) ^ 5
          = T / M * (1 - 1 / 2 ^ 53) ^ 5 * (1 + 1 / 2 ^ 53) ^ 2 := by ring
        _ ≤ 1 * (1 + 1 / 2 ^ 53) ^ 2 := mul_le_mul_of_nonneg_right q1 (by positivity)
        _ = (1 + 1 / 2 ^ 53 : ℚ) ^ 2 := one_mul _
    have a3 : R * (1 - 1 / 2 ^ 53) ^ 5 ≤ (1 + 1 / 2 ^ 51) ^ 2 * (1 - 1 / 2 ^ 53) ^ 5 :=
      le_trans a1 (le_trans a2 u_num_1)
    exact le_of_mul_le_mul_right a3 p5

/-- A real number whose square lies within `(1 ± e) ^ 2` of `t`, against `√t`. -/
theorem abs_sub_sqrt_le (v t e : ℝ) (hv : 0 ≤ v) (ht : 0 ≤ t) (he0 : 0 ≤ e) (he1 : e ≤ 1)
    (h1 : t * (1 - e) ^ 2 ≤ v * v) (h2 : v * v ≤ t * (1 + e) ^ 2) :
    |v - Real.sqrt t| ≤ Real.sqrt t * e := by
  have hs0 : 0 ≤ Real.sqrt t := Real.sqrt_nonneg t
  have hs2 : Real.sqrt t * Real.sqrt t = t := Real.mul_self_sqrt ht
  have lo : Real.sqrt t * (1 - e) ≤ v := by
    by_contra hc
    have hc' : v < Real.sqrt t * (1 - e) := not_le.mp hc
    have : v * v < Real.sqrt t * (1 - e) * (Real.sqrt t * (1 - e)) :=
      mul_lt_mul'' hc' hc' hv hv
    have e2 : Real.sqrt t * (1 - e) * (Real.sqrt t * (1 - e)) = t * (1 - e) ^ 2 := by
      calc Real.sqrt t * (1 - e) * (Real.sqrt t * (1 - e))
          = (Real.sqrt t * Real.sqrt t) * (1 - e) ^ 2 := by ring
        _ = t * (1 - e) ^ 2 := by rw [hs2]
    linarith
  have hi : v ≤ Real.sqrt t * (1 + e) := by
    by_contra hc
    have hc' : Real.sqrt t * (1 + e) < v := not_le.mp hc
    have h0 : 0 ≤ Real.sqrt t * (1 + e) := mul_nonneg hs0 (by linarith)
    have : Real.sqrt t * (1 + e) * (Real.sqrt t * (1 + e)) < v * v :=
      mul_lt_mul'' hc' hc' h0 h0
    have e2 : Real.sqrt t * (1 + e) * (Real.sqrt t * (1 + e)) = t * (1 + e) ^ 2 := by
      calc Real.sqrt t * (1 + e) * (Real.sqrt t * (1 + e))
          = (Real.sqrt t * Real.sqrt t) * (1 + e) ^ 2 := by ring
        _ = t * (1 + e) ^ 2 := by rw [hs2]
    linarith
  rw [abs_le]
  constructor <;> nlinarith

end F64

section

open F64

/-- `Point::Normalize` in double arithmetic on a vector whose coordinates are zero or
of magnitude in `[2 ^ (-500), 2 ^ 500]`, not all zero. -/
theorem Normalize64_spec (x y z : ℚ)
    (hx : x = 0 ∨ (1 / 2 ^ 500 ≤ abs x ∧ abs x ≤ 2 ^ 500))
    (hy : y = 0 ∨ (1 / 2 ^ 500 ≤ abs y ∧ abs y ≤ 2 ^ 500))
    (hz : z = 0 ∨ (1 / 2 ^ 500 ≤ abs z ∧ abs z ≤ 2 ^ 500))
    (hne : x ≠ 0 ∨ y ≠ 0 ∨ z ≠ 0) :
    ∃ m rx ry rz : ℚ,
      (Point64.mk (fin x) (fin y) (fin z)).magnitude = fin m ∧ 0 < m ∧
      (Point64.mk (fin x) (fin y) (fin z)).Normalize = Point64.mk (fin rx) (fin ry) (fin rz) ∧
      |(m : ℝ) - Real.sqrt ((x * x + y * y + z * z : ℚ) : ℝ)|
        ≤ Real.sqrt ((x * x + y * y + z * z : ℚ) : ℝ) * (1 / 2 ^ 51) ∧
      abs (rx - x / m) ≤ abs (x / m) * (1 / 2 ^ 53) ∧
      abs (ry - y / m) ≤ abs (y / m) * (1 / 2 ^ 53) ∧
      abs (rz - z / m) ≤ abs (z / m) * (1 / 2 ^ 53) ∧
      |Real.sqrt ((rx * rx + ry * ry + rz * rz : ℚ) : ℝ) - 1| ≤ 1 / 2 ^ 51 := by
  obtain ⟨m, em, hm, m1, m2⟩ := magnitude64_spec x y z hx hy hz hne
  have hT : 0 < x * x + y * y + z * z := by
    rcases hne with h | h | h
    · have := mul_self_pos.mpr h; have := mul_self_nonneg y; have := mul_self_nonneg z; linarith
    · have := mul_self_pos.mpr h; have := mul_self_nonneg x; have := mul_self_nonneg z; linarith
    · have := mul_self_pos.mpr h; have := mul_self_nonneg x; have := mul_self_nonneg y; linarith
  have hB : (0 : ℚ) < 2 ^ 500 := by positivity
  have eBB : (2 : ℚ) ^ 1000 = 2 ^ 500 * 2 ^ 500 := by rw [← pow_add]
  have e4B : (2 : ℚ) ^ 502 = 4 * 2 ^ 500 := by
    rw [show (502 : ℕ) = 2 + 500 from rfl, pow_add]; norm_num
  obtain ⟨t1, t2⟩ := sum_sq_range (1 / 2 ^ 1000) (2 ^ 1000) _ _ _ (by positivity) (by positivity)
    (sq_moderate x hx) (sq_moderate y hy) (sq_moderate z hz) hT
  rw [eBB] at t1 t2
  obtain ⟨b1, b2⟩ := root_range (2 ^ 500) _ m _ _ hB hm t1 t2 u_pow_lo u_pow_hi m1 m2
  rw [← e4B] at b1 b2
  obtain ⟨rx, ex, dx, -, -, -⟩ := div_step x m hm b1 b2 hx
  obtain ⟨ry, ey, dy, -, -, -⟩ := div_step y m hm b1 b2 hy
  obtain ⟨rz, ez, dz, -, -, -⟩ := div_step z m hm b1 b2 hz
  have hu0 : (0 : ℚ) ≤ 1 / 2 ^ 53 := by positivity
  have hu1 : (1 : ℚ) / 2 ^ 53 ≤ 1 := by
    rw [div_le_one (by positivity)]; exact one_le_pow₀ (by norm_num)
  obtain ⟨sx1, sx2⟩ := sq_rel rx (x / m) _ hu0 hu1 dx
  obtain ⟨sy1, sy2⟩ := sq_rel ry (y / m) _ hu0 hu1 dy
  obtain ⟨sz1, sz2⟩ := sq_rel rz (z / m) _ hu0 hu1 dz
  have hQ : x / m * (x / m) + y / m * (y / m) + z / m * (z / m)
      = (x * x + y * y + z * z) / (m * m) := by
    field_simp
  have r1 : (x * x + y * y + z * z) / (m * m) * (1 - 1 / 2 ^ 53) ^ 2
      ≤ rx * rx + ry * ry + rz * rz := by
    rw [← hQ]; linarith
  have r2 : rx * rx + ry * ry + rz * rz
      ≤ (x * x + y * y + z * z) / (m * m) * (1 + 1 / 2 ^ 53) ^ 2 := by
    rw [← hQ]; linarith
  obtain ⟨n1, n2⟩ := unit_bounds _ (m * m) _ hT (mul_pos hm hm) m1 m2 r1 r2
  refine ⟨m, rx, ry, rz, em, hm, ?_, ?_, dx, dy, dz, ?_⟩
  · show Point64.div _ (Point64.magnitude _) = _
    rw [em]
    show Point64.mk (F64.div (fin x) (fin m)) (F64.div (fin y) (fin m)) (F64.div (fin z) (fin m))
      = _
    rw [ex, ey, ez]
  · apply abs_sub_sqrt_le _ _ _ (by exact_mod_cast hm.le) (by exact_mod_cast hT.le)
      (by positivity) (by norm_num)
    · have h : (x * x + y * y + z * z) * (1 - 1 / 2 ^ 51) ^ 2 ≤ m * m :=
        le_trans (mul_le_mul_of_nonneg_left u_num_4 hT.le) m1
      have h' : (((x * x + y * y + z * z) * (1 - 1 / 2 ^ 51) ^ 2 : ℚ) : ℝ) ≤ ((m * m : ℚ) : ℝ) :=
        by exact_mod_cast h
      simpa using h'
    · have h : m * m ≤ (x * x + y * y + z * z) * (1 + 1 / 2 ^ 51) ^ 2 :=
        le_trans m2 (mul_le_mul_of_nonneg_left u_num_3 hT.le)
      have h' : ((m * m : ℚ) : ℝ) ≤ (((x * x + y * y + z * z) * (1 + 1 / 2 ^ 51) ^ 2 : ℚ) : ℝ) :=
        by exact_mod_cast h
      simpa using h'
  · have hR0 : (0 : ℝ) ≤ ((rx * rx + ry * ry + rz * rz : ℚ) : ℝ) := by
      have : (0 : ℚ) ≤ rx * rx + ry * ry + rz * rz := by
        have := mul_self_nonneg rx; have := mul_self_nonneg ry; have := mul_self_nonneg rz
        linarith
      exact_mod_cast this
    have n1' : ((1 - 1 / 2 ^ 51 : ℝ)) * (1 - 1 / 2 ^ 51)
        ≤ ((rx * rx + ry * ry + rz * rz : ℚ) : ℝ) := by
      have hq : (1 - 1 / 2 ^ 51 : ℚ) * (1 - 1 / 2 ^ 51) ≤ rx * rx + ry * ry + rz * rz :=
        le_of_eq_of_le (pow_two _).symm n1
      have h' : (((1 - 1 / 2 ^ 51) * (1 - 1 / 2 ^ 51) : ℚ) : ℝ)
          ≤ ((rx * rx + ry * ry + rz * rz : ℚ) : ℝ) := by exact_mod_cast hq
      simpa using h'
    have n2' : ((rx * rx + ry * ry + rz * rz : ℚ) : ℝ)
        ≤ ((1 + 1 / 2 ^ 51 : ℝ)) * (1 + 1 / 2 ^ 51) := by
      have hq : rx * rx + ry * ry + rz * rz ≤ (1 + 1 / 2 ^ 51 : ℚ) * (1 + 1 / 2 ^ 51) :=
        le_of_le_of_eq n2 (pow_two _)
      have h' : ((rx * rx + ry * ry + rz * rz : ℚ) : ℝ)
          ≤ (((1 + 1 / 2 ^ 51) * (1 + 1 / 2 ^ 51) : ℚ) : ℝ) := by exact_mod_cast hq
      simpa using h'
    have l1 := le_sqrt_of _ _ (by norm_num) n1'
    have l2 := sqrt_le_of _ _ (by norm_num) n2'
    rw [abs_le]
    constructor <;> linarith

end

/-! ## The light and the shader in double arithmetic -/

set_option maxRecDepth 100000 in
theorem kLight64_magnitude :
    kLight64.magnitude = F64.fin (2757880273211543 / 2 ^ 50) := by decide!

set_option maxRecDepth 100000 in
theorem normalized_light64_eq :
    normalized_light64 = { x := F64.fin (-7354347395230783 / 2 ^ 54)
                           y := F64.fin (-7354347395230783 / 2 ^ 54)
                           z := F64.fin (7354347395230783 / 2 ^ 53) } := by decide!

set_option maxRecDepth 100000 in
theorem normalized_light64_magnitude : normalized_light64.magnitude = F64.fin 1 := by decide!

set_option maxRecDepth 100000 in
theorem normalized_light64_dot_self :
    normalized_light64.Dot normalized_light64 = F64.fin (1 + 1 / 2 ^ 52) := by decide!

set_option maxRecDepth 100000 in
theorem Normalize64_overflow :
    (Point64.mk (F64.fin (2 ^ 600)) (F64.fin 0) (F64.fin 0)).magnitude = F64.inf false ∧
    (Point64.mk (F64.fin (2 ^ 600)) (F64.fin 0) (F64.fin 0)).Normalize
      = Point64.mk (F64.fin 0) (F64.fin 0) (F64.fin 0) := by decide!

set_option maxRecDepth 100000 in
theorem Normalize64_underflow :
    (Point64.mk (F64.fin (1 / 2 ^ 600)) (F64.fin 0) (F64.fin 0)).magnitude = F64.fin 0 ∧
    (Point64.mk (F64.fin (1 / 2 ^ 600)) (F64.fin 0) (F64.fin 0)).Normalize
      = Point64.mk (F64.inf false) F64.nan F64.nan := by decide!

set_option maxRecDepth 100000 in
theorem zero64_magnitude :
    (Point64.mk (F64.fin 0) (F64.fin 0) (F64.fin 0)).magnitude = F64.fin 0 := by decide!

set_option maxRecDepth 100000 in
theorem unit_x_dot_unit_y64 :
    (Point64.mk (F64.fin 1) (F64.fin 0) (F64.fin 0)).Dot
      (Point64.mk (F64.fin 0) (F64.fin 1) (F64.fin 0)) = F64.fin 0 := by decide!

theorem acosChecked_of_mem {x : ℝ} (h1 : -1 ≤ x) (h2 : x ≤ 1) :
    acosChecked x = some (Real.arccos x) := by
  unfold acosChecked
  rw [if_pos ⟨h1, h2⟩]

theorem acosChecked_of_not_mem {x : ℝ} (h : ¬ (-1 ≤ x ∧ x ≤ 1)) : acosChecked x = none := by
  unfold acosChecked
  rw [if_neg h]

theorem brightness64_of_mem {d : ℚ} (h1 : -1 ≤ d) (h2 : d ≤ 1) :
    brightness64 (F64.fin d) = some (Real.arccos (d : ℝ) / PI) := by
  have h1' : (-1 : ℝ) ≤ (d : ℝ) := by exact_mod_cast h1
  have h2' : (d : ℝ) ≤ 1 := by exact_mod_cast h2
  show (acosChecked (d : ℝ)).map _ = _
  rw [acosChecked_of_mem h1' h2']
  rfl

theorem brightness64_of_not_mem {d : ℚ} (h : ¬ (-1 ≤ d ∧ d ≤ 1)) :
    brightness64 (F64.fin d) = none := by
  have h' : ¬ ((-1 : ℝ) ≤ (d : ℝ) ∧ (d : ℝ) ≤ 1) := by
    intro hc
    exact h ⟨by exact_mod_cast hc.1, by exact_mod_cast hc.2⟩
  show (acosChecked (d : ℝ)).map _ = _
  rw [acosChecked_of_not_mem h']
  rfl

theorem arccos_div_PI_mem (x : ℝ) : 0 ≤ Real.arccos x / PI ∧ Real.arccos x / PI ≤ 1 := by
  have hpi : 0 < PI := by rw [PI_eq]; exact Real.pi_pos
  refine ⟨div_nonneg (Real.arccos_nonneg x) hpi.le, ?_⟩
  rw [div_le_one hpi, PI_eq]
  exact Real.arccos_le_pi x

theorem moderate_one : (1 : ℚ) / 2 ^ 500 ≤ 1 ∧ (1 : ℚ) ≤ 2 ^ 500 :=
  ⟨by rw [div_le_one (by positivity)]; exact one_le_pow₀ (by norm_num),
    one_le_pow₀ (by norm_num)⟩

theorem moderate_two : (1 : ℚ) / 2 ^ 500 ≤ 2 ∧ (2 : ℚ) ≤ 2 ^ 500 :=
  ⟨le_trans moderate_one.1 (by norm_num),
    le_trans (by norm_num : (2 : ℚ) ≤ 2 ^ 1) (pow_le_pow_right₀ (by norm_num) (by norm_num))⟩

/-! ## Frame 0: the drawn cells -/

theorem kScale_pos : (0 : ℝ) < (kScale : ℝ) := by
  unfold kScale
  norm_num

theorem ble_cast {a b : ℕ} (h : Nat.ble a b = true) : (a : ℝ) ≤ (b : ℝ) :=
  Nat.cast_le.mpr (Nat.le_of_ble_eq_true h)

theorem Holds_nonneg {e : Encl} {t : ℝ} (h : e.Holds t) : 0 ≤ Real.cos t ∧ 0 ≤ Real.sin t := by
  obtain ⟨h1, -, h3, -⟩ := h
  have hc : (0 : ℝ) ≤ (kScale : ℝ) * Real.cos t := le_trans (Nat.cast_nonneg _) h1
  have hs : (0 : ℝ) ≤ (kScale : ℝ) * Real.sin t := le_trans (Nat.cast_nonneg _) h3
  exact ⟨nonneg_of_mul_nonneg_right hc kScale_pos, nonneg_of_mul_nonneg_right hs kScale_pos⟩

/-- The doubling test is sound. -/
theorem doubleOK_sound (e e2 : Encl) (t : ℝ) (h : e.Holds t) (hk : doubleOK e e2 = true) :
    e2.Holds (2 * t) := by
  obtain ⟨hc0, hs0⟩ := Holds_nonneg h
  obtain ⟨h1, h2, h3, h4⟩ := h
  unfold Encl.Holds
  unfold doubleOK at hk
  simp only [Bool.and_eq_true] at hk
  obtain ⟨⟨⟨k1, k2⟩, k3⟩, k4⟩ := hk
  have k1 := ble_cast k1
  have k2 := ble_cast k2
  have k3 := ble_cast k3
  have k4 := ble_cast k4
  push_cast at k1 k2 k3 k4
  have hN := kScale_pos
  generalize (kScale : ℝ) = N at h1 h2 h3 h4 k1 k2 k3 k4 hN ⊢
  set C : ℝ := N * Real.cos t with hC
  set S : ℝ := N * Real.sin t with hS
  have hC0 : 0 ≤ C := mul_nonneg hN.le hc0
  have hS0 : 0 ≤ S := mul_nonneg hN.le hs0
  have hcl0 : (0 : ℝ) ≤ (e.cl : ℝ) := Nat.cast_nonneg _
  have hsl0 : (0 : ℝ) ≤ (e.sl : ℝ) := Nat.cast_nonneg _
  have ecos : N * (N * Real.cos (2 * t)) = 2 * (C * C) - N * N := by
    rw [Real.cos_two_mul, hC]; ring
  have esin : N * (N * Real.sin (2 * t)) = 2 * (S * C) := by
    rw [Real.sin_two_mul, hS, hC]; ring
  have c1 : (e.cl : ℝ) * e.cl ≤ C * C := mul_le_mul h1 h1 hcl0 hC0
  have c2 : C * C ≤ (e.ch : ℝ) * e.ch := mul_le_mul h2 h2 hC0 (le_trans hC0 h2)
  have s1 : (e.sl : ℝ) * e.cl ≤ S * C := mul_le_mul h3 h1 hcl0 hS0
  have s2 : S * C ≤ (e.sh : ℝ) * e.ch := mul_le_mul h4 h2 hC0 (le_trans hS0 h4)
  refine ⟨?_, ?_, ?_, ?_⟩
  · apply le_of_mul_le_mul_left _ hN
    rw [ecos]; linarith
  · apply le_of_mul_le_mul_left _ hN
    rw [ecos]; linarith
  · apply le_of_mul_le_mul_left _ hN
    rw [esin]; linarith
  · apply le_of_mul_le_mul_left _ hN
    rw [esin]; linarith

/-- The doubling test along a list is sound for its last enclosure. -/
theorem doubleChainFrom_sound (l : List Encl) : ∀ (e : Encl) (t : ℝ), e.Holds t →
    doubleChainFrom e l = true → (lastFrom e l).Holds (2 ^ l.length * t) := by
  induction l with
  | nil =>
    intro e t h _
    simpa [lastFrom] using h
  | cons e2 l ih =>
    intro e t h hk
    unfold doubleChainFrom at hk
    rw [Bool.and_eq_true] at hk
    have h2 := doubleOK_sound e e2 t h hk.1
    have := ih e2 (2 * t) h2 hk.2
    rw [List.length_cons, pow_succ, mul_assoc]
    exact this

/-- The addition test is sound, given that the advanced angle has a nonnegative
cosine. -/
theorem addOK_sound (s e e2 : Encl) (a t : ℝ) (hs : s.Holds a) (h : e.Holds t)
    (hcos : 0 ≤ Real.cos (t + a)) (hk : addOK s e e2 = true) : e2.Holds (t + a) := by
  obtain ⟨ha0, hb0⟩ := Holds_nonneg hs
  obtain ⟨hc0, hs0⟩ := Holds_nonneg h
  obtain ⟨a1, a2, a3, a4⟩ := hs
  obtain ⟨h1, h2, h3, h4⟩ := h
  unfold Encl.Holds
  unfold addOK at hk
  simp only [Bool.and_eq_true, Bool.or_eq_true] at hk
  obtain ⟨⟨⟨k1, k2⟩, k3⟩, k4⟩ := hk
  have k2 := ble_cast k2
  have k3 := ble_cast k3
  have k4 := ble_cast k4
  push_cast at k2 k3 k4
  have hN := kScale_pos
  have k1' : (e2.cl : ℝ) * (kScale : ℝ) + (e.sh : ℝ) * (s.sh : ℝ) ≤ (e.cl : ℝ) * (s.cl : ℝ)
      ∨ e2.cl = 0 := by
    rcases k1 with k1 | k1
    · left
      have := ble_cast k1
      push_cast at this
      exact this
    · right
      exact Nat.eq_of_beq_eq_true k1
  generalize (kScale : ℝ) = N at h1 h2 h3 h4 a1 a2 a3 a4 k1' k2 k3 k4 hN ⊢
  set C : ℝ := N * Real.cos t with hC
  set S : ℝ := N * Real.sin t with hS
  set A : ℝ := N * Real.cos a with hA
  set B : ℝ := N * Real.sin a with hB
  have hC0 : 0 ≤ C := mul_nonneg hN.le hc0
  have hS0 : 0 ≤ S := mul_nonneg hN.le hs0
  have hA0 : 0 ≤ A := mul_nonneg hN.le ha0
  have hB0 : 0 ≤ B := mul_nonneg hN.le hb0
  have n1 : (0 : ℝ) ≤ (e.cl : ℝ) := Nat.cast_nonneg _
  have n2 : (0 : ℝ) ≤ (e.sl : ℝ) := Nat.cast_nonneg _
  have n3 : (0 : ℝ) ≤ (s.cl : ℝ) := Nat.cast_nonneg _
  have n4 : (0 : ℝ) ≤ (s.sl : ℝ) := Nat.cast_nonneg _
  have ecos : N * (N * Real.cos (t + a)) = C * A - S * B := by
    rw [Real.cos_add, hC, hS, hA, hB]; ring
  have esin : N * (N * Real.sin (t + a)) = S * A + C * B := by
    rw [Real.sin_add, hC, hS, hA, hB]; ring
  have p1 : (e.cl : ℝ) * s.cl ≤ C * A := mul_le_mul h1 a1 n3 hC0
  have p2 : C * A ≤ (e.ch : ℝ) * s.ch := mul_le_mul h2 a2 hA0 (le_trans hC0 h2)
  have p3 : (e.sl : ℝ) * s.sl ≤ S * B := mul_le_mul h3 a3 n4 hS0
  have p4 : S * B ≤ (e.sh : ℝ) * s.sh := mul_le_mul h4 a4 hB0 (le_trans hS0 h4)
  have p5 : (e.sl : ℝ) * s.cl ≤ S * A := mul_le_mul h3 a1 n3 hS0
  have p6 : S * A ≤ (e.sh : ℝ) * s.ch := mul_le_mul h4 a2 hA0 (le_trans hS0 h4)
  have p7 : (e.cl : ℝ) * s.sl ≤ C * B := mul_le_mul h1 a3 n4 hC0
  have p8 : C * B ≤ (e.ch : ℝ) * s.sh := mul_le_mul h2 a4 hB0 (le_trans hC0 h2)
  refine ⟨?_, ?_, ?_, ?_⟩
  · rcases k1' with k1 | k1
    · apply le_of_mul_le_mul_left _ hN
      rw [ecos]; linarith
    · rw [k1, Nat.cast_zero]
      exact mul_nonneg hN.le hcos
  · apply le_of_mul_le_mul_left _ hN
    rw [ecos]; linarith
  · apply le_of_mul_le_mul_left _ hN
    rw [esin]; linarith
  · apply le_of_mul_le_mul_left _ hN
    rw [esin]; linarith

/-- The addition test along a numbered list is sound for every entry whose angle has a
nonnegative cosine. -/
theorem addChainFrom_sound (s : Encl) (a : ℝ) (hs : s.Holds a) (l : List (ℕ × Encl)) :
    ∀ (k : ℕ) (e : Encl), e.Holds ((k : ℝ) * a) → addChainFrom s k e l = true →
      (∀ p ∈ l, 0 ≤ Real.cos ((p.1 : ℝ) * a)) → ∀ p ∈ l, p.2.Holds ((p.1 : ℝ) * a) := by
  induction l with
  | nil => intro k e _ _ _ p hp; exact absurd hp (List.not_mem_nil p)
  | cons q l ih =>
    intro k e h hk hcos p hp
    unfold addChainFrom at hk
    simp only [Bool.and_eq_true] at hk
    obtain ⟨⟨k1, k2⟩, k3⟩ := hk
    have hq1 : q.1 = k + 1 := Nat.eq_of_beq_eq_true k1
    have hang : ((q.1 : ℕ) : ℝ) * a = (k : ℝ) * a + a := by
      rw [hq1]; push_cast; ring
    have hq : q.2.Holds ((q.1 : ℝ) * a) := by
      rw [hang]
      apply addOK_sound s e q.2 a _ hs h _ k2
      rw [← hang]
      exact hcos q (List.mem_cons_self q l)
    rcases List.mem_cons.mp hp with rfl | hp
    · exact hq
    · exact ih q.1 q.2 hq k3 (fun r hr => hcos r (List.mem_cons_of_mem q hr)) p hp

/-- Bounds on the cosine and the sine of a small angle between `xl` and `xh`, from the
Taylor polynomials. -/
theorem small_angle_bounds (x xl xh : ℝ) (h0 : 0 ≤ xl) (hl : xl ≤ x) (hh : x ≤ xh)
    (h1 : xh ≤ 1) :
    1 - xh ^ 2 / 2 - xh ^ 4 * (5 / 96) ≤ Real.cos x ∧
      Real.cos x ≤ 1 - xl ^ 2 / 2 + xh ^ 4 * (5 / 96) ∧
      xl - xh ^ 3 / 6 - xh ^ 4 * (5 / 96) ≤ Real.sin x ∧
      Real.sin x ≤ xh - xl ^ 3 / 6 + xh ^ 4 * (5 / 96) := by
  have hx0 : 0 ≤ x := le_trans h0 hl
  have habs : |x| ≤ 1 := by rw [abs_of_nonneg hx0]; linarith
  have hc := abs_le.mp (Real.cos_bound habs)
  have hs := abs_le.mp (Real.sin_bound habs)
  rw [abs_of_nonneg hx0] at hc hs
  have p2l : xl ^ 2 ≤ x ^ 2 := pow_le_pow_left₀ h0 hl 2
  have p2h : x ^ 2 ≤ xh ^ 2 := pow_le_pow_left₀ hx0 hh 2
  have p3l : xl ^ 3 ≤ x ^ 3 := pow_le_pow_left₀ h0 hl 3
  have p3h : x ^ 3 ≤ xh ^ 3 := pow_le_pow_left₀ hx0 hh 3
  have p4h : x ^ 4 ≤ xh ^ 4 := pow_le_pow_left₀ hx0 hh 4
  refine ⟨?_, ?_, ?_, ?_⟩ <;> linarith [hc.1, hc.2, hs.1, hs.2]

theorem baseEncl_holds : baseEncl.Holds (Real.pi / 204800) := by
  have hl : (3.14159265358979323846 : ℝ) / 204800 ≤ Real.pi / 204800 :=
    div_le_div_of_nonneg_right Real.pi_gt_d20.le (by norm_num)
  have hh : Real.pi / 204800 ≤ (3.14159265358979323847 : ℝ) / 204800 :=
    div_le_div_of_nonneg_right Real.pi_lt_d20.le (by norm_num)
  obtain ⟨b1, b2, b3, b4⟩ := small_angle_bounds _ _ _ (by norm_num) hl hh (by norm_num)
  unfold Encl.Holds baseEncl kScale
  push_cast
  refine ⟨?_, ?_, ?_, ?_⟩
  · refine le_trans ?_ (mul_le_mul_of_nonneg_left b1 (by norm_num))
    norm_num
  · refine le_trans (mul_le_mul_of_nonneg_left b2 (by norm_num)) ?_
    norm_num
  · refine le_trans ?_ (mul_le_mul_of_nonneg_left b3 (by norm_num))
    norm_num
  · refine le_trans (mul_le_mul_of_nonneg_left b4 (by norm_num)) ?_
    norm_num

set_option maxRecDepth 100000 in
theorem doubleTable_ok : doubleChainFrom baseEncl doubleTable = true := by decide!

theorem stepEncl_eq : lastFrom baseEncl doubleTable = stepEncl := rfl

/-- The enclosure `stepEncl` holds of the angle `π / 50`. -/
theorem stepEncl_holds : stepEncl.Holds (Real.pi / 50) := by
  have h := doubleChainFrom_sound doubleTable baseEncl _ baseEncl_holds doubleTable_ok
  rw [stepEncl_eq] at h
  have e : (2 : ℝ) ^ doubleTable.length * (Real.pi / 204800) = Real.pi / 50 := by
    have : doubleTable.length = 12 := rfl
    rw [this]
    ring
  rw [e] at h
  exact h

theorem zeroEncl_holds : zeroEncl.Holds (((0 : ℕ) : ℝ) * (Real.pi / 50)) := by
  unfold Encl.Holds zeroEncl
  rw [Nat.cast_zero, zero_mul, Real.cos_zero, Real.sin_zero]
  simp

set_option maxRecDepth 100000 in
theorem quadTail_ok : addChainFrom stepEncl 0 zeroEncl quadTail = true := by decide!

set_option maxRecDepth 100000 in
theorem quadTable_le : ∀ p ∈ quadTable, p.1 ≤ 25 := by decide!

set_option maxRecDepth 100000 in
theorem quadTable_index : ∀ k : ℕ, k ≤ 25 → ∃ p ∈ quadTable, p.1 = k := by decide!

theorem cos_quad_nonneg (k : ℕ) (hk : k ≤ 25) : 0 ≤ Real.cos ((k : ℝ) * (Real.pi / 50)) := by
  apply Real.cos_nonneg_of_mem_Icc
  have hk' : (k : ℝ) ≤ 25 := by exact_mod_cast hk
  have hk0 : (0 : ℝ) ≤ (k : ℝ) := Nat.cast_nonneg k
  have hpi := Real.pi_pos
  constructor
  · have : 0 ≤ (k : ℝ) * (Real.pi / 50) := by positivity
    linarith
  · nlinarith

/-- Every entry of `quadTable` encloses the cosine and the sine of its angle. -/
theorem quadTable_sound : ∀ p ∈ quadTable, p.2.Holds ((p.1 : ℝ) * (Real.pi / 50)) := by
  intro p hp
  rcases List.mem_cons.mp hp with rfl | hp'
  · exact zeroEncl_holds
  · refine addChainFrom_sound stepEncl _ stepEncl_holds quadTail 0 zeroEncl zeroEncl_holds
      quadTail_ok ?_ p hp'
    intro q hq
    exact cos_quad_nonneg q.1 (quadTable_le q (List.mem_cons_of_mem _ hq))

/-- The enclosure of the angle `kπ / 50` of the first quadrant. -/
theorem quadTable_get (k : ℕ) (hk : k ≤ 25) :
    ∃ p ∈ quadTable, p.1 = k ∧ p.2.Holds ((k : ℝ) * (Real.pi / 50)) := by
  obtain ⟨p, hp, rfl⟩ := quadTable_index k hk
  exact ⟨p, hp, rfl, quadTable_sound p hp⟩

theorem cast_sub_le_of (a b : ℕ) (x : ℝ) (hx : x ≤ (b : ℝ)) (h0 : 0 ≤ (a : ℝ) - x) :
    ((a - b : ℕ) : ℝ) ≤ (a : ℝ) - x := by
  rcases Nat.le_total b a with h | h
  · rw [Nat.cast_sub h]; linarith
  · rw [Nat.sub_eq_zero_of_le h, Nat.cast_zero]; exact h0

theorem le_cast_sub_of (a b : ℕ) (x : ℝ) (hx : (b : ℝ) ≤ x) :
    (a : ℝ) - x ≤ ((a - b : ℕ) : ℝ) := by
  rcases Nat.le_total b a with h | h
  · rw [Nat.cast_sub h]; linarith
  · rw [Nat.sub_eq_zero_of_le h, Nat.cast_zero]
    have : (a : ℝ) ≤ (b : ℝ) := Nat.cast_le.mpr h
    linarith

/-- The test `near` is sound. -/
theorem near_sound (Xl Xh Dl Dh en : ℕ) (X D : ℝ) (hX1 : (Xl : ℝ) ≤ X) (hX2 : X ≤ (Xh : ℝ))
    (hD1 : (Dl : ℝ) ≤ D) (hD2 : D ≤ (Dh : ℝ)) (hen : en ≤ 10000)
    (h : near Xl Xh Dl Dh en = true) :
    ∃ m : ℕ, |X - 2 * (m : ℝ) * D| ≤ (1 - (en : ℝ) / 10000) * D := by
  unfold near at h
  rw [Bool.and_eq_true] at h
  obtain ⟨k1, k2⟩ := h
  have k1 := Nat.le_of_ble_eq_true k1
  have k2 := Nat.le_of_ble_eq_true k2
  generalize (Xl + Dl) / (2 * Dl) = m at k1 k2
  have hd : (((10000 - en : ℕ) : ℕ) : ℝ) = 10000 - (en : ℝ) := by
    rw [Nat.cast_sub hen]; norm_num
  generalize 10000 - en = d at k1 k2 hd
  have k1 : ((2 * m * Dh * 10000 : ℕ) : ℝ) ≤ ((10000 * Xl + d * Dl : ℕ) : ℝ) :=
    Nat.cast_le.mpr k1
  have k2 : ((10000 * Xh : ℕ) : ℝ) ≤ ((2 * m * Dl * 10000 + d * Dl : ℕ) : ℝ) :=
    Nat.cast_le.mpr k2
  push_cast at k1 k2
  rw [hd] at k1 k2
  have hm : (0 : ℝ) ≤ (m : ℝ) := Nat.cast_nonneg m
  have hen' : (0 : ℝ) ≤ 10000 - (en : ℝ) := by
    have : (en : ℝ) ≤ 10000 := by exact_mod_cast hen
    linarith
  have e1 : (m : ℝ) * D ≤ (m : ℝ) * (Dh : ℝ) := mul_le_mul_of_nonneg_left hD2 hm
  have e2 : (m : ℝ) * (Dl : ℝ) ≤ (m : ℝ) * D := mul_le_mul_of_nonneg_left hD1 hm
  have e3 : (10000 - (en : ℝ)) * (Dl : ℝ) ≤ (10000 - (en : ℝ)) * D :=
    mul_le_mul_of_nonneg_left hD1 hen'
  refine ⟨m, ?_⟩
  rw [abs_le]
  constructor <;> linarith

theorem int_sub_half (j : ℤ) : (1 : ℝ) / 2 ≤ |(j : ℝ) - 1 / 2| := by
  rcases le_or_lt j 0 with h | h
  · have : (j : ℝ) ≤ 0 := by exact_mod_cast h
    rw [abs_of_nonpos (by linarith)]
    linarith
  · have : (1 : ℝ) ≤ (j : ℝ) := by exact_mod_cast h
    rw [abs_of_nonneg (by linarith)]
    linarith

/-- A value whose double is within `1 - ε` of an even number keeps the distance `ε / 2`
from the midpoints between integers, and so does its negative. -/
theorem half_gap (t ε x : ℝ) (m : ℕ) (h : |2 * t - 2 * (m : ℝ)| ≤ 1 - ε)
    (hx : x = t ∨ x = -t) (k : ℤ) : ε / 2 ≤ |x - ((k : ℝ) + 1 / 2)| := by
  obtain ⟨h1, h2⟩ := abs_le.mp h
  rcases hx with rfl | rfl
  · have hj := int_sub_half (k + 1 - (m : ℤ))
    push_cast at hj
    rcases le_abs'.mp hj with hj | hj
    · refine le_trans ?_ (le_abs_self _)
      linarith
    · refine le_trans ?_ (neg_le_abs _)
      linarith
  · have hj := int_sub_half (k + 1 + (m : ℤ))
    push_cast at hj
    rcases le_abs'.mp hj with hj | hj
    · refine le_trans ?_ (le_abs_self _)
      linarith
    · refine le_trans ?_ (neg_le_abs _)
      linarith

theorem sgn_sq (b : Bool) : sgn b = 1 ∨ sgn b = -1 := by
  cases b
  · left; simp [sgn]
  · right; simp [sgn]

/-- The bounds `rhoLo` and `rhoHi` are sound. -/
theorem rho_bounds (nr : Bool) (ev : Encl) (t : ℝ) (h : ev.Holds t) :
    ((rhoLo nr ev : ℕ) : ℝ) ≤ (kScale : ℝ) * (2 + sgn nr * Real.cos t) ∧
      (kScale : ℝ) * (2 + sgn nr * Real.cos t) ≤ ((rhoHi nr ev : ℕ) : ℝ) := by
  obtain ⟨h1, h2, -, -⟩ := h
  have hN := kScale_pos
  have hc1 := Real.cos_le_one t
  cases nr
  · simp only [rhoLo, rhoHi, sgn, Bool.false_eq_true, if_false]
    push_cast
    constructor <;> linarith
  · simp only [rhoLo, rhoHi, sgn, if_true]
    constructor
    · have := cast_sub_le_of (2 * kScale) ev.ch ((kScale : ℝ) * Real.cos t) h2
        (by push_cast; nlinarith)
      push_cast at this
      linarith
    · have := le_cast_sub_of (2 * kScale) ev.cl ((kScale : ℝ) * Real.cos t) h1
      push_cast at this
      linarith

/-- The bounds `denLo` and `denHi` are sound. -/
theorem den_bounds (nd : Bool) (eu : Encl) (rl rh : ℕ) (t r : ℝ) (h : eu.Holds t)
    (hr1 : (rl : ℝ) ≤ r) (hr2 : r ≤ (rh : ℝ))
    (hpos : 0 ≤ 6 * ((kScale : ℝ) * (kScale : ℝ)) + sgn nd * ((kScale : ℝ) * Real.sin t * r)) :
    ((denLo nd eu rl rh : ℕ) : ℝ)
        ≤ 6 * ((kScale : ℝ) * (kScale : ℝ)) + sgn nd * ((kScale : ℝ) * Real.sin t * r) ∧
      6 * ((kScale : ℝ) * (kScale : ℝ)) + sgn nd * ((kScale : ℝ) * Real.sin t * r)
        ≤ ((denHi nd eu rl rh : ℕ) : ℝ) := by
  obtain ⟨-, hs0⟩ := Holds_nonneg h
  obtain ⟨-, -, h3, h4⟩ := h
  have hN := kScale_pos
  have hS0 : 0 ≤ (kScale : ℝ) * Real.sin t := mul_nonneg hN.le hs0
  have hrl0 : (0 : ℝ) ≤ (rl : ℝ) := Nat.cast_nonneg _
  have hr0 : 0 ≤ r := le_trans hrl0 hr1
  have p1 : (eu.sl : ℝ) * (rl : ℝ) ≤ (kScale : ℝ) * Real.sin t * r :=
    mul_le_mul h3 hr1 hrl0 hS0
  have p2 : (kScale : ℝ) * Real.sin t * r ≤ (eu.sh : ℝ) * (rh : ℝ) :=
    mul_le_mul h4 hr2 hr0 (le_trans hS0 h4)
  cases nd
  · simp only [denLo, denHi, sgn, Bool.false_eq_true, if_false]
    push_cast
    constructor <;> linarith
  · simp only [denLo, denHi, sgn, if_true] at hpos ⊢
    constructor
    · have := cast_sub_le_of (6 * (kScale * kScale)) (eu.sh * rh)
        ((kScale : ℝ) * Real.sin t * r) (by push_cast; exact p2) (by push_cast; linarith)
      push_cast at this
      linarith
    · have := le_cast_sub_of (6 * (kScale * kScale)) (eu.sl * rl)
        ((kScale : ℝ) * Real.sin t * r) (by push_cast; exact p1)
      push_cast at this
      linarith

/-- The cosine and sine of a sample angle are, up to sign, those of an angle `kπ / 50` of
the first quadrant; `k = 25` only for the sample numbers 25 and 75. -/
theorem quadrant (u : ℕ) (hu : u < 100) :
    ∃ (k : ℕ) (bc bs : Bool), k ≤ 25 ∧ (k = 25 → u = 25 ∨ u = 75) ∧
      Real.cos (angle1 u) = sgn bc * Real.cos ((k : ℝ) * (Real.pi / 50)) ∧
      Real.sin (angle1 u) = sgn bs * Real.sin ((k : ℝ) * (Real.pi / 50)) := by
  rcases Nat.lt_or_ge 75 u with h75 | h75
  · refine ⟨100 - u, false, true, by omega, by omega, ?_, ?_⟩
    · have e : angle1 u = 2 * Real.pi - ((100 - u : ℕ) : ℝ) * (Real.pi / 50) := by
        rw [angle1_eq, Nat.cast_sub (by omega)]; push_cast; ring
      rw [e, Real.cos_two_pi_sub]; simp [sgn]
    · have e : angle1 u = 2 * Real.pi - ((100 - u : ℕ) : ℝ) * (Real.pi / 50) := by
        rw [angle1_eq, Nat.cast_sub (by omega)]; push_cast; ring
      rw [e, Real.sin_two_pi_sub]; simp [sgn]
  rcases Nat.lt_or_ge 50 u with h50 | h50
  · refine ⟨u - 50, true, true, by omega, by omega, ?_, ?_⟩
    · have e : angle1 u = ((u - 50 : ℕ) : ℝ) * (Real.pi / 50) + Real.pi := by
        rw [angle1_eq, Nat.cast_sub (by omega)]; push_cast; ring
      rw [e, Real.cos_add_pi]; simp [sgn]
    · have e : angle1 u = ((u - 50 : ℕ) : ℝ) * (Real.pi / 50) + Real.pi := by
        rw [angle1_eq, Nat.cast_sub (by omega)]; push_cast; ring
      rw [e, Real.sin_add_pi]; simp [sgn]
  rcases Nat.lt_or_ge 25 u with h25 | h25
  · refine ⟨50 - u, true, false, by omega, by omega, ?_, ?_⟩
    · have e : angle1 u = Real.pi - ((50 - u : ℕ) : ℝ) * (Real.pi / 50) := by
        rw [angle1_eq, Nat.cast_sub (by omega)]; push_cast; ring
      rw [e, Real.cos_pi_sub]; simp [sgn]
    · have e : angle1 u = Real.pi - ((50 - u : ℕ) : ℝ) * (Real.pi / 50) := by
        rw [angle1_eq, Nat.cast_sub (by omega)]; push_cast; ring
      rw [e, Real.sin_pi_sub]; simp [sgn]
  · refine ⟨u, false, false, by omega, by omega, ?_, ?_⟩
    · have e : angle1 u = (u : ℝ) * (Real.pi / 50) := by rw [angle1_eq]; ring
      rw [e]; simp [sgn]
    · have e : angle1 u = (u : ℝ) * (Real.pi / 50) := by rw [angle1_eq]; ring
      rw [e]; simp [sgn]

theorem angle2_eq_angle1 (v : ℕ) : angle2 v = angle1 v := by
  rw [angle1_eq, angle2_eq]

/-- The projected coordinates of a sample of frame 0 in terms of its two angles. -/
theorem frame0_xy (u v : ℕ) :
    sampleX 0 0 u v = 40 * (Real.cos (angle1 u) * (2 + Real.cos (angle2 v)))
        / (6 + Real.sin (angle1 u) * (2 + Real.cos (angle2 v))) ∧
      sampleY 0 0 u v = 20 * Real.sin (angle2 v)
        / (6 + Real.sin (angle1 u) * (2 + Real.cos (angle2 v))) ∧
      0 < 6 + Real.sin (angle1 u) * (2 + Real.cos (angle2 v)) := by
  have hD := (divisor_bounds 0 0 u v).1
  unfold sampleX sampleY sampleZ
  rw [sampleQ_zero] at hD ⊢
  simp only [torusPoint, kHalfWidth, kWidth, kDistance, kMainRadius, kThicknessRadius,
    kCharacterSizeRatio] at hD ⊢
  rw [mul_one] at hD ⊢
  refine ⟨?_, ?_, by linarith⟩
  · push_cast; ring
  · push_cast; ring

theorem all_pairs {α : Type} (T : List α) (f : α → α → Bool)
    (h : (T.all fun a => T.all fun b => f a b) = true) (a b : α) (ha : a ∈ T) (hb : b ∈ T) :
    f a b = true := by
  rw [List.all_eq_true] at h
  have h1 := h a ha
  rw [List.all_eq_true] at h1
  exact h1 b hb

/-- What the tests of `checkAll` give for one pair of entries and one choice of signs. -/
theorem checkAll_get (pu pv : ℕ × Encl) (hpu : pu ∈ quadTable) (hpv : pv ∈ quadTable)
    (h : checkAll = true) (nr nd : Bool) :
    colOK nr nd pu.2 pv.2 = true ∧ (pu.1 ≠ 25 → rowOK nr nd pu.2 pv.2 = true) := by
  have h2 := all_pairs quadTable (fun pu pv =>
    colOK false false pu.2 pv.2 && colOK false true pu.2 pv.2 &&
      colOK true false pu.2 pv.2 && colOK true true pu.2 pv.2 &&
      (Nat.beq pu.1 25 ||
        (rowOK false false pu.2 pv.2 && rowOK false true pu.2 pv.2 &&
          rowOK true false pu.2 pv.2 && rowOK true true pu.2 pv.2))) h pu pv hpu hpv
  simp only [Bool.and_eq_true, Bool.or_eq_true] at h2
  obtain ⟨⟨⟨⟨c1, c2⟩, c3⟩, c4⟩, r⟩ := h2
  constructor
  · cases nr
    · cases nd
      · exact c1
      · exact c2
    · cases nd
      · exact c3
      · exact c4
  · intro hne
    rcases r with r | r
    · exact absurd (Nat.eq_of_beq_eq_true r) hne
    · obtain ⟨⟨⟨r1, r2⟩, r3⟩, r4⟩ := r
      cases nr
      · cases nd
        · exact r1
        · exact r2
      · cases nd
        · exact r3
        · exact r4

theorem scaled_ratio (N X D ε : ℝ) (m : ℕ) (hN : 0 < N) (hD : 0 < D)
    (h : |N * N * X - 2 * (m : ℝ) * (N * N * D)| ≤ (1 - ε) * (N * N * D)) :
    |X / D - 2 * (m : ℝ)| ≤ 1 - ε := by
  have hND : 0 < N * N * D := mul_pos (mul_pos hN hN) hD
  have e : X / D - 2 * (m : ℝ) = (N * N * X - 2 * (m : ℝ) * (N * N * D)) / (N * N * D) := by
    field_simp
    ring
  rw [e, abs_div, abs_of_pos hND, div_le_iff₀ hND]
  exact h

/-- What the column test gives for the angles it encloses. -/
theorem col_core (eu ev : Encl) (t1 t2 : ℝ) (nr nd : Bool) (hu : eu.Holds t1)
    (hv : ev.Holds t2)
    (hD : 0 < 6 + sgn nd * Real.sin t1 * (2 + sgn nr * Real.cos t2))
    (hk : colOK nr nd eu ev = true) :
    ∃ m : ℕ, |2 * (40 * (Real.cos t1 * (2 + sgn nr * Real.cos t2))
        / (6 + sgn nd * Real.sin t1 * (2 + sgn nr * Real.cos t2))) - 2 * (m : ℝ)|
      ≤ 1 - 2 / 10000 := by
  have hN := kScale_pos
  obtain ⟨hc0, -⟩ := Holds_nonneg hu
  obtain ⟨r1, r2⟩ := rho_bounds nr ev t2 hv
  have hr0 : (0 : ℝ) ≤ (kScale : ℝ) * (2 + sgn nr * Real.cos t2) :=
    le_trans (Nat.cast_nonneg _) r1
  have hpos : 0 ≤ 6 * ((kScale : ℝ) * (kScale : ℝ))
      + sgn nd * ((kScale : ℝ) * Real.sin t1 * ((kScale : ℝ) * (2 + sgn nr * Real.cos t2))) := by
    have : 6 * ((kScale : ℝ) * (kScale : ℝ))
        + sgn nd * ((kScale : ℝ) * Real.sin t1 * ((kScale : ℝ) * (2 + sgn nr * Real.cos t2)))
        = (kScale : ℝ) * (kScale : ℝ)
          * (6 + sgn nd * Real.sin t1 * (2 + sgn nr * Real.cos t2)) := by ring
    rw [this]
    exact (mul_pos (mul_pos hN hN) hD).le
  obtain ⟨d1, d2⟩ := den_bounds nd eu _ _ t1 _ hu r1 r2 hpos
  obtain ⟨u1, u2, -, -⟩ := hu
  have hC0 : 0 ≤ (kScale : ℝ) * Real.cos t1 := mul_nonneg hN.le hc0
  have x1 : ((80 * (eu.cl * rhoLo nr ev) : ℕ) : ℝ)
      ≤ 80 * ((kScale : ℝ) * Real.cos t1 * ((kScale : ℝ) * (2 + sgn nr * Real.cos t2))) := by
    push_cast
    have := mul_le_mul u1 r1 (Nat.cast_nonneg _) hC0
    linarith
  have x2 : 80 * ((kScale : ℝ) * Real.cos t1 * ((kScale : ℝ) * (2 + sgn nr * Real.cos t2)))
      ≤ ((80 * (eu.ch * rhoHi nr ev) : ℕ) : ℝ) := by
    push_cast
    have := mul_le_mul u2 r2 hr0 (le_trans hC0 u2)
    linarith
  obtain ⟨m, hm⟩ := near_sound _ _ _ _ 2 _ _ x1 x2 d1 d2 (by norm_num) hk
  refine ⟨m, ?_⟩
  have e1 : 2 * (40 * (Real.cos t1 * (2 + sgn nr * Real.cos t2))
        / (6 + sgn nd * Real.sin t1 * (2 + sgn nr * Real.cos t2)))
      = (80 * (Real.cos t1 * (2 + sgn nr * Real.cos t2)))
        / (6 + sgn nd * Real.sin t1 * (2 + sgn nr * Real.cos t2)) := by ring
  rw [e1]
  apply scaled_ratio (kScale : ℝ) _ _ _ m hN hD
  have e2 : (kScale : ℝ) * (kScale : ℝ) * (80 * (Real.cos t1 * (2 + sgn nr * Real.cos t2)))
      = 80 * ((kScale : ℝ) * Real.cos t1 * ((kScale : ℝ) * (2 + sgn nr * Real.cos t2))) := by
    ring
  have e3 : (kScale : ℝ) * (kScale : ℝ)
        * (6 + sgn nd * Real.sin t1 * (2 + sgn nr * Real.cos t2))
      = 6 * ((kScale : ℝ) * (kScale : ℝ))
        + sgn nd * ((kScale : ℝ) * Real.sin t1 * ((kScale : ℝ) * (2 + sgn nr * Real.cos t2))) := by
    ring
  rw [e2, e3]
  have e4 : (1 : ℝ) - ((2 : ℕ) : ℝ) / 10000 = 1 - 2 / 10000 := by norm_num
  rw [← e4]
  exact hm

/-- What the row test gives for the angles it encloses. -/
theorem row_core (eu ev : Encl) (t1 t2 : ℝ) (nr nd : Bool) (hu : eu.Holds t1)
    (hv : ev.Holds t2)
    (hD : 0 < 6 + sgn nd * Real.sin t1 * (2 + sgn nr * Real.cos t2))
    (hk : rowOK nr nd eu ev = true) :
    ∃ m : ℕ, |2 * (20 * Real.sin t2
        / (6 + sgn nd * Real.sin t1 * (2 + sgn nr * Real.cos t2))) - 2 * (m : ℝ)|
      ≤ 1 - 1 / 10000 := by
  have hN := kScale_pos
  obtain ⟨r1, r2⟩ := rho_bounds nr ev t2 hv
  have hpos : 0 ≤ 6 * ((kScale : ℝ) * (kScale : ℝ))
      + sgn nd * ((kScale : ℝ) * Real.sin t1 * ((kScale : ℝ) * (2 + sgn nr * Real.cos t2))) := by
    have : 6 * ((kScale : ℝ) * (kScale : ℝ))
        + sgn nd * ((kScale : ℝ) * Real.sin t1 * ((kScale : ℝ) * (2 + sgn nr * Real.cos t2)))
        = (kScale : ℝ) * (kScale : ℝ)
          * (6 + sgn nd * Real.sin t1 * (2 + sgn nr * Real.cos t2)) := by ring
    rw [this]
    exact (mul_pos (mul_pos hN hN) hD).le
  obtain ⟨d1, d2⟩ := den_bounds nd eu _ _ t1 _ hu r1 r2 hpos
  obtain ⟨-, -, v3, v4⟩ := hv
  have x1 : ((40 * (kScale * ev.sl) : ℕ) : ℝ)
      ≤ 40 * ((kScale : ℝ) * ((kScale : ℝ) * Real.sin t2)) := by
    push_cast
    have := mul_le_mul_of_nonneg_left v3 hN.le
    linarith
  have x2 : 40 * ((kScale : ℝ) * ((kScale : ℝ) * Real.sin t2))
      ≤ ((40 * (kScale * ev.sh) : ℕ) : ℝ) := by
    push_cast
    have := mul_le_mul_of_nonneg_left v4 hN.le
    linarith
  obtain ⟨m, hm⟩ := near_sound _ _ _ _ 1 _ _ x1 x2 d1 d2 (by norm_num) hk
  refine ⟨m, ?_⟩
  have e1 : 2 * (20 * Real.sin t2
        / (6 + sgn nd * Real.sin t1 * (2 + sgn nr * Real.cos t2)))
      = (40 * Real.sin t2)
        / (6 + sgn nd * Real.sin t1 * (2 + sgn nr * Real.cos t2)) := by ring
  rw [e1]
  apply scaled_ratio (kScale : ℝ) _ _ _ m hN hD
  have e2 : (kScale : ℝ) * (kScale : ℝ) * (40 * Real.sin t2)
      = 40 * ((kScale : ℝ) * ((kScale : ℝ) * Real.sin t2)) := by ring
  have e3 : (kScale : ℝ) * (kScale : ℝ)
        * (6 + sgn nd * Real.sin t1 * (2 + sgn nr * Real.cos t2))
      = 6 * ((kScale : ℝ) * (kScale : ℝ))
        + sgn nd * ((kScale : ℝ) * Real.sin t1 * ((kScale : ℝ) * (2 + sgn nr * Real.cos t2))) := by
    ring
  rw [e2, e3]
  have e4 : (1 : ℝ) - ((1 : ℕ) : ℝ) / 10000 = 1 - 1 / 10000 := by norm_num
  rw [← e4]
  exact hm

set_option maxRecDepth 100000 in
theorem checkAll_ok : checkAll = true := by decide!

/-- In frame 0 the horizontal offset `x` of every sample keeps the distance `1 / 10000`
from the midpoints between integers. -/
theorem col_margin (u v : ℕ) (hu : u < 100) (hv : v < 100) (k : ℤ) :
    1 / 10000 ≤ |sampleX 0 0 u v - ((k : ℝ) + 1 / 2)| := by
  obtain ⟨ku, bcu, bsu, hku, -, hcu, hsu⟩ := quadrant u hu
  obtain ⟨kv, bcv, bsv, hkv, -, hcv, -⟩ := quadrant v hv
  obtain ⟨pu, hpu, -, hHu⟩ := quadTable_get ku hku
  obtain ⟨pv, hpv, -, hHv⟩ := quadTable_get kv hkv
  obtain ⟨hx, -, hD⟩ := frame0_xy u v
  rw [angle2_eq_angle1, hcu, hsu, hcv] at hx
  rw [angle2_eq_angle1, hsu, hcv] at hD
  have hcol := (checkAll_get pu pv hpu hpv checkAll_ok bcv bsu).1
  obtain ⟨m, hm⟩ := col_core pu.2 pv.2 _ _ bcv bsu hHu hHv hD hcol
  have hx' : sampleX 0 0 u v
        = 40 * (Real.cos ((ku : ℝ) * (Real.pi / 50))
            * (2 + sgn bcv * Real.cos ((kv : ℝ) * (Real.pi / 50))))
          / (6 + sgn bsu * Real.sin ((ku : ℝ) * (Real.pi / 50))
            * (2 + sgn bcv * Real.cos ((kv : ℝ) * (Real.pi / 50))))
      ∨ sampleX 0 0 u v
        = -(40 * (Real.cos ((ku : ℝ) * (Real.pi / 50))
            * (2 + sgn bcv * Real.cos ((kv : ℝ) * (Real.pi / 50))))
          / (6 + sgn bsu * Real.sin ((ku : ℝ) * (Real.pi / 50))
            * (2 + sgn bcv * Real.cos ((kv : ℝ) * (Real.pi / 50))))) := by
    rcases sgn_sq bcu with h | h
    · left; rw [hx, h]; ring
    · right; rw [hx, h]; ring
  have := half_gap _ (2 / 10000) _ m hm hx' k
  linarith

/-- In frame 0 the vertical position `11 - y` of every sample off the plane `x = 0` keeps
the distance `1 / 20000` from the midpoints between integers. -/
theorem row_margin (u v : ℕ) (hu : u < 100) (hv : v < 100) (h25 : u ≠ 25) (h75 : u ≠ 75)
    (k : ℤ) : 1 / 20000 ≤ |kHalfHeight - sampleY 0 0 u v - ((k : ℝ) + 1 / 2)| := by
  obtain ⟨ku, bcu, bsu, hku, hk25, -, hsu⟩ := quadrant u hu
  obtain ⟨kv, bcv, bsv, hkv, -, hcv, hsv⟩ := quadrant v hv
  obtain ⟨pu, hpu, hpu1, hHu⟩ := quadTable_get ku hku
  obtain ⟨pv, hpv, -, hHv⟩ := quadTable_get kv hkv
  obtain ⟨-, hy, hD⟩ := frame0_xy u v
  rw [angle2_eq_angle1, hsu, hcv, hsv] at hy
  rw [angle2_eq_angle1, hsu, hcv] at hD
  have hne : pu.1 ≠ 25 := by
    rw [hpu1]
    intro h
    rcases hk25 h with h | h
    · exact h25 h
    · exact h75 h
  have hrow := (checkAll_get pu pv hpu hpv checkAll_ok bcv bsu).2 hne
  obtain ⟨m, hm⟩ := row_core pu.2 pv.2 _ _ bcv bsu hHu hHv hD hrow
  have hy' : -sampleY 0 0 u v
        = 20 * Real.sin ((kv : ℝ) * (Real.pi / 50))
          / (6 + sgn bsu * Real.sin ((ku : ℝ) * (Real.pi / 50))
            * (2 + sgn bcv * Real.cos ((kv : ℝ) * (Real.pi / 50))))
      ∨ -sampleY 0 0 u v
        = -(20 * Real.sin ((kv : ℝ) * (Real.pi / 50))
          / (6 + sgn bsu * Real.sin ((ku : ℝ) * (Real.pi / 50))
            * (2 + sgn bcv * Real.cos ((kv : ℝ) * (Real.pi / 50))))) := by
    rcases sgn_sq bsv with h | h
    · right; rw [hy, h]; ring
    · left; rw [hy, h]; ring
  have := half_gap _ (1 / 10000) _ m hm hy' (k - 11)
  have e : kHalfHeight - sampleY 0 0 u v - ((k : ℝ) + 1 / 2)
      = -sampleY 0 0 u v - ((((k - 11 : ℤ)) : ℝ) + 1 / 2) := by
    unfold kHalfHeight kHeight
    push_cast
    ring
  rw [e]
  linarith

theorem sampleX_no_tie (u v : ℕ) (hu : u < 100) (hv : v < 100) (k : ℤ) :
    sampleX 0 0 u v ≠ (k : ℝ) + 1 / 2 := by
  intro h
  have := col_margin u v hu hv k
  rw [h, sub_self, abs_zero] at this
  norm_num at this

/-- In frame 0 the mirror sample of a sample that projects to a cell projects to the
mirrored cell. -/
theorem hits_mirror (a : Fin kHeight) (b b2 : Fin kWidth) (hb : (b : ℕ) + (b2 : ℕ) = 80)
    (s : ℕ × ℕ) (hu : s.1 < kMaxU) (hv : s.2 < kMaxV) (h : Hits 0 0 a b s) :
    Hits 0 0 a b2 ((150 - s.1) % 100, s.2) := by
  obtain ⟨-, -, hI, -, hJ⟩ := mirror_geometry s.1 s.2 hu
  have hJ' := hJ (sampleX_no_tie s.1 s.2 hu hv)
  obtain ⟨h1, h2⟩ := h
  refine ⟨?_, ?_⟩
  · show sampleI 0 0 ((150 - s.1) % 100) s.2 = _
    rw [hI, h1]
  · show sampleJ 0 0 ((150 - s.1) % 100) s.2 = _
    rw [hJ', h2]
    have : ((b2 : ℕ) : ℤ) = 80 - ((b : ℕ) : ℤ) := by omega
    rw [this]

/-- A cell of a frame is blank exactly when no sample projects to it. -/
theorem renderFrame_blank_iff (ax ay : ℝ) (a : Fin kHeight) (b : Fin kWidth) :
    (renderFrame ax ay).screen a b = ' ' ↔
      ¬ ∃ s : ℕ × ℕ, s.1 < kMaxU ∧ s.2 < kMaxV ∧ Hits ax ay a b s := by
  constructor
  · intro hblank hex
    obtain ⟨s, -, hg⟩ := renderFrame_glyph_of_hit ax ay a b hex
    have hmem := sampleGlyph_mem ax ay s.1 s.2
    rw [← hg, hblank] at hmem
    exact absurd hmem (by decide)
  · intro hno
    apply renderFrame_blank
    intro s hu hv hs
    exact absurd ⟨s, hu, hv, hs⟩ hno

/-- The occupied cells of frame 0 are mirror images of each other. -/
theorem frame0_blank_mirror (a : Fin kHeight) (b b2 : Fin kWidth)
    (hb : (b : ℕ) + (b2 : ℕ) = 80) (h : (renderFrame 0 0).screen a b2 = ' ') :
    (renderFrame 0 0).screen a b = ' ' := by
  rw [renderFrame_blank_iff] at h ⊢
  rintro ⟨s, hu, hv, hs⟩
  apply h
  have hm := (mirror_geometry s.1 s.2 hu).1
  exact ⟨((150 - s.1) % 100, s.2), hm, hv, hits_mirror a b b2 hb s hu hv hs⟩

theorem frame0_ends_drawn :
    (renderFrame 0 0).screen ⟨11, by decide⟩ ⟨17, by decide⟩ ≠ ' ' ∧
      (renderFrame 0 0).screen ⟨11, by decide⟩ ⟨63, by decide⟩ ≠ ' ' := by
  constructor
  · intro h
    rw [renderFrame_blank_iff] at h
    exact h ⟨(58, 0), by decide, by decide, sampleI_58, sampleJ_58⟩
  · intro h
    rw [renderFrame_blank_iff] at h
    exact h ⟨(92, 0), by decide, by decide, sampleI_92, sampleJ_92⟩

/-! ## The claims -/

/-- C3: `Rotate p ax ay` is the rotation by `ax` on the `(y, z)` coordinates (`x`
unchanged) followed by the rotation by `ay` on the `(x, z)` coordinates (`y` unchanged),
and the order matters: for some point and angles the two elementary rotations applied
in the other order give another point.  The two maps are rotations of their coordinate
plane: each keeps the third coordinate and the length in the plane, and their angles
add up under composition. -/
theorem C3_Rotate_is_ordered_composition :
    (∀ (p : Point) (ax ay : ℝ), p.Rotate ax ay = (p.rotateYZ ax).rotateXZ ay) ∧
      (∃ (p : Point) (ax ay : ℝ), (p.rotateXZ ay).rotateYZ ax ≠ p.Rotate ax ay) ∧
      (∀ (p : Point) (a b : ℝ),
        (p.rotateYZ a).x = p.x ∧
        (p.rotateYZ a).y ^ 2 + (p.rotateYZ a).z ^ 2 = p.y ^ 2 + p.z ^ 2 ∧
        (p.rotateYZ a).rotateYZ b = p.rotateYZ (a + b)) ∧
      (∀ (p : Point) (a b : ℝ),
        (p.rotateXZ a).y = p.y ∧
        (p.rotateXZ a).x ^ 2 + (p.rotateXZ a).z ^ 2 = p.x ^ 2 + p.z ^ 2 ∧
        (p.rotateXZ a).rotateXZ b = p.rotateXZ (a + b)) := by
  refine ⟨fun p ax ay => rfl, ⟨⟨1, 0, 0⟩, Real.pi / 2, Real.pi / 2, ?_⟩,
    fun p a b => ⟨rfl, rotateYZ_plane_sq p a, rotateYZ_add p a b⟩,
    fun p a b => ⟨rfl, rotateXZ_plane_sq p a, rotateXZ_add p a b⟩⟩
  intro h
  have hy := congrArg Point.y h
  simp [Point.Rotate, Point.rotateXZ, Point.rotateYZ] at hy

/-- C5 (as stated, refuted): the program's own light direction, taken as the normal,
has computed length exactly 1.0, yet its computed dot product with the light is
`1 + 2 ^ (-52)`, outside the domain of `std::acos`: the brightness is a NaN and no
glyph index in `[0, 12]` is produced. -/
theorem C5_unit_normal_outside_domain :
    normalized_light64.magnitude = F64.fin 1 ∧
      normalized_light64.Dot normalized_light64 = F64.fin (1 + 1 / 2 ^ 52) ∧
      brightness64 (normalized_light64.Dot normalized_light64) = none ∧
      ¬ ∃ k : ℤ, glyphIndex64 (normalized_light64.Dot normalized_light64) = some k ∧
        0 ≤ k ∧ k ≤ 12 := by
  have hb : brightness64 (normalized_light64.Dot normalized_light64) = none := by
    rw [normalized_light64_dot_self]
    apply brightness64_of_not_mem
    rintro ⟨-, h⟩
    have : (0 : ℚ) < 1 / 2 ^ 52 := by positivity
    linarith
  refine ⟨normalized_light64_magnitude, normalized_light64_dot_self, hb, ?_⟩
  rintro ⟨k, hk, -⟩
  unfold glyphIndex64 at hk
  rw [hb] at hk
  exact absurd hk (by simp)

/-- C5 (amended): for a normal `n` and a light direction `l` whose dot product, computed
in doubles, is the finite value `d`: if `d` lies in `[-1, 1]` the brightness
`arccos(d) / π` is defined and lies in `[0, 1]`, and the glyph index
`floor(brightness * 12)` lies in `[0, 12]`, inside the 13-glyph ramp; if `d` lies outside
`[-1, 1]` the brightness is a NaN and no index is defined (the code has no clamp). -/
theorem C5_shading_bounds_in_domain (n l : Point64) (d : ℚ) (hd : n.Dot l = F64.fin d) :
    ((-1 ≤ d ∧ d ≤ 1) →
      ∃ b : ℝ, brightness64 (n.Dot l) = some b ∧ 0 ≤ b ∧ b ≤ 1 ∧
        glyphIndex64 (n.Dot l) = some (glyphIndex b) ∧
        0 ≤ glyphIndex b ∧ glyphIndex b ≤ 12 ∧ (glyphIndex b).toNat < ramp.length) ∧
    (¬ (-1 ≤ d ∧ d ≤ 1) →
      brightness64 (n.Dot l) = none ∧ glyphIndex64 (n.Dot l) = none) := by
  rw [hd]
  constructor
  · rintro ⟨h1, h2⟩
    obtain ⟨b0, b1⟩ := arccos_div_PI_mem (d : ℝ)
    have hb := brightness64_of_mem h1 h2
    have i0 := glyphIndex_nonneg b0
    have i1 := glyphIndex_le b1
    refine ⟨_, hb, b0, b1, ?_, i0, i1, ?_⟩
    · unfold glyphIndex64
      rw [hb]
      rfl
    · have : ramp.length = 13 := rfl
      rw [this]
      omega
  · intro h
    have hb := brightness64_of_not_mem h
    refine ⟨hb, ?_⟩
    unfold glyphIndex64
    rw [hb]
    rfl

/-- The amended C5 at the normal `(1, 0, 0)` and the light `(0, 1, 0)`, whose computed
dot product is 0. -/
theorem C5_shading_bounds_in_domain_witness :
    (Point64.mk (F64.fin 1) (F64.fin 0) (F64.fin 0)).Dot
        (Point64.mk (F64.fin 0) (F64.fin 1) (F64.fin 0)) = F64.fin 0 ∧
      ∃ b : ℝ, brightness64 ((Point64.mk (F64.fin 1) (F64.fin 0) (F64.fin 0)).Dot
          (Point64.mk (F64.fin 0) (F64.fin 1) (F64.fin 0))) = some b ∧ 0 ≤ b ∧ b ≤ 1 ∧
        glyphIndex64 ((Point64.mk (F64.fin 1) (F64.fin 0) (F64.fin 0)).Dot
          (Point64.mk (F64.fin 0) (F64.fin 1) (F64.fin 0))) = some (glyphIndex b) ∧
        0 ≤ glyphIndex b ∧ glyphIndex b ≤ 12 ∧ (glyphIndex b).toNat < ramp.length :=
  ⟨unit_x_dot_unit_y64,
    (C5_shading_bounds_in_domain _ _ 0 unit_x_dot_unit_y64).1 ⟨by norm_num, by norm_num⟩⟩

/-- C6: after the sampling loop of one frame every screen cell `(a, b)` holds the glyph
of the nearest sample that mapped to it.  If no sample with positive inverse depth
projects to the cell it is blank (character 32).  Otherwise some sample projecting to it
has the largest inverse depth and is the earliest in iteration order (`u` outer, `v`
inner) of those that have it, and the cell holds the glyph shaded from any such sample. -/
theorem C6_cell_holds_nearest_sample (ax ay : ℝ) (a : Fin kHeight) (b : Fin kWidth) :
    ((∀ s : ℕ × ℕ, s.1 < kMaxU → s.2 < kMaxV → Hits ax ay a b s →
          sampleZ ax ay s.1 s.2 ≤ 0) →
        (renderFrame ax ay).screen a b = Char.ofNat 32) ∧
      ((∃ s : ℕ × ℕ, s.1 < kMaxU ∧ s.2 < kMaxV ∧ Hits ax ay a b s ∧
          0 < sampleZ ax ay s.1 s.2) →
        ∃ s : ℕ × ℕ,
          (s.1 < kMaxU ∧ s.2 < kMaxV ∧ Hits ax ay a b s ∧ 0 < sampleZ ax ay s.1 s.2) ∧
          (∀ t : ℕ × ℕ, t.1 < kMaxU → t.2 < kMaxV → Hits ax ay a b t →
            sampleZ ax ay t.1 t.2 ≤ sampleZ ax ay s.1 s.2) ∧
          (∀ t : ℕ × ℕ, t.1 < kMaxU → t.2 < kMaxV → Hits ax ay a b t → Before t s →
            sampleZ ax ay t.1 t.2 < sampleZ ax ay s.1 s.2)) ∧
      (∀ s : ℕ × ℕ, s.1 < kMaxU → s.2 < kMaxV → Hits ax ay a b s →
        0 < sampleZ ax ay s.1 s.2 →
        (∀ t : ℕ × ℕ, t.1 < kMaxU → t.2 < kMaxV → Hits ax ay a b t →
          sampleZ ax ay t.1 t.2 ≤ sampleZ ax ay s.1 s.2) →
        (∀ t : ℕ × ℕ, t.1 < kMaxU → t.2 < kMaxV → Hits ax ay a b t → Before t s →
          sampleZ ax ay t.1 t.2 < sampleZ ax ay s.1 s.2) →
        (renderFrame ax ay).screen a b = sampleGlyph ax ay s.1 s.2) :=
  ⟨renderFrame_blank ax ay a b, renderFrame_exists_winner ax ay a b,
    fun s hu hv hs hpos hmax hfirst =>
      (renderFrame_winner ax ay a b s hu hv hs hpos hmax hfirst).1⟩

/-- C7: processing one sample changes the frame buffer in at most the single cell it
projects to, and a sample whose `(i, j)` falls outside `[0, 22) × [0, 80)` leaves both
the character grid and the depth grid entirely unchanged. -/
theorem C7_culling (ax ay : ℝ) (fb : FrameBuffer) (u v : ℕ) :
    (∀ (c : Fin kHeight) (d : Fin kWidth),
        ¬(sampleI ax ay u v = ((c : ℕ) : ℤ) ∧ sampleJ ax ay u v = ((d : ℕ) : ℤ)) →
        (sampleStep ax ay fb u v).screen c d = fb.screen c d ∧
          (sampleStep ax ay fb u v).z_buffer c d = fb.z_buffer c d) ∧
      (¬(0 ≤ sampleI ax ay u v ∧ sampleI ax ay u v < 22 ∧
          0 ≤ sampleJ ax ay u v ∧ sampleJ ax ay u v < 80) →
        sampleStep ax ay fb u v = fb) :=
  ⟨fun c d h => plot_other fb _ _ _ _ c d h,
    fun h => plot_of_none fb _ _ _ _ ((cellOf_eq_none_iff _ _).mpr h)⟩

/-- The statement of C7 at a culled sample: at `ax = π/3 + π`, `ay = 0` the sample
`(25, 0)` projects to row 23, below the screen, and leaves the reset buffer as it is. -/
theorem C7_culling_witness :
    ¬(0 ≤ sampleI (Real.pi / 3 + Real.pi) 0 25 0 ∧ sampleI (Real.pi / 3 + Real.pi) 0 25 0 < 22 ∧
        0 ≤ sampleJ (Real.pi / 3 + Real.pi) 0 25 0 ∧
        sampleJ (Real.pi / 3 + Real.pi) 0 25 0 < 80) ∧
      sampleStep (Real.pi / 3 + Real.pi) 0 FrameBuffer.reset 25 0 = FrameBuffer.reset :=
  have hout : ¬(0 ≤ sampleI (Real.pi / 3 + Real.pi) 0 25 0 ∧
      sampleI (Real.pi / 3 + Real.pi) 0 25 0 < 22 ∧
      0 ≤ sampleJ (Real.pi / 3 + Real.pi) 0 25 0 ∧
      sampleJ (Real.pi / 3 + Real.pi) 0 25 0 < 80) := by
    rw [sampleI_culled]
    omega
  ⟨hout, (C7_culling (Real.pi / 3 + Real.pi) 0 FrameBuffer.reset 25 0).2 hout⟩

/-- C10 (as stated, refuted): at `ax = ay = 0` the character grid is not symmetric about
its centre column.  On row 11 the glyph at column 17 differs from the glyph at the
mirrored column `63 = 80 - 17`: the light `(-1, -1, 2)` comes from the left, so column 17
holds a glyph of index at most 7 and column 63 one of index at least 8. -/
theorem C10_frame0_not_symmetric :
    (renderFrame 0 0).screen ⟨11, by decide⟩ ⟨17, by decide⟩
        ≠ (renderFrame 0 0).screen ⟨11, by decide⟩ ⟨63, by decide⟩ ∧
      ¬ ∀ (i : Fin kHeight) (j j' : Fin kWidth), (j : ℕ) + (j' : ℕ) = 80 →
        (renderFrame 0 0).screen i j = (renderFrame 0 0).screen i j' :=
  ⟨frame0_left_right, fun h =>
    frame0_left_right (h ⟨11, by decide⟩ ⟨17, by decide⟩ ⟨63, by decide⟩ rfl)⟩

/-- C10 (amended): in frame 0 (`ax = ay = 0`) the set of drawn cells of the character
grid is symmetric about the centre column 40: for every row `i` and columns `j`, `j'`
with `j + j' = 80`, the cell `(i, j)` is blank exactly when the cell `(i, j')` is; the
cells `(11, 17)` and `(11, 63)` are drawn.  (The glyphs of mirrored cells differ in
general, the light coming from one side.)  The symmetry does not hang on the last place
of a coordinate: the argument `x + 40` of the column's `std::round` keeps the distance
`1 / 10000` from every midpoint between two integers, and so does, by `1 / 20000`, the
argument `11 - y` of the row's `std::round` for every sample that is not its own mirror
image (`u` other than 25 and 75). -/
theorem C10_frame0_drawn_cells_symmetric :
    (∀ (i : Fin kHeight) (j j' : Fin kWidth), (j : ℕ) + (j' : ℕ) = 80 →
      ((renderFrame 0 0).screen i j = ' ' ↔ (renderFrame 0 0).screen i j' = ' ')) ∧
    (renderFrame 0 0).screen ⟨11, by decide⟩ ⟨17, by decide⟩ ≠ ' ' ∧
    (renderFrame 0 0).screen ⟨11, by decide⟩ ⟨63, by decide⟩ ≠ ' ' ∧
    (∀ (u v : ℕ), u < kMaxU → v < kMaxV → ∀ k : ℤ,
      1 / 10000 ≤ |sampleX 0 0 u v + kHalfWidth - ((k : ℝ) + 1 / 2)|) ∧
    (∀ (u v : ℕ), u < kMaxU → v < kMaxV → u ≠ 25 → u ≠ 75 → ∀ k : ℤ,
      1 / 20000 ≤ |kHalfHeight - sampleY 0 0 u v - ((k : ℝ) + 1 / 2)|) := by
  refine ⟨?_, frame0_ends_drawn.1, frame0_ends_drawn.2, ?_, ?_⟩
  · intro i j j' h
    exact ⟨frame0_blank_mirror i j' j (by omega), frame0_blank_mirror i j j' h⟩
  · intro u v hu hv k
    have := col_margin u v hu hv (k - 40)
    have e : sampleX 0 0 u v + kHalfWidth - ((k : ℝ) + 1 / 2)
        = sampleX 0 0 u v - ((((k - 40 : ℤ)) : ℝ) + 1 / 2) := by
      unfold kHalfWidth kWidth
      push_cast
      ring
    rw [e]
    exact this
  · intro u v hu hv h25 h75 k
    exact row_margin u v hu hv h25 h75 k

/-- C11 (the code's increments): each frame adds `kXSpeed / 3 = 1/10` to `ax` and
`kYSpeed / 3 = -1/15` to `ay`.  These are not the speeds divided by the frame rate of
about 30 frames per second: they are ten times `0.3 / 30` and `-0.2 / 30`, so thirty
frames turn the angles by 3 and -2 radians. -/
theorem C11_increments_are_speed_over_three :
    (∀ a : ℝ × ℝ, nextAngles a = (a.1 + 1 / 10, a.2 + -(1 / 15))) ∧
      (kXDelta = kXSpeed / 3 ∧ kYDelta = kYSpeed / 3) ∧
      (kXDelta ≠ kXSpeed / 30 ∧ kYDelta ≠ kYSpeed / 30) ∧
      (kXDelta * 30 = 3 ∧ kYDelta * 30 = -2) :=
  delta_values

/-- C13: the grids of a frame depend on the two angles alone.  Whatever the two arrays
hold when a pass of the main loop begins, the reset loops leave every cell blank with
depth 0, so two passes at the same `(ax, ay)` give the same grids, equal to those the
sampling loop gives from a reset buffer. -/
theorem C13_frame_depends_on_angles_only (ax ay : ℝ) (prev₁ prev₂ : FrameBuffer) :
    resetLoop prev₁ = FrameBuffer.reset ∧
      frameFrom prev₁ ax ay = frameFrom prev₂ ax ay ∧
      frameFrom prev₁ ax ay = samplingLoop ax ay FrameBuffer.reset ∧
      (∀ (a : Fin kHeight) (b : Fin kWidth),
        (frameFrom prev₁ ax ay).screen a b = (frameFrom prev₂ ax ay).screen a b) := by
  have h1 := frameFrom_eq prev₁ ax ay
  have h2 := frameFrom_eq prev₂ ax ay
  refine ⟨resetLoop_eq prev₁, h1.trans h2.symm, h1, fun a b => ?_⟩
  rw [h1, h2]

/-- C14: during a frame the depth grid only improves.  Processing a sample leaves every
depth cell at least what it was; a cell whose glyph or depth changes is the cell the
sample projects to, the sample's inverse depth is strictly greater than the stored one,
and both glyph and depth are then the sample's; and at the end of the frame the depth
of a cell is the greatest of 0 and the inverse depths of the samples projecting to it. -/
theorem C14_depth_only_improves (ax ay : ℝ) (fb : FrameBuffer) (u v : ℕ)
    (a : Fin kHeight) (b : Fin kWidth) :
    fb.z_buffer a b ≤ (sampleStep ax ay fb u v).z_buffer a b ∧
      (((sampleStep ax ay fb u v).screen a b ≠ fb.screen a b ∨
          (sampleStep ax ay fb u v).z_buffer a b ≠ fb.z_buffer a b) →
        Hits ax ay a b (u, v) ∧ fb.z_buffer a b < sampleZ ax ay u v ∧
          (sampleStep ax ay fb u v).screen a b = sampleGlyph ax ay u v ∧
          (sampleStep ax ay fb u v).z_buffer a b = sampleZ ax ay u v) ∧
      (Hits ax ay a b (u, v) → fb.z_buffer a b < sampleZ ax ay u v →
        (sampleStep ax ay fb u v).screen a b = sampleGlyph ax ay u v ∧
          (sampleStep ax ay fb u v).z_buffer a b = sampleZ ax ay u v) ∧
      IsGreatest
        (insert (0 : ℝ) {z | ∃ s : ℕ × ℕ, s.1 < kMaxU ∧ s.2 < kMaxV ∧ Hits ax ay a b s ∧
          z = sampleZ ax ay s.1 s.2})
        ((renderFrame ax ay).z_buffer a b) :=
  ⟨sampleStep_depth_mono ax ay fb (u, v) a b, sampleStep_change ax ay fb (u, v) a b,
    sampleStep_hit_gt ax ay fb (u, v) a b, renderFrame_depth_isGreatest ax ay a b⟩

/-- C15 (as stated, refuted): the vector `(2 ^ 600, 0, 0)` has a nonzero computed
magnitude (`x * x` overflows to `+inf`), and `Normalize` returns `(0, 0, 0)`, of length 0;
for the nonzero vector `(2 ^ (-600), 0, 0)` the square underflows, the computed magnitude
is 0 and `Normalize` returns `(+inf, NaN, NaN)`; and the computed squared length of the
program's normalized light is `1 + 2 ^ (-52)`, not 1. -/
theorem C15_Normalize_not_unit :
    (Point64.mk (F64.fin (2 ^ 600)) (F64.fin 0) (F64.fin 0)).magnitude = F64.inf false ∧
      (Point64.mk (F64.fin (2 ^ 600)) (F64.fin 0) (F64.fin 0)).Normalize
        = Point64.mk (F64.fin 0) (F64.fin 0) (F64.fin 0) ∧
      (Point64.mk (F64.fin (2 ^ 600)) (F64.fin 0) (F64.fin 0)).Normalize.magnitude
        ≠ F64.fin 1 ∧
      (Point64.mk (F64.fin (1 / 2 ^ 600)) (F64.fin 0) (F64.fin 0)).Normalize
        = Point64.mk (F64.inf false) F64.nan F64.nan ∧
      normalized_light64.Dot normalized_light64 ≠ F64.fin 1 := by
  refine ⟨Normalize64_overflow.1, Normalize64_overflow.2, ?_, Normalize64_underflow.2, ?_⟩
  · rw [Normalize64_overflow.2, zero64_magnitude]
    intro h
    exact absurd (F64.fin.inj h) (by norm_num)
  · rw [normalized_light64_dot_self]
    intro h
    exact absurd (F64.fin.inj h) (by norm_num)

/-- C15 (amended): for a vector whose coordinates are zero or of magnitude in
`[2 ^ (-500), 2 ^ 500]`, not all zero, the computed magnitude `m` is finite, positive and
within the relative error `2 ^ (-51)` of the length; `Normalize` returns the three
quotients by `m`, each rounded with relative error at most `2 ^ (-53)` (so of the sign
of the input coordinate), and the length of the result is within `2 ^ (-51)` of 1.  The
light direction used by the shader is the vector of doubles
`(-7354347395230783 / 2 ^ 54, -7354347395230783 / 2 ^ 54, 7354347395230783 / 2 ^ 53)`,
the quotients of `(-1, -1, 2)` by the double `2757880273211543 / 2 ^ 50` nearest to `√6`,
and its computed length is exactly 1.0. -/
theorem C15_Normalize_nearly_unit (x y z : ℚ)
    (hx : x = 0 ∨ (1 / 2 ^ 500 ≤ abs x ∧ abs x ≤ 2 ^ 500))
    (hy : y = 0 ∨ (1 / 2 ^ 500 ≤ abs y ∧ abs y ≤ 2 ^ 500))
    (hz : z = 0 ∨ (1 / 2 ^ 500 ≤ abs z ∧ abs z ≤ 2 ^ 500))
    (hne : x ≠ 0 ∨ y ≠ 0 ∨ z ≠ 0) :
    (∃ m rx ry rz : ℚ,
      (Point64.mk (F64.fin x) (F64.fin y) (F64.fin z)).magnitude = F64.fin m ∧ 0 < m ∧
      (Point64.mk (F64.fin x) (F64.fin y) (F64.fin z)).Normalize
        = Point64.mk (F64.fin rx) (F64.fin ry) (F64.fin rz) ∧
      |(m : ℝ) - Real.sqrt ((x * x + y * y + z * z : ℚ) : ℝ)|
        ≤ Real.sqrt ((x * x + y * y + z * z : ℚ) : ℝ) * (1 / 2 ^ 51) ∧
      abs (rx - x / m) ≤ abs (x / m) * (1 / 2 ^ 53) ∧
      abs (ry - y / m) ≤ abs (y / m) * (1 / 2 ^ 53) ∧
      abs (rz - z / m) ≤ abs (z / m) * (1 / 2 ^ 53) ∧
      |Real.sqrt ((rx * rx + ry * ry + rz * rz : ℚ) : ℝ) - 1| ≤ 1 / 2 ^ 51) ∧
    kLight64.magnitude = F64.fin (2757880273211543 / 2 ^ 50) ∧
    normalized_light64 = { x := F64.fin (-7354347395230783 / 2 ^ 54)
                           y := F64.fin (-7354347395230783 / 2 ^ 54)
                           z := F64.fin (7354347395230783 / 2 ^ 53) } ∧
    normalized_light64.magnitude = F64.fin 1 :=
  ⟨Normalize64_spec x y z hx hy hz hne, kLight64_magnitude, normalized_light64_eq,
    normalized_light64_magnitude⟩

/-- The amended C15 at the light vector `(-1, -1, 2)`. -/
theorem C15_Normalize_nearly_unit_witness :
    ∃ m rx ry rz : ℚ,
      (Point64.mk (F64.fin (-1)) (F64.fin (-1)) (F64.fin 2)).magnitude = F64.fin m ∧ 0 < m ∧
      (Point64.mk (F64.fin (-1)) (F64.fin (-1)) (F64.fin 2)).Normalize
        = Point64.mk (F64.fin rx) (F64.fin ry) (F64.fin rz) ∧
      |(m : ℝ) - Real.sqrt (((-1) * (-1) + (-1) * (-1) + 2 * 2 : ℚ) : ℝ)|
        ≤ Real.sqrt (((-1) * (-1) + (-1) * (-1) + 2 * 2 : ℚ) : ℝ) * (1 / 2 ^ 51) ∧
      abs (rx - (-1) / m) ≤ abs ((-1) / m) * (1 / 2 ^ 53) ∧
      abs (ry - (-1) / m) ≤ abs ((-1) / m) * (1 / 2 ^ 53) ∧
      abs (rz - 2 / m) ≤ abs (2 / m) * (1 / 2 ^ 53) ∧
      |Real.sqrt ((rx * rx + ry * ry + rz * rz : ℚ) : ℝ) - 1| ≤ 1 / 2 ^ 51 :=
  (C15_Normalize_nearly_unit (-1) (-1) 2
    (Or.inr (by rw [abs_neg, abs_one]; exact moderate_one))
    (Or.inr (by rw [abs_neg, abs_one]; exact moderate_one))
    (Or.inr (by rw [abs_two]; exact moderate_two))
    (Or.inl (by norm_num))).1

/-- C17: the sampling loop is idempotent on its own result: run a second time at the
same `(ax, ay)` over the grids the first run left, without a reset, it changes no cell
of either grid; in particular so after the frame drawn from a reset buffer. -/
theorem C17_sampling_loop_idempotent (ax ay : ℝ) (fb : FrameBuffer) :
    samplingLoop ax ay (samplingLoop ax ay fb) = samplingLoop ax ay fb ∧
      samplingLoop ax ay (renderFrame ax ay) = renderFrame ax ay :=
  ⟨samplingLoop_idem ax ay fb, samplingLoop_idem ax ay FrameBuffer.reset⟩

/-- C18: with the default constants, for every sample and all real angles the projected
column `j` satisfies `17 ≤ j ≤ 63`, hence `0 ≤ j < 80`: the bounds test fails exactly
when the row test fails.  Both ends are reached in the unrotated frame. -/
theorem C18_column_always_on_screen (u v : ℕ) (ax ay : ℝ) :
    (17 ≤ sampleJ ax ay u v ∧ sampleJ ax ay u v ≤ 63) ∧
      (0 ≤ sampleJ ax ay u v ∧ sampleJ ax ay u v < (kWidth : ℤ)) ∧
      (cellOf (sampleI ax ay u v) (sampleJ ax ay u v) = none ↔
        ¬(0 ≤ sampleI ax ay u v ∧ sampleI ax ay u v < (kHeight : ℤ))) ∧
      (sampleJ 0 0 58 0 = 17 ∧ sampleJ 0 0 92 0 = 63) := by
  have hj := sampleJ_bounds ax ay u v
  have hw : (kWidth : ℤ) = 80 := rfl
  refine ⟨hj, ⟨by omega, by omega⟩, ?_, sampleJ_58, sampleJ_92⟩
  rw [cellOf_eq_none_iff]
  constructor
  · intro h hrow
    exact h ⟨hrow.1, hrow.2, by omega, by omega⟩
  · intro h hall
    exact h ⟨hall.1, hall.2.1⟩

end Donut
